import Mathlib

/-
Verification of the `list_set` crate: a set of doubly-linked lists packed
into one contiguous arena (`Vec<Node<T>>`), with O(1) node removal by
swap-with-last compaction.

The Rust source (`src/lib.rs`) is shallowly embedded below:
  * `usize` indices become `Nat`; the sentinel `usize::MAX` becomes `SENTINEL`;
  * `Vec<Node<T>>` becomes `List (Node T)` with positional access `nth` and
    positional update `upd`;
  * the `FnvHashMap<ListIndex, LinkedList<T>>` becomes an association list
    `List (Nat × LinkedList)` with `lookupList` / `setList` / `insertList` /
    `removeKey` (iteration order of the hash map is unspecified in the
    source, so an association list is a faithful model of its map contract);
  * fallible code (Rust panics: indexing a missing key, out-of-bounds slice
    access, `usize` under/overflow in debug builds, `Vec` capacity exhaustion)
    is modelled with `Option`, `none` meaning the call panics/aborts.
-/

set_option maxHeartbeats 1000000
set_option autoImplicit false

universe u

-- Positional read of a contiguous sequence: models `&v[i]` on a `Vec`/slice.
def nth {α : Type u} : List α → Nat → Option α
  | [], _ => none
  | a :: _, 0 => some a
  | _ :: l, i + 1 => nth l i

-- Positional write: models `v[i] = x` (out-of-range writes are dropped here;
-- every use below first checks the bound and returns `none` on violation).
def upd {α : Type u} : List α → Nat → α → List α
  | [], _, _ => []
  | _ :: l, 0, b => b :: l
  | a :: l, i + 1, b => a :: upd l i b

-- The sentinel index: `NodeIndex::end()` and `ListIndex::end()` are both
-- `usize::MAX` in the source.
def SENTINEL : Nat := 2 ^ 64 - 1

-- One element of a linked list: payload, owning-list handle and the two
-- neighbour links (`Node<T>` in the source).
structure Node (T : Type u) where
  item : T
  list : Nat
  previous : Nat
  next : Nat
deriving DecidableEq

-- Construct a fresh unlinked node (`Node::new`).
def Node.new {T : Type u} (list_index : Nat) (item : T) : Node T :=
  { item := item, list := list_index, previous := SENTINEL, next := SENTINEL }

-- Per-list record: front node, back node, element count (`LinkedList<T>`;
-- the `PhantomData` marker carries no data and is dropped).
structure LinkedList where
  front : Nat
  back : Nat
  length : Nat
deriving DecidableEq

-- `LinkedList::new`.
def LinkedList.new : LinkedList :=
  { front := SENTINEL, back := SENTINEL, length := 0 }

-- `LinkedList::is_empty`.
def LinkedList.is_empty (l : LinkedList) : Bool :=
  decide (l.front = SENTINEL) && decide (l.back = SENTINEL)

-- `LinkedList::len`.
def LinkedList.len (l : LinkedList) : Nat :=
  l.length

-- Association-list model of the handle table `FnvHashMap<ListIndex, LinkedList>`.
-- `HashMap::get` / index lookup.
def lookupList : List (Nat × LinkedList) → Nat → Option LinkedList
  | [], _ => none
  | (k, v) :: m, k' => if k = k' then some v else lookupList m k'

-- Overwrite the value of an existing key (used for writes through
-- `get_list_mut_unchecked`; a missing key leaves the table unchanged, and
-- every use below first establishes that the key is present).
def setList : List (Nat × LinkedList) → Nat → LinkedList → List (Nat × LinkedList)
  | [], _, _ => []
  | (k, v) :: m, k', v' => if k = k' then (k, v') :: m else (k, v) :: setList m k' v'

-- `HashMap::insert`: replace the value if the key is present, else add it.
def insertList (m : List (Nat × LinkedList)) (k : Nat) (v : LinkedList) :
    List (Nat × LinkedList) :=
  match lookupList m k with
  | some _ => setList m k v
  | none => m ++ [(k, v)]

-- `HashMap::remove`.
def removeKey : List (Nat × LinkedList) → Nat → List (Nat × LinkedList)
  | [], _ => []
  | (k, v) :: m, k' => if k = k' then m else (k, v) :: removeKey m k'

-- The keys of the table.
def keysOf (m : List (Nat × LinkedList)) : List Nat :=
  m.map Prod.fst

-- The linked list set (`LinkedListSet<T>`): handle allocator counter,
-- handle table, and the node arena.
structure LinkedListSet (T : Type u) where
  alloc : Nat
  lists : List (Nat × LinkedList)
  nodes : List (Node T)
deriving DecidableEq

namespace LinkedListSet

variable {T : Type u}

-- `LinkedListSet::new` (and `with_capacity`, whose capacity hint does not
-- change the observable state modelled here).
def new : LinkedListSet T :=
  { alloc := 0, lists := [], nodes := [] }

-- `LinkedListSet::new_list`. The allocator issues the current counter value
-- and increments; in a debug build `current += 1` panics on `usize`
-- overflow (the spec calls allocator exhaustion an explicit fatal
-- condition), which is the `none` branch.
def new_list (s : LinkedListSet T) : Option (Nat × LinkedListSet T) :=
  if s.alloc = SENTINEL then none
  else
    some (s.alloc,
      { s with alloc := s.alloc + 1,
               lists := insertList s.lists s.alloc LinkedList.new })

-- `LinkedListSet::is_empty` (no lists at all).
def is_empty (s : LinkedListSet T) : Bool :=
  decide (s.lists = [])

-- `LinkedListSet::contains_list`.
def contains_list (s : LinkedListSet T) (li : Nat) : Bool :=
  (lookupList s.lists li).isSome

-- `LinkedListSet::get_list` (checked lookup).
def get_list (s : LinkedListSet T) (li : Nat) : Option LinkedList :=
  lookupList s.lists li

-- `LinkedListSet::len`: reads through `get_list_unchecked`, which panics
-- (`none`) when the handle is unknown.
def len (s : LinkedListSet T) (li : Nat) : Option Nat :=
  match lookupList s.lists li with
  | none => none
  | some l => some l.len

-- `LinkedListSet::list_is_empty`: same unchecked read.
def list_is_empty (s : LinkedListSet T) (li : Nat) : Option Bool :=
  match lookupList s.lists li with
  | none => none
  | some l => some l.is_empty

-- `LinkedListSet::list_count`.
def list_count (s : LinkedListSet T) : Nat :=
  s.lists.length

-- `LinkedListSet::node_count`.
def node_count (s : LinkedListSet T) : Nat :=
  s.nodes.length

-- Field update of the node at a position, through `get_node_mut_unchecked`:
-- panics (`none`) when the position is out of bounds.
def modifyNode (nodes : List (Node T)) (i : Nat) (f : Node T → Node T) :
    Option (List (Node T)) :=
  match nth nodes i with
  | none => none
  | some n => some (upd nodes i (f n))

-- `LinkedListSet::link_list_node`: set the new node's links, then patch the
-- `previous` of the next neighbour and the `next` of the previous neighbour.
def link_list_node (s : LinkedListSet T) (node_index previous_index next_index : Nat) :
    Option (LinkedListSet T) :=
  (modifyNode s.nodes node_index
    (fun n => { n with previous := previous_index, next := next_index })).bind (fun nodes₁ =>
  (if next_index ≠ SENTINEL then
      modifyNode nodes₁ next_index (fun n => { n with previous := node_index })
    else
      some nodes₁).bind (fun nodes₂ =>
  (if previous_index ≠ SENTINEL then
      modifyNode nodes₂ previous_index (fun n => { n with next := node_index })
    else
      some nodes₂).bind (fun nodes₃ =>
  some { s with nodes := nodes₃ })))

-- `LinkedListSet::push_back`. The leading bound check models `Vec::push`
-- aborting on capacity overflow: a `Vec` of nodes can never reach
-- `usize::MAX` elements, which keeps arena positions distinct from the
-- sentinel. After the push, the source reads the list record through
-- `get_list_unchecked`, which panics (`none`) for an unknown handle.
def push_back (s : LinkedListSet T) (li : Nat) (item : T) : Option (LinkedListSet T) :=
  if SENTINEL ≤ s.nodes.length then none
  else
    let new_node_index := s.nodes.length
    let s₁ : LinkedListSet T := { s with nodes := s.nodes ++ [Node.new li item] }
    match lookupList s₁.lists li with
    | none => none
    | some l =>
      (if l.is_empty then
          let lset := { l with front := new_node_index, back := new_node_index }
          some { s₁ with lists := setList s₁.lists li lset }
        else
          (link_list_node s₁ new_node_index l.back SENTINEL).bind (fun s' =>
            match lookupList s'.lists li with
            | none => none
            | some l' =>
              some { s' with lists := setList s'.lists li ({ l' with back := new_node_index }) })).bind
        (fun s₂ =>
          match lookupList s₂.lists li with
          | none => none
          | some l₂ =>
            some { s₂ with lists := setList s₂.lists li ({ l₂ with length := l₂.length + 1 }) })

-- `LinkedListSet::push_front`: mirror image of `push_back`.
def push_front (s : LinkedListSet T) (li : Nat) (item : T) : Option (LinkedListSet T) :=
  if SENTINEL ≤ s.nodes.length then none
  else
    let new_node_index := s.nodes.length
    let s₁ : LinkedListSet T := { s with nodes := s.nodes ++ [Node.new li item] }
    match lookupList s₁.lists li with
    | none => none
    | some l =>
      (if l.is_empty then
          let lset := { l with front := new_node_index, back := new_node_index }
          some { s₁ with lists := setList s₁.lists li lset }
        else
          (link_list_node s₁ new_node_index SENTINEL l.front).bind (fun s' =>
            match lookupList s'.lists li with
            | none => none
            | some l' =>
              some { s' with lists := setList s'.lists li ({ l' with front := new_node_index }) })).bind
        (fun s₂ =>
          match lookupList s₂.lists li with
          | none => none
          | some l₂ =>
            some { s₂ with lists := setList s₂.lists li ({ l₂ with length := l₂.length + 1 }) })

-- `LinkedListSet::unlink_list_node`: read the victim's links, patch the two
-- neighbours, then fix the owning record's front/back and decrement its
-- length (`length -= 1` panics on underflow in a debug build: `none`).
def unlink_list_node (s : LinkedListSet T) (node_index : Nat) : Option (LinkedListSet T) :=
  match nth s.nodes node_index with
  | none => none
  | some node =>
    let previous_index := node.previous
    let next_index := node.next
    (if previous_index ≠ SENTINEL then
        modifyNode s.nodes previous_index (fun n => { n with next := next_index })
      else
        some s.nodes).bind (fun nodes₁ =>
    (if next_index ≠ SENTINEL then
        modifyNode nodes₁ next_index (fun n => { n with previous := previous_index })
      else
        some nodes₁).bind (fun nodes₂ =>
    match nth nodes₂ node_index with
    | none => none
    | some node₂ =>
      match lookupList s.lists node₂.list with
      | none => none
      | some l =>
        if l.length = 0 then none
        else
          some { s with nodes := nodes₂,
                        lists := setList s.lists node₂.list
                          { front := if l.front = node_index then next_index else l.front,
                            back := if l.back = node_index then previous_index else l.back,
                            length := l.length - 1 } }))

-- `LinkedListSet::relink_list_node`: retarget the neighbours of the node at
-- `old_node_index` to `new_node_index`, then fix its owning record's
-- front/back, in preparation for the physical move done by `swap_remove`.
def relink_list_node (s : LinkedListSet T) (old_node_index new_node_index : Nat) :
    Option (LinkedListSet T) :=
  if old_node_index = new_node_index then some s
  else
    match nth s.nodes old_node_index with
    | none => none
    | some node =>
      let previous_index := node.previous
      let next_index := node.next
      (if previous_index ≠ SENTINEL then
          modifyNode s.nodes previous_index (fun n => { n with next := new_node_index })
        else
          some s.nodes).bind (fun nodes₁ =>
      (if next_index ≠ SENTINEL then
          modifyNode nodes₁ next_index (fun n => { n with previous := new_node_index })
        else
          some nodes₁).bind (fun nodes₂ =>
      match nth nodes₂ old_node_index with
      | none => none
      | some node₂ =>
        match lookupList s.lists node₂.list with
        | none => none
        | some l =>
          some { s with nodes := nodes₂,
                        lists := setList s.lists node₂.list
                          { l with front := if l.front = old_node_index then new_node_index else l.front,
                                   back := if l.back = old_node_index then new_node_index else l.back } }))

-- `Vec::swap_remove`: overwrite slot `i` with the final element and drop the
-- final slot; panics (`none`) when `i` is out of bounds.
def swap_remove (nodes : List (Node T)) (i : Nat) : Option (Node T × List (Node T)) :=
  match nth nodes i, nodes.getLast? with
  | some removed, some lastNode => some (removed, (upd nodes i lastNode).dropLast)
  | _, _ => none

-- `LinkedListSet::remove_list_node`: unlink, relink the arena's final node
-- onto the freed slot, swap-remove. `self.nodes.len() - 1` underflows
-- (debug panic) on an empty arena.
def remove_list_node (s : LinkedListSet T) (node_to_be_removed_index : Nat) :
    Option (T × LinkedListSet T) :=
  if s.nodes.length = 0 then none
  else
    let node_to_be_moved_index := s.nodes.length - 1
    (unlink_list_node s node_to_be_removed_index).bind (fun s₁ =>
    (relink_list_node s₁ node_to_be_moved_index node_to_be_removed_index).bind (fun s₂ =>
    match swap_remove s₂.nodes node_to_be_removed_index with
    | none => none
    | some (removed, nodes') => some (removed.item, { s₂ with nodes := nodes' })))

-- The `while` loop of `LinkedListSet::remove`, walking the chain from the
-- front and counting positions. The fuel argument bounds the walk; the
-- caller passes more fuel than any chain of a well-formed arena can need,
-- and exhaustion (`none` at fuel 0) is unreachable in such states.
def remove_loop (s : LinkedListSet T) (a : Nat) :
    Nat → Nat → Nat → Option (Option (T × Nat) × LinkedListSet T)
  | 0, _, _ => none
  | fuel + 1, cur, i =>
    if cur = SENTINEL then some (none, s)
    else
      match nth s.nodes cur with
      | none => none
      | some node =>
        if i = a then
          match remove_list_node s cur with
          | none => none
          | some (t, s') => some (some (t, i), s')
        else
          remove_loop s a fuel node.next (i + 1)

-- `LinkedListSet::remove`: the initial `get_list_unchecked` panics (`none`)
-- for an unknown handle.
def remove (s : LinkedListSet T) (li : Nat) (a : Nat) :
    Option (Option (T × Nat) × LinkedListSet T) :=
  match lookupList s.lists li with
  | none => none
  | some l => remove_loop s a (s.nodes.length + 1) l.front 0

-- The `while` loop of `LinkedListSet::remove_item`.
def remove_item_loop [DecidableEq T] (s : LinkedListSet T) (item : T) :
    Nat → Nat → Nat → Option (Option (T × Nat) × LinkedListSet T)
  | 0, _, _ => none
  | fuel + 1, cur, i =>
    if cur = SENTINEL then some (none, s)
    else
      match nth s.nodes cur with
      | none => none
      | some node =>
        if node.item = item then
          match remove_list_node s cur with
          | none => none
          | some (t, s') => some (some (t, i), s')
        else
          remove_item_loop s item fuel node.next (i + 1)

-- `LinkedListSet::remove_item`: also starts from `get_list_unchecked`.
def remove_item [DecidableEq T] (s : LinkedListSet T) (li : Nat) (item : T) :
    Option (Option (T × Nat) × LinkedListSet T) :=
  match lookupList s.lists li with
  | none => none
  | some l => remove_item_loop s item (s.nodes.length + 1) l.front 0

-- `LinkedListSet::pop_front`: unchecked record read, then remove the front
-- node when there is one.
def pop_front (s : LinkedListSet T) (li : Nat) : Option (Option T × LinkedListSet T) :=
  match lookupList s.lists li with
  | none => none
  | some l =>
    if l.front ≠ SENTINEL then
      match remove_list_node s l.front with
      | none => none
      | some (t, s') => some (some t, s')
    else
      some (none, s)

-- `LinkedListSet::pop_back`.
def pop_back (s : LinkedListSet T) (li : Nat) : Option (Option T × LinkedListSet T) :=
  match lookupList s.lists li with
  | none => none
  | some l =>
    if l.back ≠ SENTINEL then
      match remove_list_node s l.back with
      | none => none
      | some (t, s') => some (some t, s')
    else
      some (none, s)

-- The `while` loop of `LinkedListSet::clear` (`pop_front` until empty),
-- fuelled like `remove_loop`.
def clear_loop : Nat → LinkedListSet T → Nat → Option (LinkedListSet T)
  | 0, _, _ => none
  | fuel + 1, s, li =>
    match lookupList s.lists li with
    | none => none
    | some l =>
      if l.is_empty then some s
      else
        match pop_front s li with
        | none => none
        | some (_, s') => clear_loop fuel s' li

-- `LinkedListSet::clear`.
def clear (s : LinkedListSet T) (li : Nat) : Option (LinkedListSet T) :=
  clear_loop (s.nodes.length + 1) s li

-- `LinkedListSet::remove_list`: checked, clears then deletes the record.
def remove_list (s : LinkedListSet T) (li : Nat) : Option (Bool × LinkedListSet T) :=
  if s.contains_list li then
    match s.clear li with
    | none => none
    | some s' => some (true, { s' with lists := removeKey s'.lists li })
  else
    some (false, s)

-- `LinkedListSet::extend`: `push_back` each item in order.
def extend (s : LinkedListSet T) (li : Nat) : List T → Option (LinkedListSet T)
  | [] => some s
  | x :: xs =>
    match push_back s li x with
    | none => none
    | some s' => extend s' li xs

-- A sequence of `push_front` calls (the front-pushing counterpart of
-- `extend`, used to state the reverse-order property).
def push_front_all (s : LinkedListSet T) (li : Nat) : List T → Option (LinkedListSet T)
  | [] => some s
  | x :: xs =>
    match push_front s li x with
    | none => none
    | some s' => push_front_all s' li xs

-- `LinkedListSet::clear_all`: drop the arena and the whole table (the
-- allocator counter is untouched, so handles are still never reused).
def clear_all (s : LinkedListSet T) : LinkedListSet T :=
  { s with lists := [], nodes := [] }

-- `LinkedListSet::front`: checked record lookup (absent handle gives the
-- absent result), then an unchecked node read.
def front (s : LinkedListSet T) (li : Nat) : Option (Option T) :=
  match lookupList s.lists li with
  | none => some none
  | some l =>
    if l.front ≠ SENTINEL then
      match nth s.nodes l.front with
      | none => none
      | some n => some (some n.item)
    else
      some none

-- `LinkedListSet::back`.
def back (s : LinkedListSet T) (li : Nat) : Option (Option T) :=
  match lookupList s.lists li with
  | none => some none
  | some l =>
    if l.back ≠ SENTINEL then
      match nth s.nodes l.back with
      | none => none
      | some n => some (some n.item)
    else
      some none

-- A caller's write through a mutable payload reference obtained from
-- `front_mut` / `back_mut` / `iter_mut`: it replaces the `item` field of one
-- node and touches nothing else.
def write_item (s : LinkedListSet T) (i : Nat) (x : T) : Option (LinkedListSet T) :=
  match nth s.nodes i with
  | none => none
  | some n => some { s with nodes := upd s.nodes i { n with item := x } }

end LinkedListSet

-- Immutable double-ended iterator (`ListIter<'a, T>`), holding the snapshot
-- of the record and a copy of the arena reference.
structure ListIter (T : Type u) where
  current_front : Nat
  current_back : Nat
  position_front : Nat
  position_back : Nat
  list : LinkedList
  nodes : List (Node T)
deriving DecidableEq

-- `LinkedListSet::iter`: built through `get_list_unchecked`, which panics
-- (`none`) on an unknown handle.
def LinkedListSet.iter {T : Type u} (s : LinkedListSet T) (li : Nat) : Option (ListIter T) :=
  match lookupList s.lists li with
  | none => none
  | some l => some
    { current_front := l.front, current_back := l.back,
      position_front := 0, position_back := 0,
      list := l, nodes := s.nodes }

-- `ListIter::next`. Outer `none`: the slice indexing panicked; `some none`:
-- the iterator end returned `None`; `some (some _)`: a payload was yielded.
def ListIter.next {T : Type u} (it : ListIter T) : Option (Option (T × ListIter T)) :=
  if it.current_front ≠ SENTINEL then
    match nth it.nodes it.current_front with
    | none => none
    | some node => some (some (node.item,
        { it with current_front := node.next,
                  position_front := it.position_front + 1 }))
  else
    some none

-- `ListIter::next_back`.
def ListIter.next_back {T : Type u} (it : ListIter T) : Option (Option (T × ListIter T)) :=
  if it.current_back ≠ SENTINEL then
    match nth it.nodes it.current_back with
    | none => none
    | some node => some (some (node.item,
        { it with current_back := node.previous,
                  position_back := it.position_back + 1 }))
  else
    some none

-- `ListIter::size_hint`: `list.len() - position_front` as `usize`
-- subtraction (debug underflow panics: `none`); lower and upper bound
-- coincide, so a single number is returned.
def ListIter.size_hint {T : Type u} (it : ListIter T) : Option Nat :=
  if it.list.len < it.position_front then none
  else some (it.list.len - it.position_front)

-- Drive an iterator by a sequence of end choices: `true` calls `next`,
-- `false` calls `next_back`; collects the yielded payloads in call order.
-- A call that returns its absent result does not stop the run.
def runIter {T : Type u} : ListIter T → List Bool → Option (List T × ListIter T)
  | it, [] => some ([], it)
  | it, d :: ds =>
    match (if d then it.next else it.next_back) with
    | none => none
    | some none => runIter it ds
    | some (some (x, it')) =>
      match runIter it' ds with
      | none => none
      | some (xs, itf) => some (x :: xs, itf)

-- The pointer-arithmetic bounds assertion of `ListIterMut::next` /
-- `next_back`: with `peak_ptr = base_ptr.add(len)` and
-- `ptr = base_ptr.add(count)`, it checks `(ptr <= peak_ptr) && (ptr >= base_ptr)`.
-- Addresses are modelled as naturals.
def bounded_by (base_ptr len count : Nat) : Bool :=
  let peak_ptr := base_ptr + len
  let ptr := base_ptr + count
  decide (ptr ≤ peak_ptr) && decide (base_ptr ≤ ptr)

-- Mutable double-ended iterator (`ListIterMut<'a, T>`); same cursor state as
-- `ListIter`.
structure ListIterMut (T : Type u) where
  current_front : Nat
  current_back : Nat
  position_front : Nat
  position_back : Nat
  list : LinkedList
  nodes : List (Node T)
deriving DecidableEq

-- `LinkedListSet::iter_mut`.
def LinkedListSet.iter_mut {T : Type u} (s : LinkedListSet T) (li : Nat) :
    Option (ListIterMut T) :=
  match lookupList s.lists li with
  | none => none
  | some l => some
    { current_front := l.front, current_back := l.back,
      position_front := 0, position_back := 0,
      list := l, nodes := s.nodes }

-- `ListIterMut::next`: asserts `bounded_by` (a failed assertion panics:
-- `none`), then dereferences the cursor position. A dereference at
-- `count = len` would be out of bounds even though the assertion passed;
-- that undefined behaviour is also modelled as `none`.
def ListIterMut.next {T : Type u} (it : ListIterMut T) : Option (Option (T × ListIterMut T)) :=
  if it.current_front ≠ SENTINEL then
    if bounded_by 0 it.nodes.length it.current_front then
      match nth it.nodes it.current_front with
      | none => none
      | some node => some (some (node.item,
          { it with current_front := node.next,
                    position_front := it.position_front + 1 }))
    else
      none
  else
    some none

-- `ListIterMut::next_back`.
def ListIterMut.next_back {T : Type u} (it : ListIterMut T) :
    Option (Option (T × ListIterMut T)) :=
  if it.current_back ≠ SENTINEL then
    if bounded_by 0 it.nodes.length it.current_back then
      match nth it.nodes it.current_back with
      | none => none
      | some node => some (some (node.item,
          { it with current_back := node.previous,
                    position_back := it.position_back + 1 }))
    else
      none
  else
    some none

-- `ListIterMut::size_hint`: identical to the immutable one.
def ListIterMut.size_hint {T : Type u} (it : ListIterMut T) : Option Nat :=
  if it.list.len < it.position_front then none
  else some (it.list.len - it.position_front)

-- The payload at an arena position, when the position is occupied.
def itemAt {T : Type u} (nodes : List (Node T)) (i : Nat) : Option T :=
  (nth nodes i).map Node.item

-- The payloads read off a list of arena positions.
def itemsOf {T : Type u} (nodes : List (Node T)) (ixs : List Nat) : List T :=
  ixs.filterMap (itemAt nodes)

-- The payload sequence obtained by walking `next` links from a start
-- position, exactly as `ListIter::next` does, with fuel bounding the walk.
def iterItems {T : Type u} (nodes : List (Node T)) : Nat → Nat → List T
  | 0, _ => []
  | fuel + 1, cur =>
    if cur = SENTINEL then []
    else
      match nth nodes cur with
      | none => []
      | some n => n.item :: iterItems nodes fuel n.next

-- The observable payload sequence of the list with handle `li`: what a full
-- forward `iter` pass yields. Unknown handles give `[]`.
def LinkedListSet.listItems {T : Type u} (s : LinkedListSet T) (li : Nat) : List T :=
  match lookupList s.lists li with
  | none => []
  | some l => iterItems s.nodes (s.nodes.length + 1) l.front

-- The chain predicate: `LinkedBtw nodes li prev ixs term` says the arena
-- positions `ixs` form a doubly-linked run of nodes all owned by list `li`,
-- entered from `prev` and exiting to `term`: each position holds a node
-- whose `previous` is its predecessor in the run (`prev` for the first) and
-- whose `next` is its successor (`term` for the last).
def LinkedBtw {T : Type u} (nodes : List (Node T)) (li : Nat) :
    Nat → List Nat → Nat → Prop
  | _, [], _ => True
  | prev, i :: rest, term =>
    ∃ n, nth nodes i = some n ∧ n.list = li ∧ n.previous = prev ∧
      n.next = rest.headD term ∧ LinkedBtw nodes li i rest term

-- A complete chain: sentinel-terminated on both sides, record agreeing on
-- front, back and length, and no repeated position.
def IsListChain {T : Type u} (nodes : List (Node T)) (li : Nat) (r : LinkedList)
    (ixs : List Nat) : Prop :=
  LinkedBtw nodes li SENTINEL ixs SENTINEL ∧
  r.front = ixs.headD SENTINEL ∧
  r.back = ixs.getLastD SENTINEL ∧
  r.length = ixs.length ∧
  ixs.Nodup

-- Structural well-formedness of a state, witnessed by an assignment `c` of
-- chains to handles: bounded arena, well-keyed table, a valid chain for
-- every live list, and every arena position on the chain of some live list.
structure WFc {T : Type u} (s : LinkedListSet T) (c : Nat → List Nat) : Prop where
  nodes_bound : s.nodes.length ≤ SENTINEL
  keys_nodup : (keysOf s.lists).Nodup
  keys_lt_alloc : ∀ li r, (li, r) ∈ s.lists → li < s.alloc
  chains : ∀ li r, lookupList s.lists li = some r → IsListChain s.nodes li r (c li)
  covers : ∀ i, i < s.nodes.length → ∃ li r, lookupList s.lists li = some r ∧ i ∈ c li

-- Well-formedness.
def WF {T : Type u} (s : LinkedListSet T) : Prop :=
  ∃ c, WFc s c

-- Intermediate well-formedness after `unlink_list_node` removed position
-- `p` from its chain: like `WFc`, but position `p` is orphaned — it is
-- covered by no chain, and coverage of the arena exempts it.
structure WFx {T : Type u} (s : LinkedListSet T) (c : Nat → List Nat) (p : Nat) : Prop where
  nodes_bound : s.nodes.length ≤ SENTINEL
  keys_nodup : (keysOf s.lists).Nodup
  keys_lt_alloc : ∀ li r, (li, r) ∈ s.lists → li < s.alloc
  chains : ∀ li r, lookupList s.lists li = some r → IsListChain s.nodes li r (c li)
  covers_ex : ∀ i, i < s.nodes.length → i ≠ p → ∃ li r, lookupList s.lists li = some r ∧ i ∈ c li
  orphan : ∀ li r, lookupList s.lists li = some r → p ∉ c li
  p_lt : p < s.nodes.length

-- Link symmetry over the whole arena: a non-sentinel `next` is inverted by
-- `previous` at its target, and a non-sentinel `previous` by `next`.
def LinkSym {T : Type u} (s : LinkedListSet T) : Prop :=
  (∀ i n, nth s.nodes i = some n → n.next ≠ SENTINEL →
    ∃ m, nth s.nodes n.next = some m ∧ m.previous = i) ∧
  (∀ i n, nth s.nodes i = some n → n.previous ≠ SENTINEL →
    ∃ m, nth s.nodes n.previous = some m ∧ m.next = i)

-- States reachable from the empty set by the public mutating interface.
-- `front` / `back` / `contains` / `iter` and the introspection calls do not
-- mutate; writes through the mutable access paths (`front_mut`, `back_mut`,
-- `iter_mut`) replace one node's payload, covered by the `write_item` rule
-- (stated for an arbitrary occupied position, which subsumes every position
-- those paths can hand out).
inductive Reachable {T : Type u} [DecidableEq T] : LinkedListSet T → Prop
  | new : Reachable LinkedListSet.new
  | new_list {s li s'} : Reachable s →
      LinkedListSet.new_list s = some (li, s') → Reachable s'
  | push_back {s li x s'} : Reachable s →
      LinkedListSet.push_back s li x = some s' → Reachable s'
  | push_front {s li x s'} : Reachable s →
      LinkedListSet.push_front s li x = some s' → Reachable s'
  | pop_front {s li r s'} : Reachable s →
      LinkedListSet.pop_front s li = some (r, s') → Reachable s'
  | pop_back {s li r s'} : Reachable s →
      LinkedListSet.pop_back s li = some (r, s') → Reachable s'
  | remove {s li a r s'} : Reachable s →
      LinkedListSet.remove s li a = some (r, s') → Reachable s'
  | remove_item {s li x r s'} : Reachable s →
      LinkedListSet.remove_item s li x = some (r, s') → Reachable s'
  | clear {s li s'} : Reachable s →
      LinkedListSet.clear s li = some s' → Reachable s'
  | remove_list {s li r s'} : Reachable s →
      LinkedListSet.remove_list s li = some (r, s') → Reachable s'
  | extend {s li xs s'} : Reachable s →
      LinkedListSet.extend s li xs = some s' → Reachable s'
  | clear_all {s} : Reachable s → Reachable (LinkedListSet.clear_all s)
  | write_item {s i x s'} : Reachable s →
      LinkedListSet.write_item s i x = some s' → Reachable s'

-- Pointwise update of a chain assignment: used to state how one list's
-- chain changes while all others keep theirs.
def chupd (c : Nat → List Nat) (k : Nat) (ixs : List Nat) : Nat → List Nat :=
  fun li => if li = k then ixs else c li

-- Count, along a drive sequence, the calls that go through `next` (the
-- front end) and yield a payload: the quantity `position_front` advances by
-- over the run, and the amount `size_hint` subtracts from the length.
def countFrontYields {T : Type u} : ListIter T → List Bool → Nat
  | _, [] => 0
  | it, d :: ds =>
    match (if d then it.next else it.next_back) with
    | none => 0
    | some none => countFrontYields it ds
    | some (some (_, it')) => (if d then 1 else 0) + countFrontYields it' ds

/-
Concrete states reached by short call sequences from the empty set, used to
instantiate the general theorems on closed inputs.
-/

-- After `new_list` on the empty set: one empty list with handle 0.
def exA : LinkedListSet Nat :=
  { alloc := 1, lists := [(0, LinkedList.new)], nodes := [] }

-- `exA` extended with `push_back` 10, 20, 30 on handle 0.
def exB : LinkedListSet Nat :=
  { alloc := 1,
    lists := [(0, { front := 0, back := 2, length := 3 })],
    nodes := [{ item := 10, list := 0, previous := SENTINEL, next := 1 },
              { item := 20, list := 0, previous := 0, next := 2 },
              { item := 30, list := 0, previous := 1, next := SENTINEL }] }

-- `exB` after `pop_front` on handle 0: the arena's last node (payload 30)
-- was swap-relocated into slot 0.
def exC : LinkedListSet Nat :=
  { alloc := 1,
    lists := [(0, { front := 1, back := 0, length := 2 })],
    nodes := [{ item := 30, list := 0, previous := 1, next := SENTINEL },
              { item := 20, list := 0, previous := SENTINEL, next := 0 }] }

-- Two empty lists (handles 0 and 1).
def exD : LinkedListSet Nat :=
  { alloc := 2, lists := [(0, LinkedList.new), (1, LinkedList.new)], nodes := [] }

-- `exD` after `push_back 0 10` then `push_back 1 20`: the two lists
-- interleave in the arena.
def exE : LinkedListSet Nat :=
  { alloc := 2,
    lists := [(0, { front := 0, back := 0, length := 1 }),
              (1, { front := 1, back := 1, length := 1 })],
    nodes := [{ item := 10, list := 0, previous := SENTINEL, next := SENTINEL },
              { item := 20, list := 1, previous := SENTINEL, next := SENTINEL }] }

-- `exE` after `pop_front` on handle 0: list 1's node moved from arena slot 1
-- to slot 0, and list 1's record was rewritten to point at the new slot.
def exF : LinkedListSet Nat :=
  { alloc := 2,
    lists := [(0, { front := SENTINEL, back := SENTINEL, length := 0 }),
              (1, { front := 0, back := 0, length := 1 })],
    nodes := [{ item := 20, list := 1, previous := SENTINEL, next := SENTINEL }] }

-- `exA` after `push_front` 10 then 20 on handle 0.
def exG : LinkedListSet Nat :=
  { alloc := 1,
    lists := [(0, { front := 1, back := 0, length := 2 })],
    nodes := [{ item := 10, list := 0, previous := 1, next := SENTINEL },
              { item := 20, list := 0, previous := SENTINEL, next := 0 }] }

-- `exA` extended with `push_back` 10 then 20 on handle 0.
def exH : LinkedListSet Nat :=
  { alloc := 1,
    lists := [(0, { front := 0, back := 1, length := 2 })],
    nodes := [{ item := 10, list := 0, previous := SENTINEL, next := 1 },
              { item := 20, list := 0, previous := 0, next := SENTINEL }] }

-- The iterator `exH.iter 0` starts with.
def exIt : ListIter Nat :=
  { current_front := 0, current_back := 1, position_front := 0,
    position_back := 0, list := { front := 0, back := 1, length := 2 },
    nodes := [{ item := 10, list := 0, previous := SENTINEL, next := 1 },
              { item := 20, list := 0, previous := 0, next := SENTINEL }] }

-- `exIt` after one `next` (yield 10) and one `next_back` (yield 20): both
-- payloads are out, yet `position_front` has only advanced once.
def exItF : ListIter Nat :=
  { current_front := 1, current_back := 0, position_front := 1,
    position_back := 1, list := { front := 0, back := 1, length := 2 },
    nodes := [{ item := 10, list := 0, previous := SENTINEL, next := 1 },
              { item := 20, list := 0, previous := 0, next := SENTINEL }] }

/-
Lemma library, part 1: positional access and update.
-/

theorem chupd_self (c : Nat → List Nat) (k : Nat) (ixs : List Nat) :
    chupd c k ixs k = ixs := by
  simp [chupd]

theorem chupd_ne (c : Nat → List Nat) (k : Nat) (ixs : List Nat) {li : Nat}
    (h : li ≠ k) : chupd c k ixs li = c li := by
  simp [chupd, h]

theorem nth_some_lt {α : Type u} : ∀ {l : List α} {i : Nat} {a : α},
    nth l i = some a → i < l.length := by
  intro l
  induction l with
  | nil => intro i a h; simp [nth] at h
  | cons x xs ih =>
    intro i a h
    cases i with
    | zero => simp
    | succ j => exact Nat.succ_lt_succ (ih h)

theorem exists_nth_of_lt {α : Type u} : ∀ {l : List α} {i : Nat},
    i < l.length → ∃ a, nth l i = some a := by
  intro l
  induction l with
  | nil => intro i h; simp at h
  | cons x xs ih =>
    intro i h
    cases i with
    | zero => exact ⟨x, rfl⟩
    | succ j => exact ih (Nat.lt_of_succ_lt_succ h)

theorem nth_mem {α : Type u} : ∀ {l : List α} {i : Nat} {a : α},
    nth l i = some a → a ∈ l := by
  intro l
  induction l with
  | nil => intro i a h; simp [nth] at h
  | cons x xs ih =>
    intro i a h
    cases i with
    | zero => simp [nth] at h; simp [h]
    | succ j => exact List.mem_cons_of_mem x (ih h)

theorem length_upd {α : Type u} : ∀ (l : List α) (i : Nat) (b : α),
    (upd l i b).length = l.length := by
  intro l
  induction l with
  | nil => intro i b; rfl
  | cons x xs ih =>
    intro i b
    cases i with
    | zero => rfl
    | succ j => simp [upd, ih]

theorem nth_upd_self {α : Type u} : ∀ {l : List α} {i : Nat},
    i < l.length → ∀ b : α, nth (upd l i b) i = some b := by
  intro l
  induction l with
  | nil => intro i h; simp at h
  | cons x xs ih =>
    intro i h b
    cases i with
    | zero => rfl
    | succ j => exact ih (Nat.lt_of_succ_lt_succ h) b

theorem nth_upd_ne {α : Type u} : ∀ (l : List α) {i j : Nat} (b : α),
    j ≠ i → nth (upd l i b) j = nth l j := by
  intro l
  induction l with
  | nil => intro i j b _; rfl
  | cons x xs ih =>
    intro i j b hne
    cases i with
    | zero =>
      cases j with
      | zero => exact absurd rfl hne
      | succ j' => rfl
    | succ i' =>
      cases j with
      | zero => rfl
      | succ j' => exact ih b (fun h => hne (by rw [h]))

theorem upd_nth_self {α : Type u} : ∀ {l : List α} {i : Nat} {a : α},
    nth l i = some a → upd l i a = l := by
  intro l
  induction l with
  | nil => intro i a h; simp [nth] at h
  | cons x xs ih =>
    intro i a h
    cases i with
    | zero => simp [nth] at h; simp [upd, h]
    | succ j => simp [upd, ih h]

theorem nth_append_lt {α : Type u} : ∀ {l : List α} (l' : List α) {i : Nat},
    i < l.length → nth (l ++ l') i = nth l i := by
  intro l
  induction l with
  | nil => intro l' i h; simp at h
  | cons x xs ih =>
    intro l' i h
    cases i with
    | zero => rfl
    | succ j => exact ih l' (Nat.lt_of_succ_lt_succ h)

theorem nth_append_len {α : Type u} : ∀ (l : List α) (a : α),
    nth (l ++ [a]) l.length = some a := by
  intro l
  induction l with
  | nil => intro a; rfl
  | cons x xs ih => intro a; exact ih a

theorem nth_dropLast {α : Type u} : ∀ {l : List α} {i : Nat},
    i + 1 < l.length → nth l.dropLast i = nth l i := by
  intro l
  induction l with
  | nil => intro i h; simp at h
  | cons x xs ih =>
    intro i h
    cases xs with
    | nil => simp at h
    | cons y ys =>
      cases i with
      | zero => rfl
      | succ j =>
        have h' : j + 1 < (y :: ys).length := Nat.lt_of_succ_lt_succ h
        simpa [nth] using ih h'

theorem getLast?_eq_nth {α : Type u} : ∀ (l : List α),
    l.getLast? = nth l (l.length - 1) := by
  intro l
  induction l with
  | nil => rfl
  | cons x xs ih =>
    cases xs with
    | nil => rfl
    | cons y ys =>
      rw [List.getLast?_cons_cons, ih]
      rfl

/-
Lemma library, part 2: the association-list table.
-/

theorem lookupList_mem : ∀ {m : List (Nat × LinkedList)} {k : Nat} {v : LinkedList},
    lookupList m k = some v → (k, v) ∈ m := by
  intro m
  induction m with
  | nil => intro k v h; simp [lookupList] at h
  | cons p m' ih =>
    intro k v h
    obtain ⟨k', v'⟩ := p
    by_cases hk : k' = k
    · subst hk
      simp [lookupList] at h
      simp [h]
    · simp [lookupList, hk] at h
      exact List.mem_cons_of_mem _ (ih h)

theorem lookupList_isSome_iff : ∀ {m : List (Nat × LinkedList)} {k : Nat},
    (lookupList m k).isSome ↔ k ∈ keysOf m := by
  intro m
  induction m with
  | nil => intro k; simp [lookupList, keysOf]
  | cons p m' ih =>
    intro k
    obtain ⟨k', v'⟩ := p
    by_cases hk : k' = k
    · subst hk; simp [lookupList, keysOf]
    · simp [lookupList, hk, keysOf] at ih ⊢
      rw [ih]
      constructor
      · exact fun h => Or.inr h
      · rintro (h | h)
        · exact absurd h.symm hk
        · exact h

theorem lookupList_eq_none_iff {m : List (Nat × LinkedList)} {k : Nat} :
    lookupList m k = none ↔ k ∉ keysOf m := by
  rw [← lookupList_isSome_iff]
  cases lookupList m k <;> simp

theorem keysOf_setList : ∀ (m : List (Nat × LinkedList)) (k : Nat) (v : LinkedList),
    keysOf (setList m k v) = keysOf m := by
  intro m
  induction m with
  | nil => intro k v; rfl
  | cons p m' ih =>
    intro k v
    obtain ⟨k', v'⟩ := p
    by_cases hk : k' = k
    · simp [setList, hk, keysOf]
    · simp [setList, hk, keysOf] at ih ⊢
      exact ih k v

theorem lookup_setList_self : ∀ {m : List (Nat × LinkedList)} {k : Nat} {w : LinkedList}
    (v : LinkedList), lookupList m k = some w →
    lookupList (setList m k v) k = some v := by
  intro m
  induction m with
  | nil => intro k w v h; simp [lookupList] at h
  | cons p m' ih =>
    intro k w v h
    obtain ⟨k', v'⟩ := p
    by_cases hk : k' = k
    · subst hk; simp [setList, lookupList]
    · simp [lookupList, hk] at h
      simp [setList, hk, lookupList]
      exact ih v h

theorem lookup_setList_ne : ∀ (m : List (Nat × LinkedList)) (k : Nat) (v : LinkedList)
    {j : Nat}, j ≠ k → lookupList (setList m k v) j = lookupList m j := by
  intro m
  induction m with
  | nil => intro k v j _; rfl
  | cons p m' ih =>
    intro k v j hj
    obtain ⟨k', v'⟩ := p
    by_cases hk : k' = k
    · subst hk
      have hkj : ¬ (k' = j) := fun h => hj h.symm
      simp [setList, lookupList, hkj]
    · simp [setList, hk, lookupList]
      by_cases hkj : k' = j
      · simp [hkj]
      · simp [hkj]
        exact ih k v hj

theorem mem_setList_keys : ∀ {m : List (Nat × LinkedList)} {k : Nat} {v : LinkedList}
    {li : Nat} {r : LinkedList}, (li, r) ∈ setList m k v → ∃ w, (li, w) ∈ m := by
  intro m
  induction m with
  | nil => intro k v li r h; simp [setList] at h
  | cons p m' ih =>
    intro k v li r h
    obtain ⟨k', v'⟩ := p
    by_cases hk : k' = k
    · simp [setList, hk] at h
      rcases h with ⟨h1, _⟩ | h2
      · exact ⟨v', by simp [h1, hk]⟩
      · exact ⟨r, List.mem_cons_of_mem _ h2⟩
    · simp [setList, hk] at h
      rcases h with ⟨h1, h2⟩ | h2
      · exact ⟨v', by simp [h1, h2]⟩
      · obtain ⟨w, hw⟩ := ih h2
        exact ⟨w, List.mem_cons_of_mem _ hw⟩

theorem lookup_append_sngl_self (m : List (Nat × LinkedList)) (k : Nat) (v : LinkedList) :
    lookupList m k = none → lookupList (m ++ [(k, v)]) k = some v := by
  induction m with
  | nil => intro _; simp [lookupList]
  | cons p m' ih =>
    intro h
    obtain ⟨k', v'⟩ := p
    by_cases hk : k' = k
    · simp [lookupList, hk] at h
    · simp [lookupList, hk] at h ⊢
      exact ih h

theorem lookup_append_sngl_ne (m : List (Nat × LinkedList)) (k : Nat) (v : LinkedList)
    {j : Nat} (hj : j ≠ k) : lookupList (m ++ [(k, v)]) j = lookupList m j := by
  induction m with
  | nil => simp [lookupList]; intro hkj; exact absurd hkj.symm hj
  | cons p m' ih =>
    obtain ⟨k', v'⟩ := p
    by_cases hkj : k' = j
    · simp [lookupList, hkj]
    · simp [lookupList, hkj]
      exact ih

theorem lookup_insertList_fresh_self (m : List (Nat × LinkedList)) (k : Nat)
    (v : LinkedList) (h : lookupList m k = none) :
    lookupList (insertList m k v) k = some v := by
  unfold insertList
  rw [h]
  exact lookup_append_sngl_self m k v h

theorem lookup_insertList_fresh_ne (m : List (Nat × LinkedList)) (k : Nat)
    (v : LinkedList) {j : Nat} (h : lookupList m k = none) (hj : j ≠ k) :
    lookupList (insertList m k v) j = lookupList m j := by
  unfold insertList
  rw [h]
  exact lookup_append_sngl_ne m k v hj

theorem keysOf_insertList_fresh (m : List (Nat × LinkedList)) (k : Nat)
    (v : LinkedList) (h : lookupList m k = none) :
    keysOf (insertList m k v) = keysOf m ++ [k] := by
  unfold insertList
  rw [h]
  simp [keysOf]

theorem mem_insertList_fresh {m : List (Nat × LinkedList)} {k : Nat} {v : LinkedList}
    {li : Nat} {r : LinkedList} (h : lookupList m k = none)
    (hm : (li, r) ∈ insertList m k v) : (li, r) ∈ m ∨ li = k := by
  unfold insertList at hm
  rw [h] at hm
  rcases List.mem_append.1 hm with h1 | h2
  · exact Or.inl h1
  · simp at h2
    exact Or.inr h2.1

theorem lookup_removeKey_ne : ∀ (m : List (Nat × LinkedList)) (k : Nat) {j : Nat},
    j ≠ k → lookupList (removeKey m k) j = lookupList m j := by
  intro m
  induction m with
  | nil => intro k j _; rfl
  | cons p m' ih =>
    intro k j hj
    obtain ⟨k', v'⟩ := p
    by_cases hk : k' = k
    · subst hk
      have hkj : ¬ (k' = j) := fun h => hj h.symm
      simp [removeKey, lookupList, hkj]
    · simp [removeKey, hk, lookupList]
      by_cases hkj : k' = j
      · simp [hkj]
      · simp [hkj]
        exact ih k hj

theorem keysOf_removeKey_sublist : ∀ (m : List (Nat × LinkedList)) (k : Nat),
    List.Sublist (keysOf (removeKey m k)) (keysOf m) := by
  intro m
  induction m with
  | nil => intro k; simp [removeKey, keysOf]
  | cons p m' ih =>
    intro k
    obtain ⟨k', v'⟩ := p
    by_cases hk : k' = k
    · simp only [removeKey, if_pos hk, keysOf, List.map_cons]
      exact List.sublist_cons_self _ _
    · simp only [removeKey, if_neg hk, keysOf, List.map_cons]
      exact List.Sublist.cons₂ _ (ih k)

theorem lookup_removeKey_self (m : List (Nat × LinkedList)) (k : Nat)
    (h : (keysOf m).Nodup) : lookupList (removeKey m k) k = none := by
  induction m with
  | nil => rfl
  | cons p m' ih =>
    obtain ⟨k', v'⟩ := p
    have hcons : (keysOf ((k', v') :: m')) = k' :: keysOf m' := by simp [keysOf]
    rw [hcons] at h
    rw [List.nodup_cons] at h
    by_cases hk : k' = k
    · subst hk
      simp only [removeKey, if_pos rfl]
      rw [lookupList_eq_none_iff]
      exact h.1
    · simp only [removeKey, if_neg hk, lookupList, if_neg hk]
      exact ih h.2

theorem mem_removeKey : ∀ {m : List (Nat × LinkedList)} {k : Nat}
    {p : Nat × LinkedList}, p ∈ removeKey m k → p ∈ m := by
  intro m
  induction m with
  | nil => intro k p h; simp [removeKey] at h
  | cons q m' ih =>
    intro k p h
    obtain ⟨k', v'⟩ := q
    by_cases hk : k' = k
    · simp [removeKey, hk] at h
      exact List.mem_cons_of_mem _ h
    · simp [removeKey, hk] at h
      rcases h with h1 | h2
      · simp [h1]
      · exact List.mem_cons_of_mem _ (ih h2)

/-
Lemma library, part 3: chains, payload reads, and the iterator walk.
-/

theorem LinkedBtw_nil {T : Type u} (nodes : List (Node T)) (li prev term : Nat) :
    LinkedBtw nodes li prev [] term :=
  trivial

theorem LinkedBtw_cons_iff {T : Type u} (nodes : List (Node T)) (li prev term i : Nat)
    (rest : List Nat) :
    LinkedBtw nodes li prev (i :: rest) term ↔
      ∃ n, nth nodes i = some n ∧ n.list = li ∧ n.previous = prev ∧
        n.next = rest.headD term ∧ LinkedBtw nodes li i rest term :=
  Iff.rfl

theorem headD_append {α : Type u} (xs ys : List α) (d : α) :
    (xs ++ ys).headD d = xs.headD (ys.headD d) := by
  cases xs <;> rfl

theorem getLastD_append {α : Type u} : ∀ (xs ys : List α) (d : α),
    (xs ++ ys).getLastD d = ys.getLastD (xs.getLastD d) := by
  intro xs
  induction xs with
  | nil => intro ys d; rfl
  | cons a l ih =>
    intro ys d
    simp only [List.cons_append, List.getLastD_cons]
    exact ih ys a

theorem LinkedBtw_append {T : Type u} (nodes : List (Node T)) (li : Nat) :
    ∀ (xs ys : List Nat) (prev term : Nat),
    LinkedBtw nodes li prev (xs ++ ys) term ↔
      (LinkedBtw nodes li prev xs (ys.headD term) ∧
        LinkedBtw nodes li (xs.getLastD prev) ys term) := by
  intro xs
  induction xs with
  | nil =>
    intro ys prev term
    constructor
    · intro h; exact ⟨LinkedBtw_nil nodes li prev _, h⟩
    · intro h; exact h.2
  | cons x xs' ih =>
    intro ys prev term
    rw [List.cons_append, LinkedBtw_cons_iff, LinkedBtw_cons_iff]
    constructor
    · rintro ⟨n, h1, h2, h3, h4, h5⟩
      rw [ih] at h5
      rw [headD_append] at h4
      refine ⟨⟨n, h1, h2, h3, h4, h5.1⟩, ?_⟩
      rw [List.getLastD_cons]
      exact h5.2
    · rintro ⟨⟨n, h1, h2, h3, h4, h5⟩, h6⟩
      refine ⟨n, h1, h2, h3, ?_, ?_⟩
      · rw [headD_append]; exact h4
      · rw [ih]
        refine ⟨h5, ?_⟩
        rw [List.getLastD_cons] at h6
        exact h6

theorem LinkedBtw_congr {T : Type u} {nodes nodes' : List (Node T)} {li : Nat} :
    ∀ {ixs : List Nat} {prev term : Nat},
    (∀ i ∈ ixs, nth nodes' i = nth nodes i) →
    LinkedBtw nodes li prev ixs term → LinkedBtw nodes' li prev ixs term := by
  intro ixs
  induction ixs with
  | nil => intro prev term _ _; exact LinkedBtw_nil nodes' li prev term
  | cons i rest ih =>
    intro prev term hc h
    obtain ⟨n, h1, h2, h3, h4, h5⟩ := h
    refine ⟨n, ?_, h2, h3, h4, ?_⟩
    · rw [hc i (by simp)]; exact h1
    · exact ih (fun j hj => hc j (List.mem_cons_of_mem _ hj)) h5

theorem LinkedBtw_mem_node {T : Type u} {nodes : List (Node T)} {li : Nat} :
    ∀ {ixs : List Nat} {prev term : Nat}, LinkedBtw nodes li prev ixs term →
    ∀ i ∈ ixs, ∃ n, nth nodes i = some n ∧ n.list = li := by
  intro ixs
  induction ixs with
  | nil => intro prev term _ i hi; simp at hi
  | cons j rest ih =>
    intro prev term h i hi
    obtain ⟨n, h1, h2, h3, h4, h5⟩ := h
    rcases List.mem_cons.1 hi with rfl | hi'
    · exact ⟨n, h1, h2⟩
    · exact ih h5 i hi'

theorem LinkedBtw_mem_lt {T : Type u} {nodes : List (Node T)} {li : Nat}
    {ixs : List Nat} {prev term : Nat} (h : LinkedBtw nodes li prev ixs term)
    {i : Nat} (hi : i ∈ ixs) : i < nodes.length := by
  obtain ⟨n, h1, _⟩ := LinkedBtw_mem_node h i hi
  exact nth_some_lt h1

theorem LinkedBtw_mem_ne_sentinel {T : Type u} {nodes : List (Node T)} {li : Nat}
    {ixs : List Nat} {prev term : Nat} (h : LinkedBtw nodes li prev ixs term)
    (hb : nodes.length ≤ SENTINEL) {i : Nat} (hi : i ∈ ixs) : i ≠ SENTINEL := by
  have := LinkedBtw_mem_lt h hi
  omega

theorem itemsOf_append {T : Type u} (nodes : List (Node T)) (xs ys : List Nat) :
    itemsOf nodes (xs ++ ys) = itemsOf nodes xs ++ itemsOf nodes ys := by
  simp [itemsOf]

theorem itemsOf_congr {T : Type u} {nodes nodes' : List (Node T)} :
    ∀ {ixs : List Nat}, (∀ i ∈ ixs, nth nodes' i = nth nodes i) →
    itemsOf nodes' ixs = itemsOf nodes ixs := by
  intro ixs
  induction ixs with
  | nil => intro _; rfl
  | cons i rest ih =>
    intro h
    simp only [itemsOf, List.filterMap_cons] at ih ⊢
    rw [show itemAt nodes' i = itemAt nodes i by
          unfold itemAt; rw [h i (by simp)]]
    cases itemAt nodes i with
    | none => exact ih (fun j hj => h j (List.mem_cons_of_mem _ hj))
    | some t => rw [ih (fun j hj => h j (List.mem_cons_of_mem _ hj))]

theorem itemsOf_cons_of_nth {T : Type u} {nodes : List (Node T)} {i : Nat} {n : Node T}
    (h : nth nodes i = some n) (rest : List Nat) :
    itemsOf nodes (i :: rest) = n.item :: itemsOf nodes rest := by
  simp [itemsOf, List.filterMap_cons, itemAt, h]

theorem itemsOf_length {T : Type u} {nodes : List (Node T)} {li : Nat} :
    ∀ {ixs : List Nat} {prev term : Nat}, LinkedBtw nodes li prev ixs term →
    (itemsOf nodes ixs).length = ixs.length := by
  intro ixs
  induction ixs with
  | nil => intro prev term _; rfl
  | cons i rest ih =>
    intro prev term h
    obtain ⟨n, h1, _, _, _, h5⟩ := h
    rw [itemsOf_cons_of_nth h1]
    simp [ih h5]

theorem nodup_bound_length {ixs : List Nat} {n : Nat} (hn : ixs.Nodup)
    (hb : ∀ i ∈ ixs, i < n) : ixs.length ≤ n := by
  classical
  have h1 : ixs.toFinset.card = ixs.length := List.toFinset_card_of_nodup hn
  have h2 : ixs.toFinset ⊆ Finset.range n := by
    intro i hi
    rw [List.mem_toFinset] at hi
    rw [Finset.mem_range]
    exact hb i hi
  have h3 := Finset.card_le_card h2
  rw [h1, Finset.card_range] at h3
  exact h3

theorem iterItems_of_chain {T : Type u} {nodes : List (Node T)} {li : Nat}
    (hb : nodes.length ≤ SENTINEL) :
    ∀ {w : List Nat} {prev fuel : Nat}, LinkedBtw nodes li prev w SENTINEL →
    w.length ≤ fuel → iterItems nodes fuel (w.headD SENTINEL) = itemsOf nodes w := by
  intro w
  induction w with
  | nil =>
    intro prev fuel _ _
    cases fuel with
    | zero => rfl
    | succ f => simp [iterItems, itemsOf]
  | cons i rest ih =>
    intro prev fuel h hf
    obtain ⟨n, h1, h2, h3, h4, h5⟩ := h
    cases fuel with
    | zero => simp at hf
    | succ f =>
      have hne : i ≠ SENTINEL := by
        have := nth_some_lt h1
        omega
      simp only [List.headD_cons]
      rw [show iterItems nodes (f + 1) i = n.item :: iterItems nodes f n.next by
            simp [iterItems, hne, h1]]
      rw [h4, ih h5 (by simpa using hf), itemsOf_cons_of_nth h1]

theorem listItems_eq_itemsOf {T : Type u} {s : LinkedListSet T} {c : Nat → List Nat}
    (w : WFc s c) {li : Nat} {r : LinkedList} (h : lookupList s.lists li = some r) :
    s.listItems li = itemsOf s.nodes (c li) := by
  obtain ⟨hl, hf, _, hlen, hnd⟩ := w.chains li r h
  have hsp : s.listItems li = iterItems s.nodes (s.nodes.length + 1) r.front := by
    simp [LinkedListSet.listItems, h]
  rw [hsp, hf]
  refine iterItems_of_chain w.nodes_bound hl ?_
  have : (c li).length ≤ s.nodes.length :=
    nodup_bound_length hnd (fun i hi => LinkedBtw_mem_lt hl hi)
  omega

/-
Lemma library, part 4: the neighbour-patching steps shared by
`unlink_list_node` and `relink_list_node`.
-/

theorem getLastD_concat {α : Type u} (l : List α) (a d : α) :
    (l ++ [a]).getLastD d = a := by
  rw [getLastD_append]
  rfl

theorem getLastD_mem {α : Type u} : ∀ {l : List α}, l ≠ [] → ∀ d : α, l.getLastD d ∈ l := by
  intro l
  induction l with
  | nil => intro h; exact absurd rfl h
  | cons a l' ih =>
    intro _ d
    cases l' with
    | nil => simp [List.getLastD_cons]
    | cons b l'' =>
      rw [List.getLastD_cons]
      exact List.mem_cons_of_mem _ (ih (by simp) a)

theorem headD_mem {α : Type u} {l : List α} (h : l ≠ []) (d : α) : l.headD d ∈ l := by
  cases l with
  | nil => exact absurd rfl h
  | cons a l' => simp

theorem nodup_mid {u v : List Nat} {p : Nat} (h : (u ++ p :: v).Nodup) :
    u.Nodup ∧ v.Nodup ∧ p ∉ u ∧ p ∉ v ∧ (∀ i ∈ u, i ∉ v) ∧ (u ++ v).Nodup := by
  rw [List.nodup_append] at h
  obtain ⟨hu, hpv, hdisj⟩ := h
  rw [List.nodup_cons] at hpv
  refine ⟨hu, hpv.2, ?_, hpv.1, ?_, ?_⟩
  · intro hp
    exact hdisj hp (by simp)
  · intro i hi hiv
    exact hdisj hi (by simp [hiv])
  · rw [List.nodup_append]
    exact ⟨hu, hpv.2, fun a ha hav => hdisj ha (by simp [hav])⟩

theorem itemAt_upd_item_eq {T : Type u} {nodes : List (Node T)} {e : Nat}
    {n n' : Node T} (h : nth nodes e = some n) (hitem : n'.item = n.item) :
    ∀ i, itemAt (upd nodes e n') i = itemAt nodes i := by
  intro i
  by_cases hie : i = e
  · subst hie
    unfold itemAt
    rw [nth_upd_self (nth_some_lt h) n', h]
    simp [hitem]
  · unfold itemAt
    rw [nth_upd_ne _ _ hie]

-- Retarget the terminator of a chain run: patch the `next` of its final
-- element (the source's "patch the previous neighbour" step, the final
-- element of `u` being the `previous` of the node being unlinked or moved).
theorem retarget_last {T : Type u} {nodes : List (Node T)} {L : Nat} {u : List Nat}
    {told : Nat} (tnew : Nat) (hb : nodes.length ≤ SENTINEL) (hnd : u.Nodup)
    (hl : LinkedBtw nodes L SENTINEL u told) :
    ∃ nodes₁,
      (if u.getLastD SENTINEL ≠ SENTINEL then
          LinkedListSet.modifyNode nodes (u.getLastD SENTINEL) (fun n => { n with next := tnew })
        else some nodes) = some nodes₁ ∧
      nodes₁.length = nodes.length ∧
      (∀ i, i ∉ u → nth nodes₁ i = nth nodes i) ∧
      LinkedBtw nodes₁ L SENTINEL u tnew ∧
      (∀ i, itemAt nodes₁ i = itemAt nodes i) := by
  rcases List.eq_nil_or_concat u with rfl | ⟨u', e, rfl⟩
  · refine ⟨nodes, ?_, rfl, fun i _ => rfl, LinkedBtw_nil nodes L SENTINEL tnew,
      fun i => rfl⟩
    simp
  · simp only [List.concat_eq_append] at hnd hl ⊢
    have hglast : (u' ++ [e]).getLastD SENTINEL = e := getLastD_concat u' e SENTINEL
    rw [LinkedBtw_append] at hl
    obtain ⟨hlu', hle⟩ := hl
    obtain ⟨ne, hne, hnel, hnep, hnen, -⟩ := hle
    have helt : e < nodes.length := nth_some_lt hne
    have hesent : e ≠ SENTINEL := by omega
    have henotu' : e ∉ u' := by
      rw [List.nodup_append] at hnd
      intro hmem
      exact hnd.2.2 hmem (by simp)
    refine ⟨upd nodes e ({ ne with next := tnew }), ?_, length_upd nodes e _, ?_, ?_, ?_⟩
    · rw [hglast, if_pos hesent]
      simp [LinkedListSet.modifyNode, hne]
    · intro i hi
      exact nth_upd_ne nodes _ (fun hie => hi (hie ▸ List.mem_append_right u' (by simp)))
    · rw [LinkedBtw_append]
      constructor
      · have hcg : ∀ i ∈ u', nth (upd nodes e ({ ne with next := tnew })) i = nth nodes i :=
          fun i hi => nth_upd_ne nodes _ (fun hie => henotu' (hie ▸ hi))
        have hlu'e : LinkedBtw nodes L SENTINEL u' e := by simpa using hlu'
        have := LinkedBtw_congr hcg hlu'e
        simpa using this
      · refine ⟨{ ne with next := tnew }, nth_upd_self helt _, hnel, ?_, ?_, trivial⟩
        · simpa using hnep
        · simp
    · exact itemAt_upd_item_eq hne rfl

-- Retarget the entry of a chain run: patch the `previous` of its first
-- element (the source's "patch the next neighbour" step, the first element
-- of `v` being the `next` of the node being unlinked or moved).
theorem retarget_head {T : Type u} {nodes : List (Node T)} {L : Nat} {v : List Nat}
    {pold term : Nat} (pnew : Nat) (hb : nodes.length ≤ SENTINEL) (hnd : v.Nodup)
    (hl : LinkedBtw nodes L pold v term) :
    ∃ nodes₂,
      (if v.headD SENTINEL ≠ SENTINEL then
          LinkedListSet.modifyNode nodes (v.headD SENTINEL) (fun n => { n with previous := pnew })
        else some nodes) = some nodes₂ ∧
      nodes₂.length = nodes.length ∧
      (∀ i, i ∉ v → nth nodes₂ i = nth nodes i) ∧
      LinkedBtw nodes₂ L pnew v term ∧
      (∀ i, itemAt nodes₂ i = itemAt nodes i) := by
  cases v with
  | nil =>
    refine ⟨nodes, ?_, rfl, fun i _ => rfl, LinkedBtw_nil nodes L pnew term, fun i => rfl⟩
    simp
  | cons h0 v' =>
    obtain ⟨n0, hn0, hn0l, hn0p, hn0n, hlv'⟩ := hl
    have h0lt : h0 < nodes.length := nth_some_lt hn0
    have h0sent : h0 ≠ SENTINEL := by omega
    have h0notv' : h0 ∉ v' := (List.nodup_cons.1 hnd).1
    refine ⟨upd nodes h0 ({ n0 with previous := pnew }), ?_, length_upd nodes h0 _, ?_, ?_, ?_⟩
    · rw [List.headD_cons, if_pos h0sent]
      simp [LinkedListSet.modifyNode, hn0]
    · intro i hi
      exact nth_upd_ne nodes _ (fun hie => hi (hie ▸ by simp))
    · refine ⟨{ n0 with previous := pnew }, nth_upd_self h0lt _, hn0l, rfl, ?_, ?_⟩
      · simpa using hn0n
      · refine LinkedBtw_congr ?_ hlv'
        intro i hi
        exact nth_upd_ne nodes _ (fun hie => h0notv' (hie ▸ hi))
    · exact itemAt_upd_item_eq hn0 rfl

/-
Lemma library, part 5: the effect of `unlink_list_node` on a well-formed
state, removing one position from the chain of its owning list.
-/

theorem erase_mid_headD {u v : List Nat} {p : Nat} (hpu : p ∉ u) :
    (if (u ++ p :: v).headD SENTINEL = p then v.headD SENTINEL
      else (u ++ p :: v).headD SENTINEL) = (u ++ v).headD SENTINEL := by
  cases u with
  | nil => simp
  | cons u0 u'' =>
    have h : u0 ≠ p := fun h => hpu (by simp [h])
    simp [h]

theorem erase_mid_getLastD {u v : List Nat} {p : Nat} (hpv : p ∉ v) :
    (if (u ++ p :: v).getLastD SENTINEL = p then u.getLastD SENTINEL
      else (u ++ p :: v).getLastD SENTINEL) = (u ++ v).getLastD SENTINEL := by
  rcases List.eq_nil_or_concat v with rfl | ⟨v', e, rfl⟩
  · rw [getLastD_append]
    simp
  · simp only [List.concat_eq_append] at hpv ⊢
    have h1 : (u ++ p :: (v' ++ [e])).getLastD SENTINEL = e := by
      rw [getLastD_append, List.getLastD_cons, getLastD_concat]
    have h2 : (u ++ (v' ++ [e])).getLastD SENTINEL = e := by
      rw [getLastD_append, getLastD_concat]
    have hep : e ≠ p := fun h => hpv (h ▸ by simp)
    rw [h1, if_neg hep, h2]

theorem unlink_spec {T : Type u} {s : LinkedListSet T} {c : Nat → List Nat}
    (w : WFc s c) {L : Nat} {rL : LinkedList} (hL : lookupList s.lists L = some rL)
    {u v : List Nat} {p : Nat} (hc : c L = u ++ p :: v) :
    ∃ s₁,
      s.unlink_list_node p = some s₁ ∧
      WFx s₁ (chupd c L (u ++ v)) p ∧
      s₁.alloc = s.alloc ∧
      s₁.nodes.length = s.nodes.length ∧
      keysOf s₁.lists = keysOf s.lists ∧
      (∀ li, li ≠ L → lookupList s₁.lists li = lookupList s.lists li) ∧
      (∃ rL₁, lookupList s₁.lists L = some rL₁ ∧ rL₁.length = rL.length - 1) ∧
      (∀ i, itemAt s₁.nodes i = itemAt s.nodes i) ∧
      nth s₁.nodes p = nth s.nodes p := by
  obtain ⟨hlc, hf, hbk, hlen, hnd⟩ := w.chains L rL hL
  rw [hc] at hlc hf hbk hlen hnd
  obtain ⟨hu_nd, hv_nd, hpu, hpv, hdisj_uv, huv_nd⟩ := nodup_mid hnd
  rw [LinkedBtw_append] at hlc
  obtain ⟨hlu0, hlpv⟩ := hlc
  have hlu : LinkedBtw s.nodes L SENTINEL u p := by simpa using hlu0
  obtain ⟨np, hnp, hnpl, hnpp, hnpn, hlv⟩ := hlpv
  have hnpn' : np.next = v.headD SENTINEL := by simpa using hnpn
  have hplt : p < s.nodes.length := nth_some_lt hnp
  have hbnd := w.nodes_bound
  obtain ⟨nodes₁, hA_eq, hA_len, hA_frame, hA_chain, hA_items⟩ :=
    retarget_last (v.headD SENTINEL) hbnd hu_nd hlu
  have hlv₁ : LinkedBtw nodes₁ L p v SENTINEL :=
    LinkedBtw_congr (fun i hi => hA_frame i (fun hiu => hdisj_uv i hiu hi)) hlv
  have hbnd₁ : nodes₁.length ≤ SENTINEL := by rw [hA_len]; exact hbnd
  obtain ⟨nodes₂, hB_eq, hB_len, hB_frame, hB_chain, hB_items⟩ :=
    retarget_head (u.getLastD SENTINEL) hbnd₁ hv_nd hlv₁
  have hA_chain₂ : LinkedBtw nodes₂ L SENTINEL u (v.headD SENTINEL) :=
    LinkedBtw_congr (fun i hi => hB_frame i (fun hiv => hdisj_uv i hi hiv)) hA_chain
  have hp2 : nth nodes₂ p = nth s.nodes p := by
    rw [hB_frame p hpv, hA_frame p hpu]
  have hnp2 : nth nodes₂ p = some np := by rw [hp2]; exact hnp
  have hlen_pos : ¬ (rL.length = 0) := by rw [hlen]; simp
  have hlen2 : nodes₂.length = s.nodes.length := by rw [hB_len, hA_len]
  set rL' : LinkedList :=
    { front := if rL.front = p then v.headD SENTINEL else rL.front,
      back := if rL.back = p then u.getLastD SENTINEL else rL.back,
      length := rL.length - 1 } with hrL'
  have heq : s.unlink_list_node p =
      some { s with nodes := nodes₂, lists := setList s.lists L rL' } := by
    unfold LinkedListSet.unlink_list_node
    rw [hnp]
    simp only [hnpp, hnpn', hA_eq, Option.some_bind, hB_eq, hnp2, hnpl, hL,
      if_neg hlen_pos]
  have howner_u : ∀ i ∈ u, ∃ n, nth s.nodes i = some n ∧ n.list = L :=
    LinkedBtw_mem_node hlu
  have howner_v : ∀ i ∈ v, ∃ n, nth s.nodes i = some n ∧ n.list = L :=
    LinkedBtw_mem_node hlv
  have howner_ne : ∀ li r', lookupList s.lists li = some r' → li ≠ L →
      ∀ i ∈ c li, i ∉ u ∧ i ∉ v := by
    intro li r' hr' hli i hi
    obtain ⟨n, hn, hnl⟩ := LinkedBtw_mem_node (w.chains li r' hr').1 i hi
    constructor
    · intro hiu
      obtain ⟨n₂, hn₂, hn₂l⟩ := howner_u i hiu
      rw [hn] at hn₂
      have hnn : n = n₂ := Option.some.inj hn₂
      subst hnn
      exact hli (by rw [← hnl, hn₂l])
    · intro hiv
      obtain ⟨n₂, hn₂, hn₂l⟩ := howner_v i hiv
      rw [hn] at hn₂
      have hnn : n = n₂ := Option.some.inj hn₂
      subst hnn
      exact hli (by rw [← hnl, hn₂l])
  have hother_frame : ∀ li r', lookupList s.lists li = some r' → li ≠ L →
      ∀ i ∈ c li, nth nodes₂ i = nth s.nodes i := by
    intro li r' hr' hli i hi
    obtain ⟨hiu, hiv⟩ := howner_ne li r' hr' hli i hi
    rw [hB_frame i hiv, hA_frame i hiu]
  have hfront' : (if rL.front = p then v.headD SENTINEL else rL.front) =
      (u ++ v).headD SENTINEL := by
    rw [hf]
    exact erase_mid_headD hpu
  have hback' : (if rL.back = p then u.getLastD SENTINEL else rL.back) =
      (u ++ v).getLastD SENTINEL := by
    rw [hbk]
    exact erase_mid_getLastD hpv
  have hlenr : rL.length - 1 = (u ++ v).length := by
    rw [hlen]
    simp
  refine ⟨_, heq, ?_, rfl, hlen2, ?_, ?_, ?_, ?_, hp2⟩
  · -- the intermediate invariant
    refine ⟨?_, ?_, ?_, ?_, ?_, ?_, ?_⟩
    · show nodes₂.length ≤ SENTINEL
      rw [hlen2]; exact hbnd
    · show (keysOf (setList s.lists L rL')).Nodup
      rw [keysOf_setList]; exact w.keys_nodup
    · intro li r hmem
      obtain ⟨w', hw'⟩ := mem_setList_keys hmem
      exact w.keys_lt_alloc li w' hw'
    · intro li r hr
      by_cases hli : li = L
      · subst hli
        rw [show lookupList (setList s.lists li rL') li = some rL' from
              lookup_setList_self rL' hL] at hr
        injection hr with hr'
        subst hr'
        rw [chupd_self]
        refine ⟨?_, hfront', hback', hlenr, huv_nd⟩
        rw [LinkedBtw_append]
        exact ⟨hA_chain₂, hB_chain⟩
      · rw [show lookupList (setList s.lists L rL') li = lookupList s.lists li from
              lookup_setList_ne s.lists L rL' hli] at hr
        rw [chupd_ne _ _ _ hli]
        obtain ⟨h1, h2, h3, h4, h5⟩ := w.chains li r hr
        exact ⟨LinkedBtw_congr (hother_frame li r hr hli) h1, h2, h3, h4, h5⟩
    · intro i hilt hip
      rw [show ({ s with nodes := nodes₂, lists := setList s.lists L rL' } :
            LinkedListSet T).nodes = nodes₂ from rfl, hlen2] at hilt
      obtain ⟨li, r, hr, hi⟩ := w.covers i hilt
      by_cases hli : li = L
      · subst hli
        refine ⟨li, rL', lookup_setList_self rL' hL, ?_⟩
        rw [chupd_self]
        rw [hc] at hi
        rcases List.mem_append.1 hi with hiu | hiv
        · exact List.mem_append_left v hiu
        · rcases List.mem_cons.1 hiv with rfl | hiv'
          · exact absurd rfl hip
          · exact List.mem_append_right u hiv'
      · refine ⟨li, r, ?_, ?_⟩
        · rw [lookup_setList_ne s.lists L rL' hli]; exact hr
        · rw [chupd_ne _ _ _ hli]; exact hi
    · intro li r hr
      by_cases hli : li = L
      · subst hli
        rw [chupd_self]
        intro hp
        rcases List.mem_append.1 hp with h | h
        · exact hpu h
        · exact hpv h
      · rw [chupd_ne _ _ _ hli]
        rw [show lookupList (setList s.lists L rL') li = lookupList s.lists li from
              lookup_setList_ne s.lists L rL' hli] at hr
        intro hp
        obtain ⟨n, hn, hnl⟩ := LinkedBtw_mem_node (w.chains li r hr).1 p hp
        rw [hnp] at hn
        have hnn : np = n := Option.some.inj hn
        exact hli (by rw [← hnl, ← hnn, hnpl])
    · show p < nodes₂.length
      rw [hlen2]; exact hplt
  · show keysOf (setList s.lists L rL') = keysOf s.lists
    exact keysOf_setList s.lists L rL'
  · intro li hli
    exact lookup_setList_ne s.lists L rL' hli
  · exact ⟨rL', lookup_setList_self rL' hL, rfl⟩
  · intro i
    rw [hB_items i, hA_items i]

/-
Lemma library, part 6: the effect of relinking the arena's final node onto a
freed slot and swap-removing, restoring full well-formedness.
-/

theorem subst_mid_headD {a b : List Nat} {m q : Nat} (hma : m ∉ a) :
    (if (a ++ m :: b).headD SENTINEL = m then q else (a ++ m :: b).headD SENTINEL) =
      (a ++ q :: b).headD SENTINEL := by
  cases a with
  | nil => simp
  | cons a0 a' =>
    have h : a0 ≠ m := fun h => hma (by simp [h])
    simp [h]

theorem subst_mid_getLastD {a b : List Nat} {m q : Nat} (hmb : m ∉ b) :
    (if (a ++ m :: b).getLastD SENTINEL = m then q else (a ++ m :: b).getLastD SENTINEL) =
      (a ++ q :: b).getLastD SENTINEL := by
  rcases List.eq_nil_or_concat b with rfl | ⟨b', e, rfl⟩
  · rw [getLastD_append, getLastD_append]
    simp
  · simp only [List.concat_eq_append] at hmb ⊢
    have h1 : (a ++ m :: (b' ++ [e])).getLastD SENTINEL = e := by
      rw [getLastD_append, List.getLastD_cons, getLastD_concat]
    have h2 : (a ++ q :: (b' ++ [e])).getLastD SENTINEL = e := by
      rw [getLastD_append, List.getLastD_cons, getLastD_concat]
    have hem : e ≠ m := fun h => hmb (h ▸ by simp)
    rw [h1, if_neg hem, h2]

theorem itemsOf_congr_item {T : Type u} {nodes nodes' : List (Node T)} :
    ∀ {ixs : List Nat}, (∀ i ∈ ixs, itemAt nodes' i = itemAt nodes i) →
    itemsOf nodes' ixs = itemsOf nodes ixs := by
  intro ixs
  induction ixs with
  | nil => intro _; rfl
  | cons i rest ih =>
    intro h
    simp only [itemsOf, List.filterMap_cons] at ih ⊢
    rw [h i (by simp)]
    cases itemAt nodes i with
    | none => exact ih (fun j hj => h j (List.mem_cons_of_mem _ hj))
    | some t => rw [ih (fun j hj => h j (List.mem_cons_of_mem _ hj))]

theorem swap_remove_eq {T : Type u} {nodes : List (Node T)} {i : Nat} {ni nl : Node T}
    (hi : nth nodes i = some ni) (hl : nodes.getLast? = some nl) :
    LinkedListSet.swap_remove nodes i = some (ni, (upd nodes i nl).dropLast) := by
  simp [LinkedListSet.swap_remove, hi, hl]

theorem relink_swap_spec {T : Type u} {s₁ : LinkedListSet T} {c₁ : Nat → List Nat} {p : Nat}
    (w : WFx s₁ c₁ p) :
    ∃ s₂ nrem nodes₃ c₃,
      s₁.relink_list_node (s₁.nodes.length - 1) p = some s₂ ∧
      LinkedListSet.swap_remove s₂.nodes p = some (nrem, nodes₃) ∧
      nth s₁.nodes p = some nrem ∧
      WFc { s₂ with nodes := nodes₃ } c₃ ∧
      s₂.alloc = s₁.alloc ∧
      nodes₃.length = s₁.nodes.length - 1 ∧
      keysOf s₂.lists = keysOf s₁.lists ∧
      (∀ li r, lookupList s₁.lists li = some r →
        itemsOf nodes₃ (c₃ li) = itemsOf s₁.nodes (c₁ li)) ∧
      (∀ li r, lookupList s₁.lists li = some r →
        ∃ r', lookupList s₂.lists li = some r' ∧ r'.length = r.length ∧
          (r' = r ∨ (s₁.nodes.length - 1 ∈ c₁ li ∧ p ≠ s₁.nodes.length - 1))) := by
  obtain ⟨nrem, hnrem⟩ := exists_nth_of_lt w.p_lt
  have hlen_pos : 1 ≤ s₁.nodes.length := Nat.one_le_of_lt (Nat.lt_of_le_of_lt (Nat.zero_le p) w.p_lt)
  by_cases hpm : p = s₁.nodes.length - 1
  · -- the freed slot is already the final slot: relink is the identity and
    -- swap-remove just truncates
    have hmp : s₁.nodes.length - 1 = p := hpm.symm
    have heq₂ : s₁.relink_list_node (s₁.nodes.length - 1) p = some s₁ := by
      unfold LinkedListSet.relink_list_node
      rw [if_pos hmp]
    have hlast : s₁.nodes.getLast? = some nrem := by
      rw [getLast?_eq_nth, hmp]
      exact hnrem
    have hupd : upd s₁.nodes p nrem = s₁.nodes := upd_nth_self hnrem
    have hsw : LinkedListSet.swap_remove s₁.nodes p = some (nrem, s₁.nodes.dropLast) := by
      rw [swap_remove_eq hnrem hlast, hupd]
    have hframe : ∀ li r, lookupList s₁.lists li = some r →
        ∀ i ∈ c₁ li, nth s₁.nodes.dropLast i = nth s₁.nodes i := by
      intro li r hr i hi
      have hilt := LinkedBtw_mem_lt (w.chains li r hr).1 hi
      have hip : i ≠ p := fun h => w.orphan li r hr (h ▸ hi)
      exact nth_dropLast (by omega)
    refine ⟨s₁, nrem, s₁.nodes.dropLast, c₁, heq₂, hsw, hnrem, ?_, rfl,
      List.length_dropLast s₁.nodes, rfl, ?_, ?_⟩
    · refine ⟨?_, w.keys_nodup, w.keys_lt_alloc, ?_, ?_⟩
      · show s₁.nodes.dropLast.length ≤ SENTINEL
        rw [List.length_dropLast]
        have := w.nodes_bound
        omega
      · intro li r hr
        obtain ⟨h1, h2, h3, h4, h5⟩ := w.chains li r hr
        exact ⟨LinkedBtw_congr (hframe li r hr) h1, h2, h3, h4, h5⟩
      · intro i hilt
        rw [show ({ s₁ with nodes := s₁.nodes.dropLast } : LinkedListSet T).nodes =
              s₁.nodes.dropLast from rfl, List.length_dropLast] at hilt
        exact w.covers_ex i (by omega) (by omega)
    · intro li r hr
      exact itemsOf_congr (fun i hi => hframe li r hr i hi)
    · intro li r hr
      exact ⟨r, hr, rfl, Or.inl rfl⟩
  · -- the final node is moved onto the freed slot
    have hmlt : s₁.nodes.length - 1 < s₁.nodes.length := by omega
    have hplt' : p < s₁.nodes.length - 1 := by
      have := w.p_lt
      omega
    obtain ⟨M, rM, hM, hmem⟩ := w.covers_ex (s₁.nodes.length - 1) hmlt (fun h => hpm h.symm)
    obtain ⟨a, b, hab⟩ := List.append_of_mem hmem
    obtain ⟨hlcM, hfM, hbkM, hlenM, hndM⟩ := w.chains M rM hM
    rw [hab] at hlcM hfM hbkM hlenM hndM
    have hpnotM : p ∉ c₁ M := w.orphan M rM hM
    rw [hab] at hpnotM
    have hpa : p ∉ a := fun h => hpnotM (List.mem_append_left _ h)
    have hpb : p ∉ b := fun h => hpnotM (List.mem_append_right _ (List.mem_cons_of_mem _ h))
    obtain ⟨ha_nd, hb_nd, hma, hmb, hdisj_ab, hab_nd⟩ := nodup_mid hndM
    rw [LinkedBtw_append] at hlcM
    obtain ⟨hla0, hlmb⟩ := hlcM
    have hla : LinkedBtw s₁.nodes M SENTINEL a (s₁.nodes.length - 1) := by simpa using hla0
    obtain ⟨nm, hnm, hnml, hnmp, hnmn, hlb⟩ := hlmb
    have hnmn' : nm.next = b.headD SENTINEL := by simpa using hnmn
    have hbnd := w.nodes_bound
    obtain ⟨nodesA, hA_eq, hA_len, hA_frame, hA_chain, hA_items⟩ :=
      retarget_last p hbnd ha_nd hla
    have hlbA : LinkedBtw nodesA M (s₁.nodes.length - 1) b SENTINEL :=
      LinkedBtw_congr (fun i hi => hA_frame i (fun hia => hdisj_ab i hia hi)) hlb
    have hbndA : nodesA.length ≤ SENTINEL := by rw [hA_len]; exact hbnd
    obtain ⟨nodesB, hB_eq, hB_len, hB_frame, hB_chain, hB_items⟩ :=
      retarget_head p hbndA hb_nd hlbA
    have hA_chainB : LinkedBtw nodesB M SENTINEL a p :=
      LinkedBtw_congr (fun i hi => hB_frame i (fun hib => hdisj_ab i hi hib)) hA_chain
    have hlenB : nodesB.length = s₁.nodes.length := by rw [hB_len, hA_len]
    have hm2 : nth nodesB (s₁.nodes.length - 1) = some nm := by
      rw [hB_frame _ hmb, hA_frame _ hma]
      exact hnm
    have hp2 : nth nodesB p = some nrem := by
      rw [hB_frame _ hpb, hA_frame _ hpa]
      exact hnrem
    set rM' : LinkedList :=
      { rM with front := if rM.front = s₁.nodes.length - 1 then p else rM.front,
                back := if rM.back = s₁.nodes.length - 1 then p else rM.back } with hrM'
    have hmp' : ¬ (s₁.nodes.length - 1 = p) := fun h => hpm h.symm
    have heq₂ : s₁.relink_list_node (s₁.nodes.length - 1) p =
        some { s₁ with nodes := nodesB, lists := setList s₁.lists M rM' } := by
      unfold LinkedListSet.relink_list_node
      rw [if_neg hmp', hnm]
      simp only [hnmp, hnmn', hA_eq, Option.some_bind, hB_eq, hm2, hnml, hM]
    have hlastB : nodesB.getLast? = some nm := by
      rw [getLast?_eq_nth, hlenB]
      exact hm2
    have hsw : LinkedListSet.swap_remove nodesB p = some (nrem, (upd nodesB p nm).dropLast) :=
      swap_remove_eq hp2 hlastB
    set nodes₃ : List (Node T) := (upd nodesB p nm).dropLast with hnodes₃
    have hlen₃ : nodes₃.length = s₁.nodes.length - 1 := by
      rw [hnodes₃, List.length_dropLast, length_upd, hlenB]
    have hreads : ∀ i, i < s₁.nodes.length - 1 → i ≠ p → nth nodes₃ i = nth nodesB i := by
      intro i hilt hip
      rw [hnodes₃]
      rw [nth_dropLast (by rw [length_upd, hlenB]; omega)]
      exact nth_upd_ne nodesB nm hip
    have hreadp : nth nodes₃ p = some nm := by
      rw [hnodes₃]
      rw [nth_dropLast (by rw [length_upd, hlenB]; omega)]
      exact nth_upd_self (by rw [hlenB]; exact w.p_lt) nm
    -- positions on the chains of other lists are untouched by every step
    have howner_a : ∀ i ∈ a, ∃ n, nth s₁.nodes i = some n ∧ n.list = M :=
      LinkedBtw_mem_node hla
    have howner_b : ∀ i ∈ b, ∃ n, nth s₁.nodes i = some n ∧ n.list = M :=
      LinkedBtw_mem_node hlb
    have hother : ∀ li r', lookupList s₁.lists li = some r' → li ≠ M →
        ∀ i ∈ c₁ li, i ∉ a ∧ i ∉ b ∧ i ≠ s₁.nodes.length - 1 ∧ i ≠ p := by
      intro li r' hr' hli i hi
      obtain ⟨n, hn, hnl⟩ := LinkedBtw_mem_node (w.chains li r' hr').1 i hi
      refine ⟨?_, ?_, ?_, fun h => w.orphan li r' hr' (h ▸ hi)⟩
      · intro hia
        obtain ⟨n₂, hn₂, hn₂l⟩ := howner_a i hia
        rw [hn] at hn₂
        have hnn : n = n₂ := Option.some.inj hn₂
        subst hnn
        exact hli (by rw [← hnl, hn₂l])
      · intro hib
        obtain ⟨n₂, hn₂, hn₂l⟩ := howner_b i hib
        rw [hn] at hn₂
        have hnn : n = n₂ := Option.some.inj hn₂
        subst hnn
        exact hli (by rw [← hnl, hn₂l])
      · intro him
        rw [him, hnm] at hn
        have hnn : n = nm := Option.some.inj hn.symm
        subst hnn
        exact hli (by rw [← hnl, hnml])
    have hother_read : ∀ li r', lookupList s₁.lists li = some r' → li ≠ M →
        ∀ i ∈ c₁ li, nth nodes₃ i = nth s₁.nodes i := by
      intro li r' hr' hli i hi
      obtain ⟨hia, hib, him, hip⟩ := hother li r' hr' hli i hi
      have hilt := LinkedBtw_mem_lt (w.chains li r' hr').1 hi
      rw [hreads i (by omega) hip, hB_frame i hib, hA_frame i hia]
    have hnd₃ : (a ++ p :: b).Nodup := by
      rw [List.nodup_append]
      refine ⟨ha_nd, ?_, ?_⟩
      · rw [List.nodup_cons]
        exact ⟨hpb, hb_nd⟩
      · intro x hx
        simp only [List.mem_cons]
        rintro (rfl | hxb)
        · exact hpa hx
        · exact hdisj_ab x hx hxb
    have hchM : LinkedBtw nodes₃ M SENTINEL (a ++ p :: b) SENTINEL := by
      rw [LinkedBtw_append]
      constructor
      · have hcg : ∀ i ∈ a, nth nodes₃ i = nth nodesB i := by
          intro i hi
          have hilt := LinkedBtw_mem_lt hla hi
          have him : i ≠ s₁.nodes.length - 1 := fun h => hma (h ▸ hi)
          exact hreads i (by omega) (fun h => hpa (h ▸ hi))
        have := LinkedBtw_congr hcg hA_chainB
        simpa using this
      · refine ⟨nm, hreadp, hnml, ?_, ?_, ?_⟩
        · simpa using hnmp
        · simpa using hnmn'
        · have hcg : ∀ i ∈ b, nth nodes₃ i = nth nodesB i := by
            intro i hi
            have hilt := LinkedBtw_mem_lt hlb hi
            have him : i ≠ s₁.nodes.length - 1 := fun h => hmb (h ▸ hi)
            exact hreads i (by omega) (fun h => hpb (h ▸ hi))
          exact LinkedBtw_congr hcg hB_chain
    have hfront₃ : rM'.front = (a ++ p :: b).headD SENTINEL := by
      rw [hrM']
      show (if rM.front = s₁.nodes.length - 1 then p else rM.front) = _
      rw [hfM]
      exact subst_mid_headD hma
    have hback₃ : rM'.back = (a ++ p :: b).getLastD SENTINEL := by
      rw [hrM']
      show (if rM.back = s₁.nodes.length - 1 then p else rM.back) = _
      rw [hbkM]
      exact subst_mid_getLastD hmb
    have hlen₃M : rM'.length = (a ++ p :: b).length := by
      rw [hrM']
      show rM.length = _
      rw [hlenM]
      simp
    have hitem₃ : ∀ i, i < s₁.nodes.length - 1 → i ≠ p →
        itemAt nodes₃ i = itemAt s₁.nodes i := by
      intro i hilt hip
      unfold itemAt
      rw [hreads i hilt hip]
      have h1 := hB_items i
      have h2 := hA_items i
      unfold itemAt at h1 h2
      rw [h1, h2]
    refine ⟨_, nrem, nodes₃, chupd c₁ M (a ++ p :: b),
      heq₂, hsw, hnrem, ?_, rfl, hlen₃, keysOf_setList s₁.lists M rM', ?_, ?_⟩
    · refine ⟨?_, ?_, ?_, ?_, ?_⟩
      · show nodes₃.length ≤ SENTINEL
        rw [hlen₃]
        omega
      · show (keysOf (setList s₁.lists M rM')).Nodup
        rw [keysOf_setList]
        exact w.keys_nodup
      · intro li r hmem'
        obtain ⟨w', hw'⟩ := mem_setList_keys hmem'
        exact w.keys_lt_alloc li w' hw'
      · intro li r hr
        by_cases hli : li = M
        · subst hli
          rw [show lookupList (setList s₁.lists li rM') li = some rM' from
                lookup_setList_self rM' hM] at hr
          injection hr with hr'
          subst hr'
          rw [chupd_self]
          exact ⟨hchM, hfront₃, hback₃, hlen₃M, hnd₃⟩
        · rw [show lookupList (setList s₁.lists M rM') li = lookupList s₁.lists li from
                lookup_setList_ne s₁.lists M rM' hli] at hr
          rw [chupd_ne _ _ _ hli]
          obtain ⟨h1, h2, h3, h4, h5⟩ := w.chains li r hr
          exact ⟨LinkedBtw_congr (hother_read li r hr hli) h1, h2, h3, h4, h5⟩
      · intro i hilt
        replace hilt : i < nodes₃.length := hilt
        rw [hlen₃] at hilt
        by_cases hip : i = p
        · subst hip
          refine ⟨M, rM', lookup_setList_self rM' hM, ?_⟩
          rw [chupd_self]
          exact List.mem_append_right a (by simp)
        · obtain ⟨li, r, hr, hi⟩ := w.covers_ex i (by omega) hip
          by_cases hli : li = M
          · subst hli
            refine ⟨li, rM', lookup_setList_self rM' hM, ?_⟩
            rw [chupd_self]
            rw [hab] at hi
            rcases List.mem_append.1 hi with hia | hib
            · exact List.mem_append_left _ hia
            · rcases List.mem_cons.1 hib with heqi | hib'
              · exact absurd heqi (by omega)
              · exact List.mem_append_right _ (List.mem_cons_of_mem _ hib')
          · refine ⟨li, r, ?_, ?_⟩
            · rw [lookup_setList_ne s₁.lists M rM' hli]; exact hr
            · rw [chupd_ne _ _ _ hli]; exact hi
    · intro li r hr
      by_cases hli : li = M
      · subst hli
        rw [chupd_self]
        rw [hab]
        rw [itemsOf_append]
        rw [itemsOf_append]
        rw [itemsOf_cons_of_nth hreadp, itemsOf_cons_of_nth hnm]
        have hia : itemsOf nodes₃ a = itemsOf s₁.nodes a := by
          refine itemsOf_congr_item ?_
          intro i hi
          have hilt := LinkedBtw_mem_lt hla hi
          have him : i ≠ s₁.nodes.length - 1 := fun h => hma (h ▸ hi)
          exact hitem₃ i (by omega) (fun h => hpa (h ▸ hi))
        have hib : itemsOf nodes₃ b = itemsOf s₁.nodes b := by
          refine itemsOf_congr_item ?_
          intro i hi
          have hilt := LinkedBtw_mem_lt hlb hi
          have him : i ≠ s₁.nodes.length - 1 := fun h => hmb (h ▸ hi)
          exact hitem₃ i (by omega) (fun h => hpb (h ▸ hi))
        rw [hia, hib]
      · rw [chupd_ne _ _ _ hli]
        exact itemsOf_congr (hother_read li r hr hli)
    · intro li r hr
      by_cases hli : li = M
      · subst hli
        rw [hM] at hr
        injection hr with hr'
        subst hr'
        refine ⟨rM', lookup_setList_self rM' hM, ?_, Or.inr ⟨hmem, hpm⟩⟩
        rw [hrM']
      · exact ⟨r, by rw [lookup_setList_ne s₁.lists M rM' hli]; exact hr, rfl, Or.inl rfl⟩

/-
Lemma library, part 7: the full effect of `remove_list_node` — the heart of
the swap-remove scheme.
-/

theorem remove_list_node_spec {T : Type u} {s : LinkedListSet T} {c : Nat → List Nat}
    (w : WFc s c) {L : Nat} {rL : LinkedList} (hL : lookupList s.lists L = some rL)
    {u v : List Nat} {p : Nat} (hc : c L = u ++ p :: v) :
    ∃ t s' c',
      s.remove_list_node p = some (t, s') ∧
      itemAt s.nodes p = some t ∧
      WFc s' c' ∧
      s'.alloc = s.alloc ∧
      s'.nodes.length = s.nodes.length - 1 ∧
      keysOf s'.lists = keysOf s.lists ∧
      itemsOf s'.nodes (c' L) = itemsOf s.nodes u ++ itemsOf s.nodes v ∧
      (∀ li r, li ≠ L → lookupList s.lists li = some r →
        itemsOf s'.nodes (c' li) = itemsOf s.nodes (c li)) ∧
      (∃ rL', lookupList s'.lists L = some rL' ∧ rL'.length = rL.length - 1) ∧
      (∀ li r, li ≠ L → lookupList s.lists li = some r →
        ∃ r', lookupList s'.lists li = some r' ∧ r'.length = r.length ∧
          (r' = r ∨ s.nodes.length - 1 ∈ c li)) := by
  have hpmem : p ∈ c L := by rw [hc]; exact List.mem_append_right u (by simp)
  have hplt : p < s.nodes.length := LinkedBtw_mem_lt (w.chains L rL hL).1 hpmem
  have hlen0 : ¬ (s.nodes.length = 0) := by omega
  obtain ⟨s₁, huleq, wfx, halloc₁, hlen₁, hkeys₁, hother₁, ⟨rL₁, hrL₁, hrL₁len⟩,
    hitems₁, hp₁⟩ := unlink_spec w hL hc
  obtain ⟨s₂, nrem, nodes₃, c₃, hreleq, hsw, hnrem₁, wfc₃, halloc₂, hlen₃, hkeys₂,
    hitems₂, hrec₂⟩ := relink_swap_spec wfx
  have hreleq' : s₁.relink_list_node (s.nodes.length - 1) p = some s₂ := by
    rw [← hlen₁]; exact hreleq
  have heq : s.remove_list_node p = some (nrem.item, { s₂ with nodes := nodes₃ }) := by
    unfold LinkedListSet.remove_list_node
    rw [if_neg hlen0, huleq, Option.some_bind, hreleq', Option.some_bind, hsw]
  have hnrem : nth s.nodes p = some nrem := by rw [← hp₁]; exact hnrem₁
  refine ⟨nrem.item, { s₂ with nodes := nodes₃ }, c₃, heq, ?_, wfc₃, ?_, ?_, ?_, ?_, ?_,
    ?_, ?_⟩
  · unfold itemAt
    rw [hnrem]
    rfl
  · show s₂.alloc = s.alloc
    rw [halloc₂, halloc₁]
  · show nodes₃.length = s.nodes.length - 1
    rw [hlen₃, hlen₁]
  · show keysOf s₂.lists = keysOf s.lists
    rw [hkeys₂, hkeys₁]
  · have h1 := hitems₂ L rL₁ hrL₁
    rw [chupd_self] at h1
    rw [h1]
    rw [show itemsOf s₁.nodes (u ++ v) = itemsOf s.nodes (u ++ v) from
          itemsOf_congr_item (fun i _ => hitems₁ i)]
    exact itemsOf_append s.nodes u v
  · intro li r hli hr
    have hr₁ : lookupList s₁.lists li = some r := by rw [hother₁ li hli]; exact hr
    have h1 := hitems₂ li r hr₁
    rw [chupd_ne _ _ _ hli] at h1
    rw [h1]
    exact itemsOf_congr_item (fun i _ => hitems₁ i)
  · obtain ⟨r', hr', hr'len, -⟩ := hrec₂ L rL₁ hrL₁
    exact ⟨r', hr', by rw [hr'len, hrL₁len]⟩
  · intro li r hli hr
    have hr₁ : lookupList s₁.lists li = some r := by rw [hother₁ li hli]; exact hr
    obtain ⟨r', hr', hr'len, hor⟩ := hrec₂ li r hr₁
    refine ⟨r', hr', hr'len, ?_⟩
    rcases hor with h | ⟨hmem, -⟩
    · exact Or.inl h
    · right
      rw [chupd_ne _ _ _ hli] at hmem
      rw [← hlen₁]
      exact hmem

/-
Lemma library, part 8: the effect of `push_back` and `push_front`.
-/

theorem modifyNode_eq {T : Type u} {nodes : List (Node T)} {i : Nat} {n : Node T}
    (h : nth nodes i = some n) (f : Node T → Node T) :
    LinkedListSet.modifyNode nodes i f = some (upd nodes i (f n)) := by
  simp [LinkedListSet.modifyNode, h]

theorem setList_setList : ∀ (m : List (Nat × LinkedList)) (k : Nat) (v v' : LinkedList),
    setList (setList m k v) k v' = setList m k v' := by
  intro m
  induction m with
  | nil => intro k v v'; rfl
  | cons q m' ih =>
    intro k v v'
    obtain ⟨k', w'⟩ := q
    by_cases hk : k' = k
    · simp [setList, hk]
    · simp [setList, hk]
      exact ih k v v'

theorem LinkedBtw_arena_append {T : Type u} {nodes : List (Node T)} {li prev term : Nat}
    {ixs : List Nat} (extra : List (Node T)) (h : LinkedBtw nodes li prev ixs term) :
    LinkedBtw (nodes ++ extra) li prev ixs term :=
  LinkedBtw_congr (fun i hi => nth_append_lt extra (LinkedBtw_mem_lt h hi)) h

theorem chains_disjoint {T : Type u} {nodes : List (Node T)} {li li2 prev term prev2 term2 : Nat}
    {ixs ixs2 : List Nat} (h1 : LinkedBtw nodes li prev ixs term)
    (h2 : LinkedBtw nodes li2 prev2 ixs2 term2) (hne : li ≠ li2) :
    ∀ i ∈ ixs, i ∉ ixs2 := by
  intro i hi hi2
  obtain ⟨n, hn, hnl⟩ := LinkedBtw_mem_node h1 i hi
  obtain ⟨n₂, hn₂, hn₂l⟩ := LinkedBtw_mem_node h2 i hi2
  rw [hn] at hn₂
  have hnn : n = n₂ := Option.some.inj hn₂
  subst hnn
  exact hne (by rw [← hnl, hn₂l])

theorem push_back_spec {T : Type u} {s : LinkedListSet T} {c : Nat → List Nat}
    (w : WFc s c) {li : Nat} {r : LinkedList} (hL : lookupList s.lists li = some r)
    (hcap : s.nodes.length < SENTINEL) (x : T) :
    ∃ s',
      s.push_back li x = some s' ∧
      WFc s' (chupd c li (c li ++ [s.nodes.length])) ∧
      s'.alloc = s.alloc ∧
      s'.nodes.length = s.nodes.length + 1 ∧
      keysOf s'.lists = keysOf s.lists ∧
      (∀ li2, li2 ≠ li → lookupList s'.lists li2 = lookupList s.lists li2) ∧
      (∃ r', lookupList s'.lists li = some r' ∧ r'.length = r.length + 1) ∧
      s'.listItems li = s.listItems li ++ [x] ∧
      (∀ li2 r2, li2 ≠ li → lookupList s.lists li2 = some r2 →
        s'.listItems li2 = s.listItems li2) := by
  have hguard : ¬ (SENTINEL ≤ s.nodes.length) := by omega
  obtain ⟨hl, hf, hbk, hlen, hnd⟩ := w.chains li r hL
  have hitems_old : s.listItems li = itemsOf s.nodes (c li) := listItems_eq_itemsOf w hL
  have hn₀ : nth (s.nodes ++ [Node.new li x]) s.nodes.length = some (Node.new li x) :=
    nth_append_len s.nodes (Node.new li x)
  have hn₀chain : s.nodes.length ∉ c li := by
    intro hmem
    have := LinkedBtw_mem_lt hl hmem
    omega
  have hother_chain : ∀ li2 r2, li2 ≠ li → lookupList s.lists li2 = some r2 →
      ∀ i ∈ c li2, i ∉ c li ∧ i ≠ s.nodes.length := by
    intro li2 r2 hne hr2 i hi
    constructor
    · exact chains_disjoint (w.chains li2 r2 hr2).1 hl hne i hi
    · intro heqi
      have := LinkedBtw_mem_lt (w.chains li2 r2 hr2).1 hi
      omega
  rcases hceq : c li with _ | ⟨j0, rest⟩
  · -- the list was empty: the new node becomes both front and back
    rw [hceq] at hl hf hbk hlen hnd
    have hemp : r.is_empty = true := by
      simp [LinkedList.is_empty, hf, hbk]
    have hlen0 : r.length = 0 := by simpa using hlen
    have heq : s.push_back li x = some
        { s with nodes := s.nodes ++ [Node.new li x],
                 lists := setList s.lists li
                   { front := s.nodes.length, back := s.nodes.length,
                     length := r.length + 1 } } := by
      unfold LinkedListSet.push_back
      rw [if_neg hguard]
      simp only [hL, hemp, if_true, Option.some_bind]
      rw [show lookupList (setList s.lists li
            { r with front := s.nodes.length, back := s.nodes.length }) li =
          some { r with front := s.nodes.length, back := s.nodes.length } from
          lookup_setList_self _ hL]
      simp only [setList_setList]
    set rF : LinkedList :=
      { front := s.nodes.length, back := s.nodes.length, length := r.length + 1 } with hrF
    have hchain : LinkedBtw (s.nodes ++ [Node.new li x]) li SENTINEL [s.nodes.length] SENTINEL := by
      refine ⟨Node.new li x, hn₀, rfl, rfl, rfl, trivial⟩
    have wf' : WFc { s with nodes := s.nodes ++ [Node.new li x], lists := setList s.lists li rF } (chupd c li ([] ++ [s.nodes.length])) := by
      refine ⟨?_, ?_, ?_, ?_, ?_⟩
      · show (s.nodes ++ [Node.new li x]).length ≤ SENTINEL
        rw [List.length_append]
        simp
        omega
      · show (keysOf (setList s.lists li rF)).Nodup
        rw [keysOf_setList]
        exact w.keys_nodup
      · intro li2 r2 hmem
        obtain ⟨w', hw'⟩ := mem_setList_keys hmem
        exact w.keys_lt_alloc li2 w' hw'
      · intro li2 r2 hr2
        by_cases hne : li2 = li
        · subst hne
          rw [show lookupList (setList s.lists li2 rF) li2 = some rF from
                lookup_setList_self _ hL] at hr2
          injection hr2 with hr2'
          subst hr2'
          rw [chupd_self]
          refine ⟨by simpa using hchain, rfl, rfl, by simp [hrF, hlen0], by simp⟩
        · rw [show lookupList (setList s.lists li rF) li2 = lookupList s.lists li2 from
                lookup_setList_ne s.lists li rF hne] at hr2
          rw [chupd_ne _ _ _ hne]
          obtain ⟨h1, h2, h3, h4, h5⟩ := w.chains li2 r2 hr2
          refine ⟨LinkedBtw_congr ?_ h1, h2, h3, h4, h5⟩
          intro i hi
          exact nth_append_lt _ (LinkedBtw_mem_lt h1 hi)
      · intro i hilt
        replace hilt : i < (s.nodes ++ [Node.new li x]).length := hilt
        rw [List.length_append] at hilt
        simp at hilt
        by_cases hie : i = s.nodes.length
        · subst hie
          refine ⟨li, rF, lookup_setList_self _ hL, ?_⟩
          rw [chupd_self]
          simp
        · obtain ⟨li2, r2, hr2, hi⟩ := w.covers i (by omega)
          by_cases hne : li2 = li
          · subst hne
            rw [hceq] at hi
            simp at hi
          · refine ⟨li2, r2, ?_, ?_⟩
            · rw [lookup_setList_ne s.lists li rF hne]; exact hr2
            · rw [chupd_ne _ _ _ hne]; exact hi
    refine ⟨_, heq, wf', rfl, ?_, keysOf_setList s.lists li rF, ?_, ?_, ?_, ?_⟩
    · show (s.nodes ++ [Node.new li x]).length = s.nodes.length + 1
      rw [List.length_append]
      rfl
    · intro li2 hne
      exact lookup_setList_ne s.lists li rF hne
    · exact ⟨rF, lookup_setList_self _ hL, rfl⟩
    · have h1 := listItems_eq_itemsOf wf' (lookup_setList_self rF hL)
      rw [chupd_self] at h1
      rw [h1, hitems_old, hceq]
      simp only [List.nil_append]
      rw [itemsOf_cons_of_nth hn₀]
      simp [itemsOf, Node.new]
    · intro li2 r2 hne hr2
      have hr2' : lookupList (setList s.lists li rF) li2 = some r2 := by
        rw [lookup_setList_ne s.lists li rF hne]
        exact hr2
      have h1 := listItems_eq_itemsOf wf' hr2'
      rw [chupd_ne _ _ _ hne] at h1
      rw [h1, listItems_eq_itemsOf w hr2]
      refine itemsOf_congr ?_
      intro i hi
      exact nth_append_lt _ (LinkedBtw_mem_lt (w.chains li2 r2 hr2).1 hi)
  · -- the list was non-empty: link behind the current back
    rw [hceq] at hl hf hbk hlen hnd
    have hbnd := w.nodes_bound
    have hj0lt : j0 < s.nodes.length := LinkedBtw_mem_lt hl (by simp)
    have hfne : r.front ≠ SENTINEL := by
      rw [hf]
      simp only [List.headD_cons]
      omega
    have hemp : r.is_empty = false := by
      simp [LinkedList.is_empty]
      intro hfe
      exact absurd hfe hfne
    have hbke : r.back = (j0 :: rest).getLastD SENTINEL := hbk
    have hbkmem : r.back ∈ j0 :: rest := by
      rw [hbke]
      exact getLastD_mem (by simp) SENTINEL
    have hbklt : r.back < s.nodes.length := LinkedBtw_mem_lt hl hbkmem
    have hbkne : r.back ≠ SENTINEL := by omega
    have hbkn₀ : r.back ≠ s.nodes.length := by omega
    -- step 1: append the fresh node
    set nodesS : List (Node T) := s.nodes ++ [Node.new li x] with hnodesS
    have hlS : LinkedBtw nodesS li SENTINEL (j0 :: rest) SENTINEL :=
      LinkedBtw_arena_append _ hl
    have hlenS : nodesS.length = s.nodes.length + 1 := by
      rw [hnodesS, List.length_append]
      rfl
    -- step 2: the new node's links are set by `link_list_node`
    set nnew : Node T := { item := x, list := li, previous := r.back, next := SENTINEL }
      with hnnew
    have hmod₀ : LinkedListSet.modifyNode nodesS s.nodes.length
        (fun n => { n with previous := r.back, next := SENTINEL }) =
        some (upd nodesS s.nodes.length nnew) := by
      rw [modifyNode_eq hn₀]
      rfl
    set nodesP1 : List (Node T) := upd nodesS s.nodes.length nnew with hnodesP1
    have hlenP1 : nodesP1.length = s.nodes.length + 1 := by
      rw [hnodesP1, length_upd]
      exact hlenS
    have hlP1 : LinkedBtw nodesP1 li SENTINEL (j0 :: rest) SENTINEL := by
      refine LinkedBtw_congr ?_ hlS
      intro i hi
      have : i < s.nodes.length := LinkedBtw_mem_lt hl hi
      exact nth_upd_ne nodesS nnew (by omega)
    have hbndP1 : nodesP1.length ≤ SENTINEL := by omega
    obtain ⟨nodesR, hR_eq, hR_len, hR_frame, hR_chain, hR_items⟩ :=
      retarget_last s.nodes.length hbndP1 hnd hlP1
    have hglne : (j0 :: rest).getLastD SENTINEL ≠ SENTINEL := by
      rw [← hbke]
      exact hbkne
    rw [if_pos hglne] at hR_eq
    have hmodR : LinkedListSet.modifyNode nodesP1 r.back
        (fun n => { n with next := s.nodes.length }) = some nodesR := by
      rw [hbke]
      exact hR_eq
    have hn₀notc : s.nodes.length ∉ j0 :: rest := hceq ▸ hn₀chain
    have hlink : LinkedListSet.link_list_node { s with nodes := nodesS }
        s.nodes.length r.back SENTINEL = some { s with nodes := nodesR } := by
      unfold LinkedListSet.link_list_node
      rw [show LinkedListSet.modifyNode ({ s with nodes := nodesS } : LinkedListSet T).nodes
            s.nodes.length (fun n => { n with previous := r.back, next := SENTINEL }) =
            some nodesP1 from hmod₀]
      rw [Option.some_bind]
      rw [if_neg (by simp)]
      rw [Option.some_bind, if_pos hbkne, hmodR, Option.some_bind]
    set rF : LinkedList :=
      { front := r.front, back := s.nodes.length, length := r.length + 1 } with hrF
    have heq : s.push_back li x = some { s with nodes := nodesR, lists := setList s.lists li rF } := by
      unfold LinkedListSet.push_back
      rw [if_neg hguard]
      simp only [hL, hemp, Bool.false_eq_true, if_false, hlink, Option.some_bind]
      rw [show lookupList (setList s.lists li { r with back := s.nodes.length }) li =
            some { r with back := s.nodes.length } from lookup_setList_self _ hL]
      simp only [setList_setList]
    have hn₀R : nth nodesR s.nodes.length = some nnew := by
      rw [hR_frame _ hn₀notc, hnodesP1]
      exact nth_upd_self (by omega) nnew
    have hlenR : nodesR.length = s.nodes.length + 1 := by rw [hR_len]; exact hlenP1
    have hreadsR : ∀ i, i ∈ j0 :: rest → nth nodesR i = nth s.nodes i ∨ True := fun i _ => Or.inr trivial
    have hother_read : ∀ li2 r2, li2 ≠ li → lookupList s.lists li2 = some r2 →
        ∀ i ∈ c li2, nth nodesR i = nth s.nodes i := by
      intro li2 r2 hne hr2 i hi
      obtain ⟨hic, hin⟩ := hother_chain li2 r2 hne hr2 i hi
      rw [hR_frame i (hceq ▸ hic), hnodesP1, nth_upd_ne nodesS nnew hin, hnodesS]
      exact nth_append_lt _ (LinkedBtw_mem_lt (w.chains li2 r2 hr2).1 hi)
    have hitemsR : ∀ i, i ≠ s.nodes.length → itemAt nodesR i = itemAt s.nodes i := by
      intro i hin
      rw [hR_items i, hnodesP1]
      unfold itemAt
      rw [nth_upd_ne nodesS nnew hin, hnodesS]
      by_cases hilt : i < s.nodes.length
      · rw [nth_append_lt _ hilt]
      · have h2 : nth s.nodes i = none := by
          cases h3 : nth s.nodes i with
          | none => rfl
          | some a => exact absurd (nth_some_lt h3) hilt
        rw [h2]
        cases h4 : nth (s.nodes ++ [Node.new li x]) i with
        | none => rfl
        | some a =>
          have h5 := nth_some_lt h4
          rw [List.length_append] at h5
          simp at h5
          have h6 : i = s.nodes.length := by omega
          exact absurd h6 hin
    have hchainNew : LinkedBtw nodesR li SENTINEL ((j0 :: rest) ++ [s.nodes.length]) SENTINEL := by
      rw [LinkedBtw_append]
      constructor
      · simpa using hR_chain
      · refine ⟨nnew, hn₀R, rfl, ?_, rfl, trivial⟩
        rw [hnnew]
        exact hbke
    have hndNew : ((j0 :: rest) ++ [s.nodes.length]).Nodup := by
      rw [List.nodup_append]
      refine ⟨hnd, by simp, ?_⟩
      intro i hi
      have := LinkedBtw_mem_lt hl hi
      simp
      omega
    have wf' : WFc { s with nodes := nodesR, lists := setList s.lists li rF } (chupd c li ((j0 :: rest) ++ [s.nodes.length])) := by
      refine ⟨?_, ?_, ?_, ?_, ?_⟩
      · show nodesR.length ≤ SENTINEL
        rw [hlenR]
        omega
      · show (keysOf (setList s.lists li rF)).Nodup
        rw [keysOf_setList]
        exact w.keys_nodup
      · intro li2 r2 hmem
        obtain ⟨w', hw'⟩ := mem_setList_keys hmem
        exact w.keys_lt_alloc li2 w' hw'
      · intro li2 r2 hr2
        by_cases hne : li2 = li
        · subst hne
          rw [show lookupList (setList s.lists li2 rF) li2 = some rF from
                lookup_setList_self _ hL] at hr2
          injection hr2 with hr2'
          subst hr2'
          rw [chupd_self]
          refine ⟨hchainNew, ?_, ?_, ?_, hndNew⟩
          · rw [hrF]
            show r.front = _
            rw [hf]
            rfl
          · rw [hrF]
            show s.nodes.length = _
            rw [getLastD_concat]
          · rw [hrF]
            show r.length + 1 = _
            rw [hlen]
            simp
        · rw [show lookupList (setList s.lists li rF) li2 = lookupList s.lists li2 from
                lookup_setList_ne s.lists li rF hne] at hr2
          rw [chupd_ne _ _ _ hne]
          obtain ⟨h1, h2, h3, h4, h5⟩ := w.chains li2 r2 hr2
          exact ⟨LinkedBtw_congr (hother_read li2 r2 hne hr2) h1, h2, h3, h4, h5⟩
      · intro i hilt
        replace hilt : i < nodesR.length := hilt
        rw [hlenR] at hilt
        by_cases hie : i = s.nodes.length
        · subst hie
          refine ⟨li, rF, lookup_setList_self _ hL, ?_⟩
          rw [chupd_self]
          exact List.mem_append_right _ (by simp)
        · obtain ⟨li2, r2, hr2, hi⟩ := w.covers i (by omega)
          by_cases hne : li2 = li
          · subst hne
            refine ⟨li2, rF, lookup_setList_self _ hL, ?_⟩
            rw [chupd_self]
            rw [hceq] at hi
            exact List.mem_append_left _ hi
          · refine ⟨li2, r2, ?_, ?_⟩
            · rw [lookup_setList_ne s.lists li rF hne]; exact hr2
            · rw [chupd_ne _ _ _ hne]; exact hi
    refine ⟨_, heq, wf', rfl, hlenR, keysOf_setList s.lists li rF, ?_, ?_, ?_, ?_⟩
    · intro li2 hne
      exact lookup_setList_ne s.lists li rF hne
    · exact ⟨rF, lookup_setList_self _ hL, rfl⟩
    · have h1 := listItems_eq_itemsOf wf' (lookup_setList_self rF hL)
      rw [chupd_self] at h1
      rw [h1, hitems_old, hceq]
      rw [itemsOf_append]
      have h2 : itemsOf nodesR (j0 :: rest) = itemsOf s.nodes (j0 :: rest) := by
        refine itemsOf_congr_item ?_
        intro i hi
        have := LinkedBtw_mem_lt hl hi
        exact hitemsR i (by omega)
      rw [h2]
      rw [show itemsOf nodesR [s.nodes.length] = [x] by
            rw [itemsOf_cons_of_nth hn₀R]
            rfl]
    · intro li2 r2 hne hr2
      have hr2' : lookupList (setList s.lists li rF) li2 = some r2 := by
        rw [lookup_setList_ne s.lists li rF hne]
        exact hr2
      have h1 := listItems_eq_itemsOf wf' hr2'
      rw [chupd_ne _ _ _ hne] at h1
      rw [h1, listItems_eq_itemsOf w hr2]
      exact itemsOf_congr (hother_read li2 r2 hne hr2)

theorem getLastD_indep {α : Type u} {l : List α} (h : l ≠ []) (d d' : α) :
    l.getLastD d = l.getLastD d' := by
  rcases List.eq_nil_or_concat l with rfl | ⟨l', e, rfl⟩
  · exact absurd rfl h
  · simp only [List.concat_eq_append]
    rw [getLastD_concat, getLastD_concat]

theorem push_front_spec {T : Type u} {s : LinkedListSet T} {c : Nat → List Nat}
    (w : WFc s c) {li : Nat} {r : LinkedList} (hL : lookupList s.lists li = some r)
    (hcap : s.nodes.length < SENTINEL) (x : T) :
    ∃ s',
      s.push_front li x = some s' ∧
      WFc s' (chupd c li (s.nodes.length :: c li)) ∧
      s'.alloc = s.alloc ∧
      s'.nodes.length = s.nodes.length + 1 ∧
      keysOf s'.lists = keysOf s.lists ∧
      (∀ li2, li2 ≠ li → lookupList s'.lists li2 = lookupList s.lists li2) ∧
      (∃ r', lookupList s'.lists li = some r' ∧ r'.length = r.length + 1) ∧
      s'.listItems li = x :: s.listItems li ∧
      (∀ li2 r2, li2 ≠ li → lookupList s.lists li2 = some r2 →
        s'.listItems li2 = s.listItems li2) := by
  have hguard : ¬ (SENTINEL ≤ s.nodes.length) := by omega
  obtain ⟨hl, hf, hbk, hlen, hnd⟩ := w.chains li r hL
  have hitems_old : s.listItems li = itemsOf s.nodes (c li) := listItems_eq_itemsOf w hL
  have hn₀ : nth (s.nodes ++ [Node.new li x]) s.nodes.length = some (Node.new li x) :=
    nth_append_len s.nodes (Node.new li x)
  have hn₀chain : s.nodes.length ∉ c li := by
    intro hmem
    have := LinkedBtw_mem_lt hl hmem
    omega
  have hother_chain : ∀ li2 r2, li2 ≠ li → lookupList s.lists li2 = some r2 →
      ∀ i ∈ c li2, i ∉ c li ∧ i ≠ s.nodes.length := by
    intro li2 r2 hne hr2 i hi
    constructor
    · exact chains_disjoint (w.chains li2 r2 hr2).1 hl hne i hi
    · intro heqi
      have := LinkedBtw_mem_lt (w.chains li2 r2 hr2).1 hi
      omega
  rcases hceq : c li with _ | ⟨j0, rest⟩
  · -- the list was empty
    rw [hceq] at hl hf hbk hlen hnd
    have hemp : r.is_empty = true := by
      simp [LinkedList.is_empty, hf, hbk]
    have hlen0 : r.length = 0 := by simpa using hlen
    have heq : s.push_front li x = some
        { s with nodes := s.nodes ++ [Node.new li x],
                 lists := setList s.lists li
                   { front := s.nodes.length, back := s.nodes.length,
                     length := r.length + 1 } } := by
      unfold LinkedListSet.push_front
      rw [if_neg hguard]
      simp only [hL, hemp, if_true, Option.some_bind]
      rw [show lookupList (setList s.lists li
            { r with front := s.nodes.length, back := s.nodes.length }) li =
          some { r with front := s.nodes.length, back := s.nodes.length } from
          lookup_setList_self _ hL]
      simp only [setList_setList]
    set rF : LinkedList :=
      { front := s.nodes.length, back := s.nodes.length, length := r.length + 1 } with hrF
    have hchain : LinkedBtw (s.nodes ++ [Node.new li x]) li SENTINEL [s.nodes.length] SENTINEL := by
      refine ⟨Node.new li x, hn₀, rfl, rfl, rfl, trivial⟩
    have wf' : WFc { s with nodes := s.nodes ++ [Node.new li x], lists := setList s.lists li rF } (chupd c li (s.nodes.length :: [])) := by
      refine ⟨?_, ?_, ?_, ?_, ?_⟩
      · show (s.nodes ++ [Node.new li x]).length ≤ SENTINEL
        rw [List.length_append]
        simp
        omega
      · show (keysOf (setList s.lists li rF)).Nodup
        rw [keysOf_setList]
        exact w.keys_nodup
      · intro li2 r2 hmem
        obtain ⟨w', hw'⟩ := mem_setList_keys hmem
        exact w.keys_lt_alloc li2 w' hw'
      · intro li2 r2 hr2
        by_cases hne : li2 = li
        · subst hne
          rw [show lookupList (setList s.lists li2 rF) li2 = some rF from
                lookup_setList_self _ hL] at hr2
          injection hr2 with hr2'
          subst hr2'
          rw [chupd_self]
          refine ⟨by simpa using hchain, rfl, rfl, by simp [hrF, hlen0], by simp⟩
        · rw [show lookupList (setList s.lists li rF) li2 = lookupList s.lists li2 from
                lookup_setList_ne s.lists li rF hne] at hr2
          rw [chupd_ne _ _ _ hne]
          obtain ⟨h1, h2, h3, h4, h5⟩ := w.chains li2 r2 hr2
          refine ⟨LinkedBtw_congr ?_ h1, h2, h3, h4, h5⟩
          intro i hi
          exact nth_append_lt _ (LinkedBtw_mem_lt h1 hi)
      · intro i hilt
        replace hilt : i < (s.nodes ++ [Node.new li x]).length := hilt
        rw [List.length_append] at hilt
        simp at hilt
        by_cases hie : i = s.nodes.length
        · subst hie
          refine ⟨li, rF, lookup_setList_self _ hL, ?_⟩
          rw [chupd_self]
          simp
        · obtain ⟨li2, r2, hr2, hi⟩ := w.covers i (by omega)
          by_cases hne : li2 = li
          · subst hne
            rw [hceq] at hi
            simp at hi
          · refine ⟨li2, r2, ?_, ?_⟩
            · rw [lookup_setList_ne s.lists li rF hne]; exact hr2
            · rw [chupd_ne _ _ _ hne]; exact hi
    refine ⟨_, heq, wf', rfl, ?_, keysOf_setList s.lists li rF, ?_, ?_, ?_, ?_⟩
    · show (s.nodes ++ [Node.new li x]).length = s.nodes.length + 1
      rw [List.length_append]
      rfl
    · intro li2 hne
      exact lookup_setList_ne s.lists li rF hne
    · exact ⟨rF, lookup_setList_self _ hL, rfl⟩
    · have h1 := listItems_eq_itemsOf wf' (lookup_setList_self rF hL)
      rw [chupd_self] at h1
      rw [h1, hitems_old, hceq]
      rw [show itemsOf (s.nodes ++ [Node.new li x]) [s.nodes.length] =
            [(Node.new li x).item] from itemsOf_cons_of_nth hn₀ []]
      simp [itemsOf, Node.new]
    · intro li2 r2 hne hr2
      have hr2' : lookupList (setList s.lists li rF) li2 = some r2 := by
        rw [lookup_setList_ne s.lists li rF hne]
        exact hr2
      have h1 := listItems_eq_itemsOf wf' hr2'
      rw [chupd_ne _ _ _ hne] at h1
      rw [h1, listItems_eq_itemsOf w hr2]
      refine itemsOf_congr ?_
      intro i hi
      exact nth_append_lt _ (LinkedBtw_mem_lt (w.chains li2 r2 hr2).1 hi)
  · -- the list was non-empty: link ahead of the current front
    rw [hceq] at hl hf hbk hlen hnd
    have hbnd := w.nodes_bound
    have hj0lt : j0 < s.nodes.length := LinkedBtw_mem_lt hl (by simp)
    have hfe : r.front = j0 := by rw [hf]; rfl
    have hfne : r.front ≠ SENTINEL := by omega
    have hemp : r.is_empty = false := by
      simp [LinkedList.is_empty]
      intro hfe'
      exact absurd hfe' hfne
    have hfn₀ : r.front ≠ s.nodes.length := by omega
    set nodesS : List (Node T) := s.nodes ++ [Node.new li x] with hnodesS
    have hlS : LinkedBtw nodesS li SENTINEL (j0 :: rest) SENTINEL :=
      LinkedBtw_arena_append _ hl
    have hlenS : nodesS.length = s.nodes.length + 1 := by
      rw [hnodesS, List.length_append]
      rfl
    set nnew : Node T := { item := x, list := li, previous := SENTINEL, next := r.front }
      with hnnew
    have hmod₀ : LinkedListSet.modifyNode nodesS s.nodes.length
        (fun n => { n with previous := SENTINEL, next := r.front }) =
        some (upd nodesS s.nodes.length nnew) := by
      rw [modifyNode_eq hn₀]
      rfl
    set nodesP1 : List (Node T) := upd nodesS s.nodes.length nnew with hnodesP1
    have hlenP1 : nodesP1.length = s.nodes.length + 1 := by
      rw [hnodesP1, length_upd]
      exact hlenS
    have hlP1 : LinkedBtw nodesP1 li SENTINEL (j0 :: rest) SENTINEL := by
      refine LinkedBtw_congr ?_ hlS
      intro i hi
      have : i < s.nodes.length := LinkedBtw_mem_lt hl hi
      exact nth_upd_ne nodesS nnew (by omega)
    have hbndP1 : nodesP1.length ≤ SENTINEL := by omega
    obtain ⟨nodesR, hR_eq, hR_len, hR_frame, hR_chain, hR_items⟩ :=
      retarget_head s.nodes.length hbndP1 hnd hlP1
    have hhdne : (j0 :: rest).headD SENTINEL ≠ SENTINEL := by
      simp only [List.headD_cons]
      omega
    rw [if_pos hhdne] at hR_eq
    have hmodR : LinkedListSet.modifyNode nodesP1 r.front
        (fun n => { n with previous := s.nodes.length }) = some nodesR := by
      rw [hfe]
      simpa using hR_eq
    have hn₀notc : s.nodes.length ∉ j0 :: rest := hceq ▸ hn₀chain
    have hlink : LinkedListSet.link_list_node { s with nodes := nodesS }
        s.nodes.length SENTINEL r.front = some { s with nodes := nodesR } := by
      unfold LinkedListSet.link_list_node
      rw [show LinkedListSet.modifyNode ({ s with nodes := nodesS } : LinkedListSet T).nodes
            s.nodes.length (fun n => { n with previous := SENTINEL, next := r.front }) =
            some nodesP1 from hmod₀]
      rw [Option.some_bind]
      rw [if_pos hfne, hmodR, Option.some_bind]
      rw [if_neg (by simp)]
      rw [Option.some_bind]
    set rF : LinkedList :=
      { front := s.nodes.length, back := r.back, length := r.length + 1 } with hrF
    have heq : s.push_front li x = some { s with nodes := nodesR, lists := setList s.lists li rF } := by
      unfold LinkedListSet.push_front
      rw [if_neg hguard]
      simp only [hL, hemp, Bool.false_eq_true, if_false, hlink, Option.some_bind]
      rw [show lookupList (setList s.lists li { r with front := s.nodes.length }) li =
            some { r with front := s.nodes.length } from lookup_setList_self _ hL]
      simp only [setList_setList]
    have hn₀R : nth nodesR s.nodes.length = some nnew := by
      rw [hR_frame _ hn₀notc, hnodesP1]
      exact nth_upd_self (by omega) nnew
    have hlenR : nodesR.length = s.nodes.length + 1 := by rw [hR_len]; exact hlenP1
    have hother_read : ∀ li2 r2, li2 ≠ li → lookupList s.lists li2 = some r2 →
        ∀ i ∈ c li2, nth nodesR i = nth s.nodes i := by
      intro li2 r2 hne hr2 i hi
      obtain ⟨hic, hin⟩ := hother_chain li2 r2 hne hr2 i hi
      rw [hR_frame i (hceq ▸ hic), hnodesP1, nth_upd_ne nodesS nnew hin, hnodesS]
      exact nth_append_lt _ (LinkedBtw_mem_lt (w.chains li2 r2 hr2).1 hi)
    have hitemsR : ∀ i, i ≠ s.nodes.length → itemAt nodesR i = itemAt s.nodes i := by
      intro i hin
      rw [hR_items i, hnodesP1]
      unfold itemAt
      rw [nth_upd_ne nodesS nnew hin, hnodesS]
      by_cases hilt : i < s.nodes.length
      · rw [nth_append_lt _ hilt]
      · have h2 : nth s.nodes i = none := by
          cases h3 : nth s.nodes i with
          | none => rfl
          | some a => exact absurd (nth_some_lt h3) hilt
        rw [h2]
        cases h4 : nth (s.nodes ++ [Node.new li x]) i with
        | none => rfl
        | some a =>
          have h5 := nth_some_lt h4
          rw [List.length_append] at h5
          simp at h5
          have h6 : i = s.nodes.length := by omega
          exact absurd h6 hin
    have hchainNew : LinkedBtw nodesR li SENTINEL (s.nodes.length :: j0 :: rest) SENTINEL := by
      refine ⟨nnew, hn₀R, rfl, rfl, by rw [hnnew]; exact hfe, hR_chain⟩
    have hndNew : (s.nodes.length :: j0 :: rest).Nodup := by
      rw [List.nodup_cons]
      exact ⟨hn₀notc, hnd⟩
    have wf' : WFc { s with nodes := nodesR, lists := setList s.lists li rF } (chupd c li (s.nodes.length :: j0 :: rest)) := by
      refine ⟨?_, ?_, ?_, ?_, ?_⟩
      · show nodesR.length ≤ SENTINEL
        rw [hlenR]
        omega
      · show (keysOf (setList s.lists li rF)).Nodup
        rw [keysOf_setList]
        exact w.keys_nodup
      · intro li2 r2 hmem
        obtain ⟨w', hw'⟩ := mem_setList_keys hmem
        exact w.keys_lt_alloc li2 w' hw'
      · intro li2 r2 hr2
        by_cases hne : li2 = li
        · subst hne
          rw [show lookupList (setList s.lists li2 rF) li2 = some rF from
                lookup_setList_self _ hL] at hr2
          injection hr2 with hr2'
          subst hr2'
          rw [chupd_self]
          refine ⟨hchainNew, rfl, ?_, ?_, hndNew⟩
          · rw [hrF]
            show r.back = _
            rw [hbk]
            nth_rewrite 2 [List.getLastD_cons]
            exact getLastD_indep (by simp) SENTINEL s.nodes.length
          · rw [hrF]
            show r.length + 1 = _
            rw [hlen]
            simp
        · rw [show lookupList (setList s.lists li rF) li2 = lookupList s.lists li2 from
                lookup_setList_ne s.lists li rF hne] at hr2
          rw [chupd_ne _ _ _ hne]
          obtain ⟨h1, h2, h3, h4, h5⟩ := w.chains li2 r2 hr2
          exact ⟨LinkedBtw_congr (hother_read li2 r2 hne hr2) h1, h2, h3, h4, h5⟩
      · intro i hilt
        replace hilt : i < nodesR.length := hilt
        rw [hlenR] at hilt
        by_cases hie : i = s.nodes.length
        · subst hie
          refine ⟨li, rF, lookup_setList_self _ hL, ?_⟩
          rw [chupd_self]
          simp
        · obtain ⟨li2, r2, hr2, hi⟩ := w.covers i (by omega)
          by_cases hne : li2 = li
          · subst hne
            refine ⟨li2, rF, lookup_setList_self _ hL, ?_⟩
            rw [chupd_self]
            rw [hceq] at hi
            exact List.mem_cons_of_mem _ hi
          · refine ⟨li2, r2, ?_, ?_⟩
            · rw [lookup_setList_ne s.lists li rF hne]; exact hr2
            · rw [chupd_ne _ _ _ hne]; exact hi
    refine ⟨_, heq, wf', rfl, hlenR, keysOf_setList s.lists li rF, ?_, ?_, ?_, ?_⟩
    · intro li2 hne
      exact lookup_setList_ne s.lists li rF hne
    · exact ⟨rF, lookup_setList_self _ hL, rfl⟩
    · have h1 := listItems_eq_itemsOf wf' (lookup_setList_self rF hL)
      rw [chupd_self] at h1
      rw [h1, hitems_old, hceq]
      rw [itemsOf_cons_of_nth hn₀R]
      have h2 : itemsOf nodesR (j0 :: rest) = itemsOf s.nodes (j0 :: rest) := by
        refine itemsOf_congr_item ?_
        intro i hi
        have := LinkedBtw_mem_lt hl hi
        exact hitemsR i (by omega)
      rw [h2]
    · intro li2 r2 hne hr2
      have hr2' : lookupList (setList s.lists li rF) li2 = some r2 := by
        rw [lookup_setList_ne s.lists li rF hne]
        exact hr2
      have h1 := listItems_eq_itemsOf wf' hr2'
      rw [chupd_ne _ _ _ hne] at h1
      rw [h1, listItems_eq_itemsOf w hr2]
      exact itemsOf_congr (hother_read li2 r2 hne hr2)

/-
Lemma library, part 9: list-surgery helpers and success inversions.
-/

theorem nth_append_cons {α : Type u} : ∀ (xs : List α) (y : α) (ys : List α),
    nth (xs ++ y :: ys) xs.length = some y := by
  intro xs
  induction xs with
  | nil => intro y ys; rfl
  | cons a l ih => intro y ys; exact ih y ys

theorem eraseIdx_append_cons {α : Type u} : ∀ (xs : List α) (y : α) (ys : List α),
    (xs ++ y :: ys).eraseIdx xs.length = xs ++ ys := by
  intro xs
  induction xs with
  | nil => intro y ys; rfl
  | cons a l ih =>
    intro y ys
    simp only [List.cons_append, List.eraseIdx_cons_succ, List.length_cons]
    rw [ih y ys]

theorem nth_split {α : Type u} : ∀ {l : List α} {a : Nat} {y : α},
    nth l a = some y → l = l.take a ++ y :: l.drop (a + 1) ∧ (l.take a).length = a := by
  intro l
  induction l with
  | nil => intro a y h; simp [nth] at h
  | cons b l' ih =>
    intro a y h
    cases a with
    | zero =>
      simp [nth] at h
      simp [h]
    | succ a' =>
      obtain ⟨h1, h2⟩ := ih h
      constructor
      · show b :: l' = b :: (l'.take a' ++ y :: l'.drop (a' + 1))
        rw [← h1]
      · simp [h2]

theorem push_back_inv {T : Type u} {s : LinkedListSet T} {li : Nat} {x : T}
    {s' : LinkedListSet T} (h : s.push_back li x = some s') :
    s.nodes.length < SENTINEL ∧ (lookupList s.lists li).isSome := by
  unfold LinkedListSet.push_back at h
  by_cases hg : SENTINEL ≤ s.nodes.length
  · rw [if_pos hg] at h; cases h
  · rw [if_neg hg] at h
    refine ⟨by omega, ?_⟩
    cases hlook : lookupList s.lists li with
    | some r => simp
    | none => simp only [hlook] at h; cases h

theorem push_front_inv {T : Type u} {s : LinkedListSet T} {li : Nat} {x : T}
    {s' : LinkedListSet T} (h : s.push_front li x = some s') :
    s.nodes.length < SENTINEL ∧ (lookupList s.lists li).isSome := by
  unfold LinkedListSet.push_front at h
  by_cases hg : SENTINEL ≤ s.nodes.length
  · rw [if_pos hg] at h; cases h
  · rw [if_neg hg] at h
    refine ⟨by omega, ?_⟩
    cases hlook : lookupList s.lists li with
    | some r => simp
    | none => simp only [hlook] at h; cases h

theorem pop_front_inv {T : Type u} {s : LinkedListSet T} {li : Nat}
    {res : Option T} {s' : LinkedListSet T} (h : s.pop_front li = some (res, s')) :
    (lookupList s.lists li).isSome := by
  unfold LinkedListSet.pop_front at h
  cases hlook : lookupList s.lists li with
  | some r => simp
  | none => rw [hlook] at h; cases h

theorem pop_back_inv {T : Type u} {s : LinkedListSet T} {li : Nat}
    {res : Option T} {s' : LinkedListSet T} (h : s.pop_back li = some (res, s')) :
    (lookupList s.lists li).isSome := by
  unfold LinkedListSet.pop_back at h
  cases hlook : lookupList s.lists li with
  | some r => simp
  | none => rw [hlook] at h; cases h

theorem remove_inv {T : Type u} {s : LinkedListSet T} {li a : Nat}
    {res : Option (T × Nat)} {s' : LinkedListSet T}
    (h : s.remove li a = some (res, s')) : (lookupList s.lists li).isSome := by
  unfold LinkedListSet.remove at h
  cases hlook : lookupList s.lists li with
  | some r => simp
  | none => rw [hlook] at h; cases h

theorem remove_item_inv {T : Type u} [DecidableEq T] {s : LinkedListSet T} {li : Nat}
    {x : T} {res : Option (T × Nat)} {s' : LinkedListSet T}
    (h : s.remove_item li x = some (res, s')) : (lookupList s.lists li).isSome := by
  unfold LinkedListSet.remove_item at h
  cases hlook : lookupList s.lists li with
  | some r => simp
  | none => rw [hlook] at h; cases h

theorem clear_inv {T : Type u} {s : LinkedListSet T} {li : Nat} {s' : LinkedListSet T}
    (h : s.clear li = some s') : (lookupList s.lists li).isSome := by
  unfold LinkedListSet.clear LinkedListSet.clear_loop at h
  cases hlook : lookupList s.lists li with
  | some r => simp
  | none => rw [hlook] at h; cases h

/-
Lemma library, part 10: effect of `pop_front` and `pop_back`.
-/

theorem pop_front_spec {T : Type u} {s : LinkedListSet T} {c : Nat → List Nat}
    (w : WFc s c) {li : Nat} {r : LinkedList} (hL : lookupList s.lists li = some r) :
    (c li = [] → s.pop_front li = some (none, s)) ∧
    (∀ j rest, c li = j :: rest →
      ∃ t s' c',
        s.pop_front li = some (some t, s') ∧
        WFc s' c' ∧
        s'.alloc = s.alloc ∧
        s'.nodes.length = s.nodes.length - 1 ∧
        keysOf s'.lists = keysOf s.lists ∧
        s.listItems li = t :: s'.listItems li ∧
        (∀ li2 r2, li2 ≠ li → lookupList s.lists li2 = some r2 →
          s'.listItems li2 = s.listItems li2) ∧
        (∃ r', lookupList s'.lists li = some r' ∧ r'.length = r.length - 1) ∧
        (∀ li2 r2, li2 ≠ li → lookupList s.lists li2 = some r2 →
          ∃ r2', lookupList s'.lists li2 = some r2' ∧ r2'.length = r2.length ∧
            (r2' = r2 ∨ s.nodes.length - 1 ∈ c li2))) := by
  obtain ⟨hch, hf, hb, hlen, hnd⟩ := w.chains li r hL
  constructor
  · intro hnil
    unfold LinkedListSet.pop_front
    simp only [hL]
    have hfs : r.front = SENTINEL := by rw [hf, hnil]; rfl
    rw [if_neg (by simp [hfs])]
  · intro j rest hcons
    have hsplit : c li = [] ++ j :: rest := by rw [hcons]; rfl
    obtain ⟨t, s', c', heq, hitemp, wfc', halloc, hlen', hkeys, hitemsL, hothers,
      ⟨r', hr', hr'len⟩, hrecs⟩ := remove_list_node_spec w hL hsplit
    have hjlt : j < s.nodes.length := by
      refine LinkedBtw_mem_lt hch ?_
      rw [hcons]; simp
    have hjs : j ≠ SENTINEL := by
      have := w.nodes_bound; omega
    have hfj : r.front = j := by rw [hf, hcons]; rfl
    refine ⟨t, s', c', ?_, wfc', halloc, hlen', hkeys, ?_, ?_, ⟨r', hr', hr'len⟩, hrecs⟩
    · unfold LinkedListSet.pop_front
      simp only [hL]
      rw [if_pos (by simp [hfj, hjs]), hfj, heq]
    · unfold itemAt at hitemp
      rw [Option.map_eq_some'] at hitemp
      obtain ⟨n, hn, hni⟩ := hitemp
      rw [listItems_eq_itemsOf w hL, hcons, itemsOf_cons_of_nth hn, hni,
        listItems_eq_itemsOf wfc' hr', hitemsL]
      rfl
    · intro li2 r2 hne hlk2
      obtain ⟨r2', hr2', _⟩ := hrecs li2 r2 hne hlk2
      rw [listItems_eq_itemsOf wfc' hr2', hothers li2 r2 hne hlk2,
        listItems_eq_itemsOf w hlk2]

theorem pop_back_spec {T : Type u} {s : LinkedListSet T} {c : Nat → List Nat}
    (w : WFc s c) {li : Nat} {r : LinkedList} (hL : lookupList s.lists li = some r) :
    (c li = [] → s.pop_back li = some (none, s)) ∧
    (∀ init j, c li = init ++ [j] →
      ∃ t s' c',
        s.pop_back li = some (some t, s') ∧
        WFc s' c' ∧
        s'.alloc = s.alloc ∧
        s'.nodes.length = s.nodes.length - 1 ∧
        keysOf s'.lists = keysOf s.lists ∧
        s.listItems li = s'.listItems li ++ [t] ∧
        (∀ li2 r2, li2 ≠ li → lookupList s.lists li2 = some r2 →
          s'.listItems li2 = s.listItems li2) ∧
        (∃ r', lookupList s'.lists li = some r' ∧ r'.length = r.length - 1) ∧
        (∀ li2 r2, li2 ≠ li → lookupList s.lists li2 = some r2 →
          ∃ r2', lookupList s'.lists li2 = some r2' ∧ r2'.length = r2.length ∧
            (r2' = r2 ∨ s.nodes.length - 1 ∈ c li2))) := by
  obtain ⟨hch, hf, hb, hlen, hnd⟩ := w.chains li r hL
  constructor
  · intro hnil
    unfold LinkedListSet.pop_back
    simp only [hL]
    have hbs : r.back = SENTINEL := by rw [hb, hnil]; rfl
    rw [if_neg (by simp [hbs])]
  · intro init j hcons
    have hsplit : c li = init ++ j :: [] := by rw [hcons]
    obtain ⟨t, s', c', heq, hitemp, wfc', halloc, hlen', hkeys, hitemsL, hothers,
      ⟨r', hr', hr'len⟩, hrecs⟩ := remove_list_node_spec w hL hsplit
    have hjlt : j < s.nodes.length := by
      refine LinkedBtw_mem_lt hch ?_
      rw [hcons]; simp
    have hjs : j ≠ SENTINEL := by
      have := w.nodes_bound; omega
    have hbj : r.back = j := by rw [hb, hcons, getLastD_concat]
    refine ⟨t, s', c', ?_, wfc', halloc, hlen', hkeys, ?_, ?_, ⟨r', hr', hr'len⟩, hrecs⟩
    · unfold LinkedListSet.pop_back
      simp only [hL]
      rw [if_pos (by simp [hbj, hjs]), hbj, heq]
    · unfold itemAt at hitemp
      rw [Option.map_eq_some'] at hitemp
      obtain ⟨n, hn, hni⟩ := hitemp
      rw [listItems_eq_itemsOf w hL, hcons, itemsOf_append, itemsOf_cons_of_nth hn, hni,
        listItems_eq_itemsOf wfc' hr', hitemsL]
      simp [itemsOf]
    · intro li2 r2 hne hlk2
      obtain ⟨r2', hr2', _⟩ := hrecs li2 r2 hne hlk2
      rw [listItems_eq_itemsOf wfc' hr2', hothers li2 r2 hne hlk2,
        listItems_eq_itemsOf w hlk2]

/-
Lemma library, part 11: the `remove` walk.
-/

theorem remove_loop_hit {T : Type u} {s : LinkedListSet T} {li : Nat} {a : Nat} :
    ∀ (wseg : List Nat) (prev i fuel : Nat) {j : Nat},
    LinkedBtw s.nodes li prev wseg SENTINEL →
    s.nodes.length ≤ SENTINEL →
    wseg.length < fuel →
    i ≤ a →
    nth wseg (a - i) = some j →
    LinkedListSet.remove_loop s a fuel (wseg.headD SENTINEL) i =
      (match LinkedListSet.remove_list_node s j with
       | none => none
       | some (t, s') => some (some (t, a), s')) := by
  intro wseg
  induction wseg with
  | nil =>
    intro prev i fuel j _ _ _ _ hnth
    simp [nth] at hnth
  | cons j0 w' ih =>
    intro prev i fuel j hch hb hf hia hnth
    obtain ⟨n, hn, hnl, hnp, hnn, hch'⟩ := hch
    have hj0s : j0 ≠ SENTINEL := by
      have := nth_some_lt hn
      omega
    cases fuel with
    | zero => simp at hf
    | succ f =>
      simp only [List.headD_cons]
      simp only [LinkedListSet.remove_loop]
      rw [if_neg hj0s]
      simp only [hn]
      by_cases hieq : i = a
      · subst hieq
        rw [if_pos rfl]
        have hj : j = j0 := by
          simp [Nat.sub_self, nth] at hnth
          exact hnth.symm
        subst hj
        rfl
      · rw [if_neg hieq]
        rw [hnn]
        have hlt : i < a := Nat.lt_of_le_of_ne hia hieq
        have hsub : a - i = (a - (i + 1)) + 1 := by omega
        rw [hsub] at hnth
        exact ih j0 (i + 1) f hch' hb (by simpa using hf) hlt hnth

theorem remove_loop_miss {T : Type u} {s : LinkedListSet T} {li : Nat} {a : Nat} :
    ∀ (wseg : List Nat) (prev i fuel : Nat),
    LinkedBtw s.nodes li prev wseg SENTINEL →
    s.nodes.length ≤ SENTINEL →
    wseg.length < fuel →
    (i + wseg.length ≤ a ∨ a < i) →
    LinkedListSet.remove_loop s a fuel (wseg.headD SENTINEL) i = some (none, s) := by
  intro wseg
  induction wseg with
  | nil =>
    intro prev i fuel _ _ hf _
    cases fuel with
    | zero => simp at hf
    | succ f =>
      simp [LinkedListSet.remove_loop]
  | cons j0 w' ih =>
    intro prev i fuel hch hb hf hcond
    obtain ⟨n, hn, hnl, hnp, hnn, hch'⟩ := hch
    have hj0s : j0 ≠ SENTINEL := by
      have := nth_some_lt hn
      omega
    cases fuel with
    | zero => simp at hf
    | succ f =>
      simp only [List.headD_cons]
      simp only [LinkedListSet.remove_loop]
      rw [if_neg hj0s]
      simp only [hn]
      have hieq : ¬ (i = a) := by
        rcases hcond with h1 | h2
        · simp at h1; omega
        · omega
      rw [if_neg hieq]
      rw [hnn]
      refine ih j0 (i + 1) f hch' hb (by simpa using hf) ?_
      rcases hcond with h1 | h2
      · left; simp at h1 ⊢; omega
      · right; omega

theorem remove_spec {T : Type u} {s : LinkedListSet T} {c : Nat → List Nat}
    (w : WFc s c) {li : Nat} {r : LinkedList} (hL : lookupList s.lists li = some r)
    (a : Nat) :
    (r.length ≤ a → s.remove li a = some (none, s)) ∧
    (a < r.length →
      ∃ t s' c',
        s.remove li a = some (some (t, a), s') ∧
        WFc s' c' ∧
        s'.alloc = s.alloc ∧
        s'.nodes.length = s.nodes.length - 1 ∧
        keysOf s'.lists = keysOf s.lists ∧
        nth (s.listItems li) a = some t ∧
        s'.listItems li = (s.listItems li).eraseIdx a ∧
        (∀ li2 r2, li2 ≠ li → lookupList s.lists li2 = some r2 →
          s'.listItems li2 = s.listItems li2) ∧
        (∃ r', lookupList s'.lists li = some r' ∧ r'.length = r.length - 1) ∧
        (∀ li2 r2, li2 ≠ li → lookupList s.lists li2 = some r2 →
          ∃ r2', lookupList s'.lists li2 = some r2' ∧ r2'.length = r2.length ∧
            (r2' = r2 ∨ s.nodes.length - 1 ∈ c li2))) := by
  obtain ⟨hch, hf, hb, hlen, hnd⟩ := w.chains li r hL
  have hclen : (c li).length ≤ s.nodes.length :=
    nodup_bound_length hnd (fun i hi => LinkedBtw_mem_lt hch hi)
  have hfuel : (c li).length < s.nodes.length + 1 := by omega
  constructor
  · intro hge
    unfold LinkedListSet.remove
    simp only [hL]
    rw [hf]
    refine remove_loop_miss (c li) SENTINEL 0 (s.nodes.length + 1) hch w.nodes_bound
      hfuel ?_
    left
    omega
  · intro hlt
    have hlt' : a < (c li).length := by omega
    obtain ⟨j, hj⟩ := exists_nth_of_lt hlt'
    obtain ⟨hdec, htk⟩ := nth_split hj
    obtain ⟨t, s', c', heq, hitemp, wfc', halloc, hlen', hkeys, hitemsL, hothers,
      ⟨r', hr', hr'len⟩, hrecs⟩ := remove_list_node_spec w hL hdec
    unfold itemAt at hitemp
    rw [Option.map_eq_some'] at hitemp
    obtain ⟨n, hn, hni⟩ := hitemp
    have hchsp : LinkedBtw s.nodes li SENTINEL ((c li).take a ++ j :: (c li).drop (a + 1))
        SENTINEL := by rw [← hdec]; exact hch
    rw [LinkedBtw_append] at hchsp
    have hulen : (itemsOf s.nodes ((c li).take a)).length = a := by
      rw [itemsOf_length hchsp.1, htk]
    have hitemsS : s.listItems li =
        itemsOf s.nodes ((c li).take a) ++ t :: itemsOf s.nodes ((c li).drop (a + 1)) := by
      rw [listItems_eq_itemsOf w hL]
      conv_lhs => rw [hdec]
      rw [itemsOf_append, itemsOf_cons_of_nth hn, hni]
    refine ⟨t, s', c', ?_, wfc', halloc, hlen', hkeys, ?_, ?_, ?_,
      ⟨r', hr', hr'len⟩, hrecs⟩
    · unfold LinkedListSet.remove
      simp only [hL]
      rw [hf]
      rw [remove_loop_hit (c li) SENTINEL 0 (s.nodes.length + 1) hch w.nodes_bound
        hfuel (Nat.zero_le a) (by simpa using hj)]
      rw [heq]
    · have h1 := nth_append_cons (itemsOf s.nodes ((c li).take a)) t
        (itemsOf s.nodes ((c li).drop (a + 1)))
      rw [hulen] at h1
      rw [hitemsS]
      exact h1
    · have h2 := eraseIdx_append_cons (itemsOf s.nodes ((c li).take a)) t
        (itemsOf s.nodes ((c li).drop (a + 1)))
      rw [hulen] at h2
      rw [hitemsS, h2, listItems_eq_itemsOf wfc' hr', hitemsL]
    · intro li2 r2 hne hlk2
      obtain ⟨r2', hr2', _⟩ := hrecs li2 r2 hne hlk2
      rw [listItems_eq_itemsOf wfc' hr2', hothers li2 r2 hne hlk2,
        listItems_eq_itemsOf w hlk2]

/-
Lemma library, part 12: the `remove_item` walk.
-/

theorem itemsOf_split {T : Type u} {nodes : List (Node T)} {li : Nat} :
    ∀ {w : List Nat} {prev term : Nat}, LinkedBtw nodes li prev w term →
    ∀ {ys zs : List T} {x : T}, itemsOf nodes w = ys ++ x :: zs → x ∉ ys →
    ∃ w₁ j w₂, w = w₁ ++ j :: w₂ ∧ itemAt nodes j = some x ∧
      itemsOf nodes w₁ = ys ∧ itemsOf nodes w₂ = zs ∧ w₁.length = ys.length ∧
      (∀ i ∈ w₁, itemAt nodes i ≠ some x) := by
  intro w
  induction w with
  | nil =>
    intro prev term _ ys zs x hsp _
    simp [itemsOf] at hsp
  | cons j0 w' ih =>
    intro prev term hch ys zs x hsp hnm
    obtain ⟨n, hn, hnl, hnp, hnn, hch'⟩ := hch
    rw [itemsOf_cons_of_nth hn] at hsp
    cases ys with
    | nil =>
      simp only [List.nil_append] at hsp
      obtain ⟨h1, h2⟩ := List.cons_eq_cons.mp hsp
      refine ⟨[], j0, w', rfl, ?_, rfl, h2 ▸ rfl, rfl, by simp⟩
      unfold itemAt
      rw [hn]
      simp [h1]
    | cons y0 ys' =>
      simp only [List.cons_append] at hsp
      obtain ⟨h1, h2⟩ := List.cons_eq_cons.mp hsp
      have hx0 : x ≠ y0 := by
        intro hinst
        exact hnm (by rw [hinst]; simp)
      have hnm' : x ∉ ys' := fun hmem => hnm (List.mem_cons_of_mem _ hmem)
      obtain ⟨w₁, j, w₂, hw, hjx, hys, hzs, hlen, hall⟩ := ih hch' h2 hnm'
      refine ⟨j0 :: w₁, j, w₂, by rw [hw]; rfl, hjx, ?_, hzs, by simp [hlen], ?_⟩
      · rw [itemsOf_cons_of_nth hn, hys, h1]
      · intro i hi
        rcases List.mem_cons.mp hi with h | h
        · subst h
          unfold itemAt
          rw [hn]
          intro hcontra
          have : n.item = x := by
            cases hcontra
            rfl
          rw [h1] at this
          exact hx0 this.symm
        · exact hall i h

theorem remove_item_loop_hit {T : Type u} [DecidableEq T] {s : LinkedListSet T}
    {li : Nat} {x : T} :
    ∀ (w₁ : List Nat) {j : Nat} (w₂ : List Nat) (prev i fuel : Nat),
    LinkedBtw s.nodes li prev (w₁ ++ j :: w₂) SENTINEL →
    s.nodes.length ≤ SENTINEL →
    (w₁ ++ j :: w₂).length < fuel →
    itemAt s.nodes j = some x →
    (∀ i' ∈ w₁, itemAt s.nodes i' ≠ some x) →
    LinkedListSet.remove_item_loop s x fuel ((w₁ ++ j :: w₂).headD SENTINEL) i =
      (match LinkedListSet.remove_list_node s j with
       | none => none
       | some (t, s') => some (some (t, i + w₁.length), s')) := by
  intro w₁
  induction w₁ with
  | nil =>
    intro j w₂ prev i fuel hch hb hf hjx _
    obtain ⟨n, hn, hnl, hnp, hnn, hch'⟩ := hch
    have hjs : j ≠ SENTINEL := by
      have := nth_some_lt hn
      omega
    cases fuel with
    | zero => simp at hf
    | succ f =>
      simp only [List.nil_append, List.headD_cons]
      simp only [LinkedListSet.remove_item_loop]
      rw [if_neg hjs]
      simp only [hn]
      have hni : n.item = x := by
        unfold itemAt at hjx
        rw [hn] at hjx
        cases hjx
        rfl
      rw [if_pos hni]
      rfl
  | cons m w₁' ih =>
    intro j w₂ prev i fuel hch hb hf hjx hall
    obtain ⟨n, hn, hnl, hnp, hnn, hch'⟩ := hch
    simp only [List.append_eq] at hnn hch'
    have hms : m ≠ SENTINEL := by
      have := nth_some_lt hn
      omega
    cases fuel with
    | zero => simp at hf
    | succ f =>
      simp only [List.cons_append, List.headD_cons]
      simp only [LinkedListSet.remove_item_loop]
      rw [if_neg hms]
      simp only [hn]
      have hni : ¬ (n.item = x) := by
        intro hcontra
        refine hall m (by simp) ?_
        unfold itemAt
        rw [hn]
        simp [hcontra]
      rw [if_neg hni]
      rw [hnn]
      have hrem := ih w₂ m (i + 1) f hch' hb (by simpa using hf) hjx
        (fun i' hi' => hall i' (List.mem_cons_of_mem _ hi'))
      rw [hrem]
      cases hrm : LinkedListSet.remove_list_node s j with
      | none => rfl
      | some ts =>
        obtain ⟨t, s'⟩ := ts
        have harith : i + 1 + w₁'.length = i + (w₁'.length + 1) := by omega
        simp only [List.length_cons, harith]

theorem remove_item_loop_miss {T : Type u} [DecidableEq T] {s : LinkedListSet T}
    {li : Nat} {x : T} :
    ∀ (wseg : List Nat) (prev i fuel : Nat),
    LinkedBtw s.nodes li prev wseg SENTINEL →
    s.nodes.length ≤ SENTINEL →
    wseg.length < fuel →
    (∀ i' ∈ wseg, itemAt s.nodes i' ≠ some x) →
    LinkedListSet.remove_item_loop s x fuel (wseg.headD SENTINEL) i =
      some (none, s) := by
  intro wseg
  induction wseg with
  | nil =>
    intro prev i fuel _ _ hf _
    cases fuel with
    | zero => simp at hf
    | succ f => simp [LinkedListSet.remove_item_loop]
  | cons j0 w' ih =>
    intro prev i fuel hch hb hf hall
    obtain ⟨n, hn, hnl, hnp, hnn, hch'⟩ := hch
    have hj0s : j0 ≠ SENTINEL := by
      have := nth_some_lt hn
      omega
    cases fuel with
    | zero => simp at hf
    | succ f =>
      simp only [List.headD_cons]
      simp only [LinkedListSet.remove_item_loop]
      rw [if_neg hj0s]
      simp only [hn]
      have hni : ¬ (n.item = x) := by
        intro hcontra
        refine hall j0 (by simp) ?_
        unfold itemAt
        rw [hn]
        simp [hcontra]
      rw [if_neg hni]
      rw [hnn]
      exact ih j0 (i + 1) f hch' hb (by simpa using hf)
        (fun i' hi' => hall i' (List.mem_cons_of_mem _ hi'))

theorem remove_item_spec {T : Type u} [DecidableEq T] {s : LinkedListSet T}
    {c : Nat → List Nat} (w : WFc s c) {li : Nat} {r : LinkedList}
    (hL : lookupList s.lists li = some r) (x : T) :
    (x ∉ s.listItems li → s.remove_item li x = some (none, s)) ∧
    (∀ ys zs, s.listItems li = ys ++ x :: zs → x ∉ ys →
      ∃ s' c',
        s.remove_item li x = some (some (x, ys.length), s') ∧
        WFc s' c' ∧
        s'.alloc = s.alloc ∧
        s'.nodes.length = s.nodes.length - 1 ∧
        keysOf s'.lists = keysOf s.lists ∧
        s'.listItems li = ys ++ zs ∧
        (∀ li2 r2, li2 ≠ li → lookupList s.lists li2 = some r2 →
          s'.listItems li2 = s.listItems li2) ∧
        (∃ r', lookupList s'.lists li = some r' ∧ r'.length = r.length - 1) ∧
        (∀ li2 r2, li2 ≠ li → lookupList s.lists li2 = some r2 →
          ∃ r2', lookupList s'.lists li2 = some r2' ∧ r2'.length = r2.length ∧
            (r2' = r2 ∨ s.nodes.length - 1 ∈ c li2))) := by
  obtain ⟨hch, hf, hb, hlen, hnd⟩ := w.chains li r hL
  have hclen : (c li).length ≤ s.nodes.length :=
    nodup_bound_length hnd (fun i hi => LinkedBtw_mem_lt hch hi)
  have hfuel : (c li).length < s.nodes.length + 1 := by omega
  have hitems : s.listItems li = itemsOf s.nodes (c li) := listItems_eq_itemsOf w hL
  constructor
  · intro hnm
    unfold LinkedListSet.remove_item
    simp only [hL]
    rw [hf]
    refine remove_item_loop_miss (c li) SENTINEL 0 (s.nodes.length + 1) hch
      w.nodes_bound hfuel ?_
    intro i' hi' hcontra
    refine hnm ?_
    rw [hitems]
    exact List.mem_filterMap.mpr ⟨i', hi', hcontra⟩
  · intro ys zs hsp hnm
    rw [hitems] at hsp
    obtain ⟨w₁, j, w₂, hw, hjx, hys, hzs, hw₁len, hall⟩ := itemsOf_split hch hsp hnm
    obtain ⟨t, s', c', heq, hitemp, wfc', halloc, hlen', hkeys, hitemsL, hothers,
      ⟨r', hr', hr'len⟩, hrecs⟩ := remove_list_node_spec w hL hw
    have htx : t = x := by
      rw [hjx] at hitemp
      exact (Option.some.inj hitemp).symm
    subst htx
    refine ⟨s', c', ?_, wfc', halloc, hlen', hkeys, ?_, ?_, ⟨r', hr', hr'len⟩, hrecs⟩
    · unfold LinkedListSet.remove_item
      simp only [hL]
      rw [hf]
      have hhit := remove_item_loop_hit w₁ w₂ SENTINEL 0 (s.nodes.length + 1)
        (hw ▸ hch) w.nodes_bound (hw ▸ hfuel) hjx hall
      rw [show (c li).headD SENTINEL = ((w₁ ++ j :: w₂).headD SENTINEL) from by rw [hw]]
      rw [hhit, heq, hw₁len]
      simp
    · rw [listItems_eq_itemsOf wfc' hr', hitemsL, hys, hzs]
    · intro li2 r2 hne hlk2
      obtain ⟨r2', hr2', _⟩ := hrecs li2 r2 hne hlk2
      rw [listItems_eq_itemsOf wfc' hr2', hothers li2 r2 hne hlk2,
        listItems_eq_itemsOf w hlk2]

/-
Lemma library, part 13: `clear`, `remove_list`, `extend`, `new_list`,
`write_item`, `clear_all`.
-/

theorem clear_loop_spec {T : Type u} :
    ∀ (n : Nat) {s : LinkedListSet T} {c : Nat → List Nat}, WFc s c →
    ∀ {li : Nat} {r : LinkedList}, lookupList s.lists li = some r → r.length = n →
    ∀ fuel, n < fuel →
    ∃ s' c',
      LinkedListSet.clear_loop fuel s li = some s' ∧
      WFc s' c' ∧
      s'.alloc = s.alloc ∧
      keysOf s'.lists = keysOf s.lists ∧
      s'.listItems li = [] ∧
      (∃ r', lookupList s'.lists li = some r' ∧ r'.length = 0) ∧
      (∀ li2 r2, li2 ≠ li → lookupList s.lists li2 = some r2 →
        s'.listItems li2 = s.listItems li2 ∧
        ∃ r2', lookupList s'.lists li2 = some r2' ∧ r2'.length = r2.length) := by
  intro n
  induction n with
  | zero =>
    intro s c w li r hL hrlen fuel hfuel
    obtain ⟨hch, hf, hb, hlen, hnd⟩ := w.chains li r hL
    have hcnil : c li = [] := by
      have : (c li).length = 0 := by omega
      exact List.length_eq_zero.mp this
    have hemp : r.is_empty = true := by
      simp [LinkedList.is_empty, hf, hb, hcnil]
    cases fuel with
    | zero => omega
    | succ f =>
      refine ⟨s, c, ?_, w, rfl, rfl, ?_, ⟨r, hL, hrlen⟩, ?_⟩
      · simp only [LinkedListSet.clear_loop, hL]
        rw [if_pos hemp]
      · rw [listItems_eq_itemsOf w hL, hcnil]
        rfl
      · intro li2 r2 _ hlk2
        exact ⟨rfl, r2, hlk2, rfl⟩
  | succ n ih =>
    intro s c w li r hL hrlen fuel hfuel
    obtain ⟨hch, hf, hb, hlen, hnd⟩ := w.chains li r hL
    cases hc : c li with
    | nil =>
      rw [hc] at hlen
      simp at hlen
      omega
    | cons j rest =>
      have hjlt : j < s.nodes.length := by
        refine LinkedBtw_mem_lt hch ?_
        rw [hc]; simp
      have hjs : j ≠ SENTINEL := by
        have := w.nodes_bound; omega
      have hfj : r.front = j := by rw [hf, hc]; rfl
      have hemp : ¬ (r.is_empty = true) := by
        simp [LinkedList.is_empty, hfj, hjs]
      obtain ⟨t, s₁, c₁, hpeq, wfc₁, halloc₁, _, hkeys₁, _, hoth₁,
        ⟨r₁, hr₁, hr₁len⟩, hrecs₁⟩ := (pop_front_spec w hL).2 j rest hc
      have hr₁n : r₁.length = n := by omega
      cases fuel with
      | zero => omega
      | succ f =>
        obtain ⟨s', c', hceq, wfc', halloc', hkeys', hitems', hrec', hoth'⟩ :=
          ih wfc₁ hr₁ hr₁n f (by omega)
        refine ⟨s', c', ?_, wfc', by rw [halloc', halloc₁], by rw [hkeys', hkeys₁],
          hitems', hrec', ?_⟩
        · simp only [LinkedListSet.clear_loop, hL]
          rw [if_neg hemp, hpeq]
          exact hceq
        · intro li2 r2 hne hlk2
          obtain ⟨r2', hr2', hr2'len, _⟩ := hrecs₁ li2 r2 hne hlk2
          obtain ⟨hoo, r2'', hr2'', hr2''len⟩ := hoth' li2 r2' hne hr2'
          refine ⟨?_, r2'', hr2'', by omega⟩
          rw [hoo, hoth₁ li2 r2 hne hlk2]

theorem LinkedBtw_congr_links {T : Type u} {nodes nodes' : List (Node T)} {li : Nat} :
    ∀ {ixs : List Nat} {prev term : Nat},
    (∀ i ∈ ixs, ∃ n n', nth nodes i = some n ∧ nth nodes' i = some n' ∧
      n'.list = n.list ∧ n'.previous = n.previous ∧ n'.next = n.next) →
    LinkedBtw nodes li prev ixs term → LinkedBtw nodes' li prev ixs term := by
  intro ixs
  induction ixs with
  | nil => intro prev term _ _; exact LinkedBtw_nil nodes' li prev term
  | cons i rest ih =>
    intro prev term hcg hch
    obtain ⟨n, hn, hnl, hnp, hnn, hch'⟩ := hch
    obtain ⟨m, m', hm, hm', hml, hmp, hmn⟩ := hcg i (by simp)
    rw [hn] at hm
    cases hm
    refine ⟨m', hm', by rw [hml, hnl], by rw [hmp, hnp], by rw [hmn, hnn], ?_⟩
    exact ih (fun j hj => hcg j (List.mem_cons_of_mem _ hj)) hch'

theorem write_item_spec {T : Type u} {s : LinkedListSet T} {c : Nat → List Nat}
    (w : WFc s c) {i : Nat} {n : Node T} (hn : nth s.nodes i = some n) (x : T) :
    ∃ s',
      s.write_item i x = some s' ∧
      WFc s' c ∧
      s'.alloc = s.alloc ∧
      s'.nodes.length = s.nodes.length ∧
      s'.lists = s.lists := by
  have hilt : i < s.nodes.length := nth_some_lt hn
  refine ⟨{ s with nodes := upd s.nodes i { n with item := x } }, ?_, ?_, rfl, ?_, rfl⟩
  · unfold LinkedListSet.write_item
    rw [hn]
  · refine ⟨?_, w.keys_nodup, w.keys_lt_alloc, ?_, ?_⟩
    · show (upd s.nodes i _).length ≤ SENTINEL
      rw [length_upd]
      exact w.nodes_bound
    · intro li r hlk
      obtain ⟨hch, hf, hb, hlen, hnd⟩ := w.chains li r hlk
      refine ⟨LinkedBtw_congr_links ?_ hch, hf, hb, hlen, hnd⟩
      intro j hj
      obtain ⟨m, hm, _⟩ := LinkedBtw_mem_node hch j hj
      by_cases hj' : j = i
      · subst hj'
        rw [hn] at hm
        cases hm
        exact ⟨n, { n with item := x }, hn, nth_upd_self hilt _, rfl, rfl, rfl⟩
      · exact ⟨m, m, hm, by rw [nth_upd_ne s.nodes _ hj', hm], rfl, rfl, rfl⟩
    · intro j hj
      rw [length_upd] at hj
      exact w.covers j hj
  · show (upd s.nodes i _).length = s.nodes.length
    exact length_upd s.nodes i _

theorem new_list_spec {T : Type u} {s : LinkedListSet T} {c : Nat → List Nat}
    (w : WFc s c) (hcap : s.alloc ≠ SENTINEL) :
    ∃ s',
      s.new_list = some (s.alloc, s') ∧
      WFc s' (chupd c s.alloc []) ∧
      s'.alloc = s.alloc + 1 ∧
      s'.nodes = s.nodes ∧
      lookupList s'.lists s.alloc = some LinkedList.new ∧
      (∀ li2, li2 ≠ s.alloc → lookupList s'.lists li2 = lookupList s.lists li2) ∧
      keysOf s'.lists = keysOf s.lists ++ [s.alloc] := by
  have hfresh : lookupList s.lists s.alloc = none := by
    rw [lookupList_eq_none_iff]
    intro hmem
    obtain ⟨p, hp, hfst⟩ := List.mem_map.mp hmem
    obtain ⟨k, v⟩ := p
    simp at hfst
    subst hfst
    have := w.keys_lt_alloc s.alloc v hp
    omega
  refine ⟨{ s with alloc := s.alloc + 1, lists := insertList s.lists s.alloc LinkedList.new }, ?_, ?_, rfl, rfl, lookup_insertList_fresh_self _ _ _ hfresh, fun li2 h => lookup_insertList_fresh_ne _ _ _ hfresh h, keysOf_insertList_fresh _ _ _ hfresh⟩
  · unfold LinkedListSet.new_list
    rw [if_neg hcap]
  · refine ⟨w.nodes_bound, ?_, ?_, ?_, ?_⟩
    · show (keysOf (insertList s.lists s.alloc LinkedList.new)).Nodup
      rw [keysOf_insertList_fresh _ _ _ hfresh]
      rw [List.nodup_append]
      refine ⟨w.keys_nodup, by simp, ?_⟩
      intro a ha
      simp only [List.mem_singleton]
      intro heq
      subst heq
      exact (lookupList_eq_none_iff.mp hfresh) ha
    · intro li r hmem
      show li < s.alloc + 1
      rcases mem_insertList_fresh hfresh hmem with h | h
      · have := w.keys_lt_alloc li r h
        omega
      · omega
    · intro li r hlk
      by_cases hli : li = s.alloc
      · subst hli
        rw [lookup_insertList_fresh_self _ _ _ hfresh] at hlk
        cases hlk
        rw [chupd_self]
        exact ⟨trivial, rfl, rfl, rfl, List.nodup_nil⟩
      · rw [lookup_insertList_fresh_ne _ _ _ hfresh hli] at hlk
        rw [chupd_ne c s.alloc [] hli]
        exact w.chains li r hlk
    · intro i hi
      obtain ⟨li, r, hlk, hmem⟩ := w.covers i hi
      have hli : li ≠ s.alloc := by
        intro heq
        subst heq
        rw [hfresh] at hlk
        cases hlk
      exact ⟨li, r, by rw [lookup_insertList_fresh_ne _ _ _ hfresh hli]; exact hlk,
        by rw [chupd_ne c s.alloc [] hli]; exact hmem⟩

theorem clear_all_wf {T : Type u} (s : LinkedListSet T) :
    WFc s.clear_all (fun _ => []) := by
  refine ⟨?_, ?_, ?_, ?_, ?_⟩
  · show ([] : List (Node T)).length ≤ SENTINEL
    simp [SENTINEL]
  · show (keysOf ([] : List (Nat × LinkedList))).Nodup
    simp [keysOf]
  · intro li r hmem
    simp [LinkedListSet.clear_all] at hmem
  · intro li r hlk
    simp [LinkedListSet.clear_all, lookupList] at hlk
  · intro i hi
    simp [LinkedListSet.clear_all] at hi

theorem new_wf {T : Type u} : WFc (LinkedListSet.new : LinkedListSet T) (fun _ => []) := by
  refine ⟨?_, ?_, ?_, ?_, ?_⟩
  · show ([] : List (Node T)).length ≤ SENTINEL
    simp [SENTINEL]
  · show (keysOf ([] : List (Nat × LinkedList))).Nodup
    simp [keysOf]
  · intro li r hmem
    simp [LinkedListSet.new] at hmem
  · intro li r hlk
    simp [LinkedListSet.new, lookupList] at hlk
  · intro i hi
    simp [LinkedListSet.new] at hi

theorem clear_spec {T : Type u} {s : LinkedListSet T} {c : Nat → List Nat}
    (w : WFc s c) {li : Nat} {r : LinkedList} (hL : lookupList s.lists li = some r) :
    ∃ s' c',
      s.clear li = some s' ∧
      WFc s' c' ∧
      s'.alloc = s.alloc ∧
      keysOf s'.lists = keysOf s.lists ∧
      s'.listItems li = [] ∧
      (∃ r', lookupList s'.lists li = some r' ∧ r'.length = 0) ∧
      (∀ li2 r2, li2 ≠ li → lookupList s.lists li2 = some r2 →
        s'.listItems li2 = s.listItems li2 ∧
        ∃ r2', lookupList s'.lists li2 = some r2' ∧ r2'.length = r2.length) := by
  obtain ⟨hch, hf, hb, hlen, hnd⟩ := w.chains li r hL
  have hclen : (c li).length ≤ s.nodes.length :=
    nodup_bound_length hnd (fun i hi => LinkedBtw_mem_lt hch hi)
  exact clear_loop_spec r.length w hL rfl (s.nodes.length + 1) (by omega)

theorem remove_list_absent {T : Type u} {s : LinkedListSet T} {li : Nat}
    (h : lookupList s.lists li = none) : s.remove_list li = some (false, s) := by
  unfold LinkedListSet.remove_list
  rw [if_neg]
  simp [LinkedListSet.contains_list, h]

theorem remove_list_spec {T : Type u} {s : LinkedListSet T} {c : Nat → List Nat}
    (w : WFc s c) {li : Nat} {r : LinkedList} (hL : lookupList s.lists li = some r) :
    ∃ s' c',
      s.remove_list li = some (true, s') ∧
      WFc s' c' ∧
      s'.alloc = s.alloc ∧
      lookupList s'.lists li = none ∧
      (∀ li2 r2, li2 ≠ li → lookupList s.lists li2 = some r2 →
        s'.listItems li2 = s.listItems li2 ∧
        ∃ r2', lookupList s'.lists li2 = some r2' ∧ r2'.length = r2.length) := by
  obtain ⟨sc, cc, hceq, wfc, halloc, hkeys, _, ⟨rc, hrc, hrclen⟩, hoth⟩ :=
    clear_spec w hL
  have hccnil : cc li = [] := by
    obtain ⟨_, _, _, hlenc, _⟩ := wfc.chains li rc hrc
    exact List.length_eq_zero.mp (by omega)
  have hndc : (keysOf sc.lists).Nodup := wfc.keys_nodup
  refine ⟨{ sc with lists := removeKey sc.lists li }, cc, ?_, ?_, halloc,
    lookup_removeKey_self sc.lists li hndc, ?_⟩
  · unfold LinkedListSet.remove_list
    rw [if_pos, hceq]
    simp [LinkedListSet.contains_list, hL]
  · refine ⟨wfc.nodes_bound, ?_, ?_, ?_, ?_⟩
    · exact (keysOf_removeKey_sublist sc.lists li).nodup hndc
    · intro li2 r2 hmem
      exact wfc.keys_lt_alloc li2 r2 (mem_removeKey hmem)
    · intro li2 r2 hlk2
      have hne : li2 ≠ li := by
        intro heq
        subst heq
        rw [lookup_removeKey_self sc.lists li2 hndc] at hlk2
        cases hlk2
      rw [lookup_removeKey_ne sc.lists li hne] at hlk2
      exact wfc.chains li2 r2 hlk2
    · intro i hi
      obtain ⟨li2, r2, hlk2, hmem⟩ := wfc.covers i hi
      have hne : li2 ≠ li := by
        intro heq
        subst heq
        rw [hrc] at hlk2
        cases hlk2
        rw [hccnil] at hmem
        cases hmem
      exact ⟨li2, r2, by rw [lookup_removeKey_ne sc.lists li hne]; exact hlk2, hmem⟩
  · intro li2 r2 hne hlk2
    obtain ⟨hoo, r2', hr2', hr2'len⟩ := hoth li2 r2 hne hlk2
    refine ⟨?_, r2', by rw [lookup_removeKey_ne sc.lists li hne]; exact hr2', hr2'len⟩
    rw [← hoo]
    unfold LinkedListSet.listItems
    rw [lookup_removeKey_ne sc.lists li hne]

theorem extend_spec {T : Type u} :
    ∀ (xs : List T) {s : LinkedListSet T} {c : Nat → List Nat}, WFc s c →
    ∀ {li : Nat} {r : LinkedList}, lookupList s.lists li = some r →
    s.nodes.length + xs.length ≤ SENTINEL →
    ∃ s' c',
      LinkedListSet.extend s li xs = some s' ∧
      WFc s' c' ∧
      s'.alloc = s.alloc ∧
      s'.nodes.length = s.nodes.length + xs.length ∧
      keysOf s'.lists = keysOf s.lists ∧
      s'.listItems li = s.listItems li ++ xs ∧
      (∃ r', lookupList s'.lists li = some r' ∧ r'.length = r.length + xs.length) ∧
      (∀ li2, li2 ≠ li → lookupList s'.lists li2 = lookupList s.lists li2) ∧
      (∀ li2 r2, li2 ≠ li → lookupList s.lists li2 = some r2 →
        s'.listItems li2 = s.listItems li2) := by
  intro xs
  induction xs with
  | nil =>
    intro s c w li r hL _
    exact ⟨s, c, rfl, w, rfl, by simp, rfl, by simp, ⟨r, hL, by simp⟩,
      fun li2 _ => rfl, fun li2 r2 _ _ => rfl⟩
  | cons x xs ih =>
    intro s c w li r hL hcap
    have hcap1 : s.nodes.length < SENTINEL := by
      simp at hcap
      omega
    obtain ⟨s₁, hpeq, wfc₁, halloc₁, hlen₁, hkeys₁, hlk₁, ⟨r₁, hr₁, hr₁len⟩,
      hitems₁, hoth₁⟩ := push_back_spec w hL hcap1 x
    have hcap' : s₁.nodes.length + xs.length ≤ SENTINEL := by
      rw [hlen₁]
      simp at hcap
      omega
    obtain ⟨s', c', hxeq, wfc', halloc', hlen', hkeys', hitems', ⟨r', hr', hr'len⟩,
      hlk', hoth'⟩ := ih wfc₁ hr₁ hcap'
    refine ⟨s', c', ?_, wfc', by rw [halloc', halloc₁], by rw [hlen', hlen₁]; simp; omega,
      by rw [hkeys', hkeys₁], ?_, ⟨r', hr', by rw [hr'len, hr₁len]; simp; omega⟩,
      ?_, ?_⟩
    · unfold LinkedListSet.extend
      rw [hpeq]
      exact hxeq
    · rw [hitems', hitems₁]
      simp
    · intro li2 hne
      rw [hlk' li2 hne, hlk₁ li2 hne]
    · intro li2 r2 hne hlk2
      rw [hoth' li2 r2 hne (by rw [hlk₁ li2 hne]; exact hlk2), hoth₁ li2 r2 hne hlk2]

theorem push_front_all_spec {T : Type u} :
    ∀ (xs : List T) {s : LinkedListSet T} {c : Nat → List Nat}, WFc s c →
    ∀ {li : Nat} {r : LinkedList}, lookupList s.lists li = some r →
    s.nodes.length + xs.length ≤ SENTINEL →
    ∃ s' c',
      LinkedListSet.push_front_all s li xs = some s' ∧
      WFc s' c' ∧
      s'.listItems li = xs.reverse ++ s.listItems li ∧
      (∃ r', lookupList s'.lists li = some r' ∧ r'.length = r.length + xs.length) := by
  intro xs
  induction xs with
  | nil =>
    intro s c w li r hL _
    exact ⟨s, c, rfl, w, by simp, ⟨r, hL, by simp⟩⟩
  | cons x xs ih =>
    intro s c w li r hL hcap
    have hcap1 : s.nodes.length < SENTINEL := by
      simp at hcap
      omega
    obtain ⟨s₁, hpeq, wfc₁, halloc₁, hlen₁, hkeys₁, hlk₁, ⟨r₁, hr₁, hr₁len⟩,
      hitems₁, hoth₁⟩ := push_front_spec w hL hcap1 x
    have hcap' : s₁.nodes.length + xs.length ≤ SENTINEL := by
      rw [hlen₁]
      simp at hcap
      omega
    obtain ⟨s', c', hxeq, wfc', hitems', ⟨r', hr', hr'len⟩⟩ := ih wfc₁ hr₁ hcap'
    refine ⟨s', c', ?_, wfc', ?_, ⟨r', hr', by rw [hr'len, hr₁len]; simp; omega⟩⟩
    · unfold LinkedListSet.push_front_all
      rw [hpeq]
      exact hxeq
    · rw [hitems', hitems₁]
      simp

/-
Lemma library, part 14: well-formedness is preserved by every public
mutating operation, hence holds in every reachable state.
-/

theorem mem_split_first {α : Type u} [DecidableEq α] {x : α} :
    ∀ {l : List α}, x ∈ l → ∃ ys zs, l = ys ++ x :: zs ∧ x ∉ ys := by
  intro l
  induction l with
  | nil => intro h; simp at h
  | cons a l' ih =>
    intro h
    by_cases hx : x = a
    · subst hx
      exact ⟨[], l', rfl, by simp⟩
    · have h' : x ∈ l' := by
        rcases List.mem_cons.mp h with h | h
        · exact absurd h hx
        · exact h
      obtain ⟨ys, zs, h1, h2⟩ := ih h'
      refine ⟨a :: ys, zs, by rw [h1]; rfl, ?_⟩
      intro hmem
      rcases List.mem_cons.mp hmem with h | h
      · exact hx h
      · exact h2 h

theorem wf_new_list {T : Type u} {s : LinkedListSet T} {li : Nat}
    {s' : LinkedListSet T} (w : WF s) (h : s.new_list = some (li, s')) : WF s' := by
  obtain ⟨c, wc⟩ := w
  by_cases hcap : s.alloc = SENTINEL
  · unfold LinkedListSet.new_list at h
    rw [if_pos hcap] at h
    cases h
  · obtain ⟨s'', heq, wfc', _⟩ := new_list_spec wc hcap
    rw [heq] at h
    cases h
    exact ⟨_, wfc'⟩

theorem wf_push_back {T : Type u} {s : LinkedListSet T} {li : Nat} {x : T}
    {s' : LinkedListSet T} (w : WF s) (h : s.push_back li x = some s') : WF s' := by
  obtain ⟨c, wc⟩ := w
  obtain ⟨hcap, hsome⟩ := push_back_inv h
  obtain ⟨r, hL⟩ := Option.isSome_iff_exists.mp hsome
  obtain ⟨s'', heq, wfc', _⟩ := push_back_spec wc hL hcap x
  rw [heq] at h
  cases h
  exact ⟨_, wfc'⟩

theorem wf_push_front {T : Type u} {s : LinkedListSet T} {li : Nat} {x : T}
    {s' : LinkedListSet T} (w : WF s) (h : s.push_front li x = some s') : WF s' := by
  obtain ⟨c, wc⟩ := w
  obtain ⟨hcap, hsome⟩ := push_front_inv h
  obtain ⟨r, hL⟩ := Option.isSome_iff_exists.mp hsome
  obtain ⟨s'', heq, wfc', _⟩ := push_front_spec wc hL hcap x
  rw [heq] at h
  cases h
  exact ⟨_, wfc'⟩

theorem wf_pop_front {T : Type u} {s : LinkedListSet T} {li : Nat} {res : Option T}
    {s' : LinkedListSet T} (w : WF s) (h : s.pop_front li = some (res, s')) : WF s' := by
  obtain ⟨c, wc⟩ := w
  obtain ⟨r, hL⟩ := Option.isSome_iff_exists.mp (pop_front_inv h)
  cases hc : c li with
  | nil =>
    rw [(pop_front_spec wc hL).1 hc] at h
    cases h
    exact ⟨c, wc⟩
  | cons j rest =>
    obtain ⟨t, s'', c', heq, wfc', _⟩ := (pop_front_spec wc hL).2 j rest hc
    rw [heq] at h
    cases h
    exact ⟨c', wfc'⟩

theorem wf_pop_back {T : Type u} {s : LinkedListSet T} {li : Nat} {res : Option T}
    {s' : LinkedListSet T} (w : WF s) (h : s.pop_back li = some (res, s')) : WF s' := by
  obtain ⟨c, wc⟩ := w
  obtain ⟨r, hL⟩ := Option.isSome_iff_exists.mp (pop_back_inv h)
  rcases List.eq_nil_or_concat (c li) with hc | ⟨init, j, hc⟩
  · rw [(pop_back_spec wc hL).1 hc] at h
    cases h
    exact ⟨c, wc⟩
  · rw [List.concat_eq_append] at hc
    obtain ⟨t, s'', c', heq, wfc', _⟩ := (pop_back_spec wc hL).2 init j hc
    rw [heq] at h
    cases h
    exact ⟨c', wfc'⟩

theorem wf_remove {T : Type u} {s : LinkedListSet T} {li a : Nat}
    {res : Option (T × Nat)} {s' : LinkedListSet T} (w : WF s)
    (h : s.remove li a = some (res, s')) : WF s' := by
  obtain ⟨c, wc⟩ := w
  obtain ⟨r, hL⟩ := Option.isSome_iff_exists.mp (remove_inv h)
  by_cases hlt : a < r.length
  · obtain ⟨t, s'', c', heq, wfc', _⟩ := (remove_spec wc hL a).2 hlt
    rw [heq] at h
    cases h
    exact ⟨c', wfc'⟩
  · rw [(remove_spec wc hL a).1 (by omega)] at h
    cases h
    exact ⟨c, wc⟩

theorem wf_remove_item {T : Type u} [DecidableEq T] {s : LinkedListSet T} {li : Nat}
    {x : T} {res : Option (T × Nat)} {s' : LinkedListSet T} (w : WF s)
    (h : s.remove_item li x = some (res, s')) : WF s' := by
  obtain ⟨c, wc⟩ := w
  obtain ⟨r, hL⟩ := Option.isSome_iff_exists.mp (remove_item_inv h)
  by_cases hmem : x ∈ s.listItems li
  · obtain ⟨ys, zs, hsp, hnm⟩ := mem_split_first hmem
    obtain ⟨s'', c', heq, wfc', _⟩ := (remove_item_spec wc hL x).2 ys zs hsp hnm
    rw [heq] at h
    cases h
    exact ⟨c', wfc'⟩
  · rw [(remove_item_spec wc hL x).1 hmem] at h
    cases h
    exact ⟨c, wc⟩

theorem wf_clear {T : Type u} {s : LinkedListSet T} {li : Nat}
    {s' : LinkedListSet T} (w : WF s) (h : s.clear li = some s') : WF s' := by
  obtain ⟨c, wc⟩ := w
  obtain ⟨r, hL⟩ := Option.isSome_iff_exists.mp (clear_inv h)
  obtain ⟨s'', c', heq, wfc', _⟩ := clear_spec wc hL
  rw [heq] at h
  cases h
  exact ⟨c', wfc'⟩

theorem wf_remove_list {T : Type u} {s : LinkedListSet T} {li : Nat} {b : Bool}
    {s' : LinkedListSet T} (w : WF s) (h : s.remove_list li = some (b, s')) : WF s' := by
  obtain ⟨c, wc⟩ := w
  cases hL : lookupList s.lists li with
  | none =>
    rw [remove_list_absent hL] at h
    cases h
    exact ⟨c, wc⟩
  | some r =>
    obtain ⟨s'', c', heq, wfc', _⟩ := remove_list_spec wc hL
    rw [heq] at h
    cases h
    exact ⟨c', wfc'⟩

theorem wf_extend {T : Type u} :
    ∀ (xs : List T) {s : LinkedListSet T} {li : Nat} {s' : LinkedListSet T},
    WF s → LinkedListSet.extend s li xs = some s' → WF s' := by
  intro xs
  induction xs with
  | nil =>
    intro s li s' w h
    cases h
    exact w
  | cons x xs ih =>
    intro s li s' w h
    unfold LinkedListSet.extend at h
    cases hp : s.push_back li x with
    | none => rw [hp] at h; cases h
    | some s₁ =>
      rw [hp] at h
      exact ih (wf_push_back w hp) h

theorem wf_write_item {T : Type u} {s : LinkedListSet T} {i : Nat} {x : T}
    {s' : LinkedListSet T} (w : WF s) (h : s.write_item i x = some s') : WF s' := by
  obtain ⟨c, wc⟩ := w
  cases hn : nth s.nodes i with
  | none =>
    unfold LinkedListSet.write_item at h
    rw [hn] at h
    cases h
  | some n =>
    obtain ⟨s'', heq, wfc', _⟩ := write_item_spec wc hn x
    rw [heq] at h
    cases h
    exact ⟨c, wfc'⟩

theorem reachable_wf {T : Type u} [DecidableEq T] {s : LinkedListSet T}
    (h : Reachable s) : WF s := by
  induction h with
  | new => exact ⟨fun _ => [], new_wf⟩
  | new_list _ heq ih => exact wf_new_list ih heq
  | push_back _ heq ih => exact wf_push_back ih heq
  | push_front _ heq ih => exact wf_push_front ih heq
  | pop_front _ heq ih => exact wf_pop_front ih heq
  | pop_back _ heq ih => exact wf_pop_back ih heq
  | remove _ heq ih => exact wf_remove ih heq
  | remove_item _ heq ih => exact wf_remove_item ih heq
  | clear _ heq ih => exact wf_clear ih heq
  | remove_list _ heq ih => exact wf_remove_list ih heq
  | extend _ heq ih => exact wf_extend _ ih heq
  | clear_all _ _ => exact ⟨fun _ => [], clear_all_wf _⟩
  | write_item _ heq ih => exact wf_write_item ih heq

/-
Lemma library, part 15: link symmetry follows from chain well-formedness.
-/

theorem chain_next_prev {T : Type u} {nodes : List (Node T)} {li : Nat}
    {u v : List Nat} {i : Nat}
    (hch : LinkedBtw nodes li SENTINEL (u ++ i :: v) SENTINEL) :
    ∃ n, nth nodes i = some n ∧
      (n.next ≠ SENTINEL → ∃ m, nth nodes n.next = some m ∧ m.previous = i) ∧
      (n.previous ≠ SENTINEL → ∃ m, nth nodes n.previous = some m ∧ m.next = i) := by
  have hsp := (LinkedBtw_append nodes li u (i :: v) SENTINEL SENTINEL).mp hch
  obtain ⟨hu, hiv⟩ := hsp
  obtain ⟨n, hn, hnl, hnp, hnn, hv⟩ := hiv
  refine ⟨n, hn, ?_, ?_⟩
  · intro hne
    cases v with
    | nil =>
      rw [hnn] at hne
      exact absurd rfl hne
    | cons j v' =>
      obtain ⟨m, hm, _, hmp, _⟩ := hv
      rw [hnn]
      exact ⟨m, hm, hmp⟩
  · intro hne
    rcases List.eq_nil_or_concat u with hu0 | ⟨u', e, hu0⟩
    · subst hu0
      rw [hnp] at hne
      simp at hne
    · rw [List.concat_eq_append] at hu0
      subst hu0
      have hre : u' ++ [e] ++ i :: v = u' ++ e :: i :: v := by
        rw [List.append_assoc]
        rfl
      rw [hre] at hch
      have hsp2 := (LinkedBtw_append nodes li u' (e :: i :: v) SENTINEL SENTINEL).mp hch
      obtain ⟨_, he⟩ := hsp2
      obtain ⟨m, hm, _, _, hmn, _⟩ := he
      rw [hnp, getLastD_concat]
      refine ⟨m, hm, ?_⟩
      rw [hmn]
      rfl

theorem WFc_linkSym {T : Type u} {s : LinkedListSet T} {c : Nat → List Nat}
    (w : WFc s c) : LinkSym s := by
  have key : ∀ i n, nth s.nodes i = some n →
      (n.next ≠ SENTINEL → ∃ m, nth s.nodes n.next = some m ∧ m.previous = i) ∧
      (n.previous ≠ SENTINEL → ∃ m, nth s.nodes n.previous = some m ∧ m.next = i) := by
    intro i n hn
    have hilt : i < s.nodes.length := nth_some_lt hn
    obtain ⟨li, r, hL, hmem⟩ := w.covers i hilt
    obtain ⟨hch, _, _, _, _⟩ := w.chains li r hL
    obtain ⟨u, v, hsp⟩ := List.append_of_mem hmem
    rw [hsp] at hch
    obtain ⟨n', hn', h1, h2⟩ := chain_next_prev hch
    rw [hn] at hn'
    cases hn'
    exact ⟨h1, h2⟩
  constructor
  · intro i n hn hne
    exact (key i n hn).1 hne
  · intro i n hn hne
    exact (key i n hn).2 hne

/-
Lemma library, part 16: the double-ended iterator's forward cursor, and the
bookkeeping `size_hint` reads.
-/

theorem nth_isSome_iff {α : Type u} {l : List α} {i : Nat} :
    (nth l i).isSome = true ↔ i < l.length := by
  constructor
  · intro h
    obtain ⟨a, ha⟩ := Option.isSome_iff_exists.mp h
    exact nth_some_lt ha
  · intro h
    obtain ⟨a, ha⟩ := exists_nth_of_lt h
    rw [ha]
    rfl

theorem LinkedBtw_drop {T : Type u} {nodes : List (Node T)} {li : Nat} :
    ∀ (ch : List Nat) (prev term k : Nat), LinkedBtw nodes li prev ch term →
    ∃ p, LinkedBtw nodes li p (ch.drop k) term := by
  intro ch
  induction ch with
  | nil => intro prev term k h; exact ⟨prev, by cases k <;> exact trivial⟩
  | cons c cs ih =>
    intro prev term k h
    cases k with
    | zero => exact ⟨prev, h⟩
    | succ k' =>
      obtain ⟨n, _, _, _, _, h5⟩ := h
      exact ih c term k' h5

theorem runIter_front {T : Type u} {nodes : List (Node T)} {li : Nat}
    {ch : List Nat} (hb : nodes.length ≤ SENTINEL)
    (hch : LinkedBtw nodes li SENTINEL ch SENTINEL) :
    ∀ (ds : List Bool) (it : ListIter T), it.nodes = nodes →
    ∀ k, k ≤ ch.length → it.current_front = (ch.drop k).headD SENTINEL →
    it.position_front = k →
    ∀ out itf, runIter it ds = some (out, itf) →
    itf.list = it.list ∧
    itf.position_front = k + countFrontYields it ds ∧
    k + countFrontYields it ds ≤ ch.length := by
  intro ds
  induction ds with
  | nil =>
    intro it hnodes k hk hcf hpos out itf h
    cases h
    exact ⟨rfl, by simp [countFrontYields, hpos], by simpa [countFrontYields]⟩
  | cons d ds ih =>
    intro it hnodes k hk hcf hpos out itf h
    cases d
    · -- A `next_back` call: the front cursor is untouched.
      by_cases hcb : it.current_back = SENTINEL
      · have hnext : it.next_back = some none := by
          unfold ListIter.next_back
          rw [hcb]
          simp
        have hred : runIter it (false :: ds) = runIter it ds := by
          simp only [runIter, Bool.false_eq_true, if_false, hnext]
        rw [hred] at h
        have hcnt : countFrontYields it (false :: ds) = countFrontYields it ds := by
          simp only [countFrontYields, Bool.false_eq_true, if_false, hnext]
        rw [hcnt]
        exact ih it hnodes k hk hcf hpos out itf h
      · cases hnb : nth it.nodes it.current_back with
        | none =>
          have hnext : it.next_back = none := by
            unfold ListIter.next_back
            rw [if_pos hcb]
            rw [hnb]
          have hred : runIter it (false :: ds) = none := by
            simp only [runIter, Bool.false_eq_true, if_false, hnext]
          rw [hred] at h
          cases h
        | some m =>
          have hnext : it.next_back = some (some (m.item, { it with current_back := m.previous, position_back := it.position_back + 1 })) := by
            unfold ListIter.next_back
            rw [if_pos hcb]
            rw [hnb]
          have hred : runIter it (false :: ds) = (match runIter ({ it with current_back := m.previous, position_back := it.position_back + 1 }) ds with | none => none | some (xs, itf) => some (m.item :: xs, itf)) := by
            simp only [runIter, Bool.false_eq_true, if_false, hnext]
          rw [hred] at h
          cases hrun : runIter ({ it with current_back := m.previous, position_back := it.position_back + 1 }) ds with
          | none => rw [hrun] at h; cases h
          | some q =>
            obtain ⟨xs, itg⟩ := q
            have hres := ih ({ it with current_back := m.previous, position_back := it.position_back + 1 }) hnodes k hk hcf hpos xs itg hrun
            have hcnt : countFrontYields it (false :: ds) = countFrontYields ({ it with current_back := m.previous, position_back := it.position_back + 1 }) ds := by
              simp only [countFrontYields, Bool.false_eq_true, if_false, hnext]
              simp
            rw [hrun] at h
            cases h
            rw [hcnt]
            exact hres
    · -- A `next` call: the front cursor advances along the chain.
      cases hd : ch.drop k with
      | nil =>
        have hcfs : it.current_front = SENTINEL := by
          rw [hcf, hd]
          rfl
        have hnext : it.next = some none := by
          unfold ListIter.next
          rw [hcfs]
          simp
        have hred : runIter it (true :: ds) = runIter it ds := by
          simp only [runIter, if_true, hnext]
        rw [hred] at h
        have hcnt : countFrontYields it (true :: ds) = countFrontYields it ds := by
          simp only [countFrontYields, if_true, hnext]
        rw [hcnt]
        exact ih it hnodes k hk hcf hpos out itf h
      | cons j rest =>
        obtain ⟨p, hchd⟩ := LinkedBtw_drop ch SENTINEL SENTINEL k hch
        rw [hd] at hchd
        obtain ⟨n, hn, hnl, hnp, hnn, hch2⟩ := hchd
        have hjlt : j < nodes.length := nth_some_lt hn
        have hjs : j ≠ SENTINEL := by omega
        have hcfj : it.current_front = j := by
          rw [hcf, hd]
          rfl
        have hnext : it.next = some (some (n.item, { it with current_front := n.next, position_front := it.position_front + 1 })) := by
          unfold ListIter.next
          rw [hcfj, if_pos hjs, hnodes]
          rw [hn]
        have hklt : k < ch.length := by
          by_contra hge
          rw [List.drop_eq_nil_iff_le.mpr (by omega)] at hd
          cases hd
        have hrest : rest = ch.drop (k + 1) := by
          have h2 : ch.drop (k + 1) = (ch.drop k).tail := by rw [List.tail_drop]
          rw [hd] at h2
          simpa using h2.symm
        have hred : runIter it (true :: ds) = (match runIter ({ it with current_front := n.next, position_front := it.position_front + 1 }) ds with | none => none | some (xs, itf) => some (n.item :: xs, itf)) := by
          simp only [runIter, if_true, hnext]
        rw [hred] at h
        cases hrun : runIter ({ it with current_front := n.next, position_front := it.position_front + 1 }) ds with
        | none => rw [hrun] at h; cases h
        | some q =>
          obtain ⟨xs, itg⟩ := q
          have hcf2 : ({ it with current_front := n.next, position_front := it.position_front + 1 } : ListIter T).current_front = (ch.drop (k + 1)).headD SENTINEL := by
            show n.next = (ch.drop (k + 1)).headD SENTINEL
            rw [hnn, hrest]
          have hpos2 : ({ it with current_front := n.next, position_front := it.position_front + 1 } : ListIter T).position_front = k + 1 := by
            show it.position_front + 1 = k + 1
            rw [hpos]
          have hres := ih ({ it with current_front := n.next, position_front := it.position_front + 1 }) hnodes (k + 1) (by omega) hcf2 hpos2 xs itg hrun
          have hcnt : countFrontYields it (true :: ds) = 1 + countFrontYields ({ it with current_front := n.next, position_front := it.position_front + 1 }) ds := by
            simp only [countFrontYields, if_true, hnext]
          rw [hrun] at h
          cases h
          rw [hcnt]
          obtain ⟨hl1, hl2, hl3⟩ := hres
          refine ⟨hl1, by omega, by omega⟩

theorem extend_frame {T : Type u} :
    ∀ (xs : List T) {s : LinkedListSet T} {li : Nat} {s' : LinkedListSet T},
    WF s → LinkedListSet.extend s li xs = some s' →
    ∀ li2, li2 ≠ li →
    lookupList s'.lists li2 = lookupList s.lists li2 ∧
    (∀ r2, lookupList s.lists li2 = some r2 →
      s'.listItems li2 = s.listItems li2) := by
  intro xs
  induction xs with
  | nil =>
    intro s li s' _ h li2 _
    cases h
    exact ⟨rfl, fun r2 _ => rfl⟩
  | cons x xs ih =>
    intro s li s' w h li2 hne
    unfold LinkedListSet.extend at h
    cases hp : s.push_back li x with
    | none => rw [hp] at h; cases h
    | some s₁ =>
      rw [hp] at h
      obtain ⟨c, wc⟩ := w
      obtain ⟨hcap, hsome⟩ := push_back_inv hp
      obtain ⟨r, hL⟩ := Option.isSome_iff_exists.mp hsome
      obtain ⟨s₁', heq, wfc₁, _, _, _, hlk₁, _, _, hoth₁⟩ := push_back_spec wc hL hcap x
      rw [heq] at hp
      cases hp
      obtain ⟨h1, h2⟩ := ih ⟨_, wfc₁⟩ h li2 hne
      refine ⟨by rw [h1, hlk₁ li2 hne], ?_⟩
      intro r2 hlk2
      rw [h2 r2 (by rw [hlk₁ li2 hne]; exact hlk2), hoth₁ li2 r2 hne hlk2]

/-
Lemma library, part 17: reachability of the concrete example states, and a
small record-length helper.
-/

theorem len_eq_of_lookup {T : Type u} {s s' : LinkedListSet T} {li : Nat}
    {r r' : LinkedList} (h : lookupList s.lists li = some r)
    (h' : lookupList s'.lists li = some r') (hlen : r'.length = r.length) :
    s'.len li = s.len li := by
  simp only [LinkedListSet.len, h, h', LinkedList.len, hlen]

theorem reachable_exA : Reachable exA :=
  @Reachable.new_list Nat _ LinkedListSet.new 0 exA Reachable.new (by decide)

theorem reachable_exB : Reachable exB :=
  @Reachable.extend Nat _ exA 0 [10, 20, 30] exB reachable_exA (by decide)

theorem reachable_exD : Reachable exD :=
  @Reachable.new_list Nat _ exA 1 exD reachable_exA (by decide)

theorem reachable_exE : Reachable exE :=
  @Reachable.push_back Nat _
    { alloc := 2,
      lists := [(0, { front := 0, back := 0, length := 1 }), (1, LinkedList.new)],
      nodes := [{ item := 10, list := 0, previous := SENTINEL, next := SENTINEL }] }
    1 20 exE
    (@Reachable.push_back Nat _ exD 0 10 _ reachable_exD (by decide))
    (by decide)

theorem reachable_exH : Reachable exH :=
  @Reachable.extend Nat _ exA 0 [10, 20] exH reachable_exA (by decide)

/-
The claims.
-/

/-- C2: link symmetry is an invariant of every state reachable from the
empty set by the public mutating interface: if the node at arena position i
has `next = j` with j not the sentinel, the node at position j has
`previous = i`, and symmetrically for `previous`. -/
theorem C2_link_symmetry {T : Type u} [DecidableEq T] {s : LinkedListSet T}
    (hr : Reachable s) : LinkSym s := by
  obtain ⟨c, w⟩ := reachable_wf hr
  exact WFc_linkSym w

theorem C2_link_symmetry_witness : LinkSym exB :=
  C2_link_symmetry reachable_exB

/-- C5 (amended): of the handle-taking operations the spec's error tiers call
checked, `front`, `back`, `contains_list` and `remove_list` indeed return
their absent/false result on an unknown handle and leave the set unchanged;
but `remove` and `remove_item` resolve the handle through the unchecked
lookup first and panic (`none`) on an unknown handle. -/
theorem C5_checked_absent {T : Type u} [DecidableEq T] {s : LinkedListSet T}
    {li : Nat} (h : lookupList s.lists li = none) :
    s.front li = some none ∧
    s.back li = some none ∧
    s.contains_list li = false ∧
    s.remove_list li = some (false, s) ∧
    (∀ a, s.remove li a = none) ∧
    (∀ x, s.remove_item li x = none) := by
  refine ⟨?_, ?_, ?_, remove_list_absent h, ?_, ?_⟩
  · simp [LinkedListSet.front, h]
  · simp [LinkedListSet.back, h]
  · simp [LinkedListSet.contains_list, h]
  · intro a
    simp [LinkedListSet.remove, h]
  · intro x
    simp [LinkedListSet.remove_item, h]

theorem C5_checked_absent_witness :
    exA.front 99 = some none ∧
    exA.back 99 = some none ∧
    exA.contains_list 99 = false ∧
    exA.remove_list 99 = some (false, exA) ∧
    (∀ a, exA.remove 99 a = none) ∧
    (∀ x, exA.remove_item 99 x = none) :=
  C5_checked_absent (by decide)

theorem C5_counterexample :
    exA.remove 99 0 = none ∧ exA.remove_item 99 5 = none := by
  constructor
  · rfl
  · rfl

/-- C9 (amended): the mutable iterator's bounds assertion `bounded_by` with
`base_ptr = 0` passes exactly when the cursor position is at most the arena
length, while the dereference at that position is in bounds exactly when the
position is strictly below the arena length: the boundary position
`count = len` passes the assertion yet is out of bounds. -/
theorem C9_bounds_assertion {T : Type u} (nodes : List (Node T)) (count : Nat) :
    (bounded_by 0 nodes.length count = true ↔ count ≤ nodes.length) ∧
    ((nth nodes count).isSome = true ↔ count < nodes.length) := by
  constructor
  · simp [bounded_by]
  · exact nth_isSome_iff

theorem C9_counterexample :
    bounded_by 0 1 1 = true ∧ nth [Node.new 0 (0 : Nat)] 1 = none := by
  constructor
  · rfl
  · rfl

/-- C10 (amended): on a handle absent from the set, `pop_front`, `pop_back`,
`push_back`, `push_front`, `clear`, `iter` and `extend` with a nonempty item
sequence all panic (`none`) because they resolve the handle through the
unchecked list lookup; but `extend` with an empty item sequence never reaches
the lookup and returns successfully with the set unchanged. -/
theorem C10_unchecked_panic {T : Type u} [DecidableEq T] {s : LinkedListSet T}
    {li : Nat} (h : lookupList s.lists li = none) :
    s.pop_front li = none ∧
    s.pop_back li = none ∧
    (∀ x, s.push_back li x = none) ∧
    (∀ x, s.push_front li x = none) ∧
    s.clear li = none ∧
    s.iter li = none ∧
    (∀ x xs, s.extend li (x :: xs) = none) ∧
    s.extend li [] = some s := by
  have hpb : ∀ x : T, s.push_back li x = none := by
    intro x
    unfold LinkedListSet.push_back
    by_cases hg : SENTINEL ≤ s.nodes.length
    · rw [if_pos hg]
    · rw [if_neg hg]
      simp only [h]
  refine ⟨?_, ?_, hpb, ?_, ?_, ?_, ?_, rfl⟩
  · simp [LinkedListSet.pop_front, h]
  · simp [LinkedListSet.pop_back, h]
  · intro x
    unfold LinkedListSet.push_front
    by_cases hg : SENTINEL ≤ s.nodes.length
    · rw [if_pos hg]
    · rw [if_neg hg]
      simp only [h]
  · simp [LinkedListSet.clear, LinkedListSet.clear_loop, h]
  · simp [LinkedListSet.iter, h]
  · intro x xs
    unfold LinkedListSet.extend
    rw [hpb x]

theorem C10_unchecked_panic_witness :
    exA.pop_front 99 = none ∧
    exA.pop_back 99 = none ∧
    (∀ x, exA.push_back 99 x = none) ∧
    (∀ x, exA.push_front 99 x = none) ∧
    exA.clear 99 = none ∧
    exA.iter 99 = none ∧
    (∀ x xs, exA.extend 99 (x :: xs) = none) ∧
    exA.extend 99 [] = some exA :=
  C10_unchecked_panic (by decide)

theorem C10_counterexample :
    exA.extend 99 [] = some exA ∧ lookupList exA.lists 99 = none := by
  constructor
  · rfl
  · rfl

/-- C1: in every reachable state, removing one node of a list — by
`pop_front`, `pop_back`, `remove` at a position, or `remove_item` by value —
returns that node's payload and leaves the list's remaining payloads, as
`iter` yields them, equal to the original sequence with the removed
position erased: the relative order of the survivors is preserved, whatever
the arena layout. -/
theorem C1_swap_remove_order {T : Type u} [DecidableEq T] {s : LinkedListSet T}
    (hr : Reachable s) (li : Nat) :
    (∀ t s', s.pop_front li = some (some t, s') →
      nth (s.listItems li) 0 = some t ∧
      s'.listItems li = (s.listItems li).eraseIdx 0) ∧
    (∀ t s', s.pop_back li = some (some t, s') →
      nth (s.listItems li) ((s.listItems li).length - 1) = some t ∧
      s'.listItems li = (s.listItems li).eraseIdx ((s.listItems li).length - 1)) ∧
    (∀ a t k s', s.remove li a = some (some (t, k), s') →
      k = a ∧ nth (s.listItems li) a = some t ∧
      s'.listItems li = (s.listItems li).eraseIdx a) ∧
    (∀ x t k s', s.remove_item li x = some (some (t, k), s') →
      t = x ∧ nth (s.listItems li) k = some x ∧
      s'.listItems li = (s.listItems li).eraseIdx k) := by
  obtain ⟨c, w⟩ := reachable_wf hr
  refine ⟨?_, ?_, ?_, ?_⟩
  · intro t s' h
    obtain ⟨r, hL⟩ := Option.isSome_iff_exists.mp (pop_front_inv h)
    cases hc : c li with
    | nil =>
      rw [(pop_front_spec w hL).1 hc] at h
      simp at h
    | cons j rest =>
      obtain ⟨t₀, s₀, c₀, heq, _, _, _, _, hitems, _, _, _⟩ :=
        (pop_front_spec w hL).2 j rest hc
      rw [heq] at h
      cases h
      rw [hitems]
      exact ⟨rfl, rfl⟩
  · intro t s' h
    obtain ⟨r, hL⟩ := Option.isSome_iff_exists.mp (pop_back_inv h)
    rcases List.eq_nil_or_concat (c li) with hc | ⟨init, j, hc⟩
    · rw [(pop_back_spec w hL).1 hc] at h
      simp at h
    · rw [List.concat_eq_append] at hc
      obtain ⟨t₀, s₀, c₀, heq, _, _, _, _, hitems, _, _, _⟩ :=
        (pop_back_spec w hL).2 init j hc
      rw [heq] at h
      have hpair := Option.some.inj h
      have ht : t₀ = t := Option.some.inj (congrArg Prod.fst hpair)
      have hs : s₀ = s' := congrArg Prod.snd hpair
      rw [ht, hs] at hitems
      have hlast : (s.listItems li).length - 1 = (s'.listItems li).length := by
        rw [hitems]
        simp
      constructor
      · rw [hlast, hitems]
        exact nth_append_cons (s'.listItems li) t []
      · rw [hlast, hitems]
        have h2 := eraseIdx_append_cons (s'.listItems li) t []
        rw [h2]
        simp
  · intro a t k s' h
    obtain ⟨r, hL⟩ := Option.isSome_iff_exists.mp (remove_inv h)
    by_cases hlt : a < r.length
    · obtain ⟨t₀, s₀, c₀, heq, _, _, _, _, hnth, hitems, _, _, _⟩ :=
        (remove_spec w hL a).2 hlt
      rw [heq] at h
      cases h
      exact ⟨rfl, hnth, hitems⟩
    · rw [(remove_spec w hL a).1 (by omega)] at h
      simp at h
  · intro x t k s' h
    obtain ⟨r, hL⟩ := Option.isSome_iff_exists.mp (remove_item_inv h)
    by_cases hmem : x ∈ s.listItems li
    · obtain ⟨ys, zs, hsp, hnm⟩ := mem_split_first hmem
      obtain ⟨s₀, c₀, heq, _, _, _, _, hitems, _, _, _⟩ :=
        (remove_item_spec w hL x).2 ys zs hsp hnm
      rw [heq] at h
      cases h
      refine ⟨rfl, ?_, ?_⟩
      · rw [hsp]
        exact nth_append_cons ys x zs
      · rw [hitems, hsp, eraseIdx_append_cons]
    · rw [(remove_item_spec w hL x).1 hmem] at h
      simp at h

theorem C1_swap_remove_order_witness :
    nth (exB.listItems 0) 0 = some 10 ∧
    exC.listItems 0 = (exB.listItems 0).eraseIdx 0 :=
  (C1_swap_remove_order reachable_exB 0).1 10 exC (by decide)

/-- C3: in every reachable state, a mutating operation applied to handle li
(`push_back`, `push_front`, `pop_front`, `pop_back`, `remove`, `remove_item`,
`clear`, `remove_list`, `extend`) leaves both `len` and the payload sequence
`iter` yields unchanged for every other live handle li2. -/
theorem C3_list_independence {T : Type u} [DecidableEq T] {s : LinkedListSet T}
    (hr : Reachable s) {li li2 : Nat} (hne : li2 ≠ li) {r2 : LinkedList}
    (hlk2 : lookupList s.lists li2 = some r2) :
    (∀ x s', s.push_back li x = some s' →
      s'.listItems li2 = s.listItems li2 ∧ s'.len li2 = s.len li2) ∧
    (∀ x s', s.push_front li x = some s' →
      s'.listItems li2 = s.listItems li2 ∧ s'.len li2 = s.len li2) ∧
    (∀ res s', s.pop_front li = some (res, s') →
      s'.listItems li2 = s.listItems li2 ∧ s'.len li2 = s.len li2) ∧
    (∀ res s', s.pop_back li = some (res, s') →
      s'.listItems li2 = s.listItems li2 ∧ s'.len li2 = s.len li2) ∧
    (∀ a res s', s.remove li a = some (res, s') →
      s'.listItems li2 = s.listItems li2 ∧ s'.len li2 = s.len li2) ∧
    (∀ x res s', s.remove_item li x = some (res, s') →
      s'.listItems li2 = s.listItems li2 ∧ s'.len li2 = s.len li2) ∧
    (∀ s', s.clear li = some s' →
      s'.listItems li2 = s.listItems li2 ∧ s'.len li2 = s.len li2) ∧
    (∀ b s', s.remove_list li = some (b, s') →
      s'.listItems li2 = s.listItems li2 ∧ s'.len li2 = s.len li2) ∧
    (∀ xs s', s.extend li xs = some s' →
      s'.listItems li2 = s.listItems li2 ∧ s'.len li2 = s.len li2) := by
  obtain ⟨c, w⟩ := reachable_wf hr
  refine ⟨?_, ?_, ?_, ?_, ?_, ?_, ?_, ?_, ?_⟩
  · intro x s' h
    obtain ⟨hcap, hsome⟩ := push_back_inv h
    obtain ⟨r, hL⟩ := Option.isSome_iff_exists.mp hsome
    obtain ⟨s₀, heq, _, _, _, _, hlk, _, _, hoth⟩ := push_back_spec w hL hcap x
    rw [heq] at h
    cases h
    refine ⟨hoth li2 r2 hne hlk2, ?_⟩
    exact len_eq_of_lookup hlk2 (by rw [hlk li2 hne]; exact hlk2) rfl
  · intro x s' h
    obtain ⟨hcap, hsome⟩ := push_front_inv h
    obtain ⟨r, hL⟩ := Option.isSome_iff_exists.mp hsome
    obtain ⟨s₀, heq, _, _, _, _, hlk, _, _, hoth⟩ := push_front_spec w hL hcap x
    rw [heq] at h
    cases h
    refine ⟨hoth li2 r2 hne hlk2, ?_⟩
    exact len_eq_of_lookup hlk2 (by rw [hlk li2 hne]; exact hlk2) rfl
  · intro res s' h
    obtain ⟨r, hL⟩ := Option.isSome_iff_exists.mp (pop_front_inv h)
    cases hc : c li with
    | nil =>
      rw [(pop_front_spec w hL).1 hc] at h
      cases h
      exact ⟨rfl, rfl⟩
    | cons j rest =>
      obtain ⟨t₀, s₀, c₀, heq, _, _, _, _, _, hoth, _, hrecs⟩ :=
        (pop_front_spec w hL).2 j rest hc
      rw [heq] at h
      have hs : s₀ = s' := congrArg Prod.snd (Option.some.inj h)
      subst hs
      obtain ⟨r2', hr2', hr2'len, _⟩ := hrecs li2 r2 hne hlk2
      exact ⟨hoth li2 r2 hne hlk2, len_eq_of_lookup hlk2 hr2' hr2'len⟩
  · intro res s' h
    obtain ⟨r, hL⟩ := Option.isSome_iff_exists.mp (pop_back_inv h)
    rcases List.eq_nil_or_concat (c li) with hc | ⟨init, j, hc⟩
    · rw [(pop_back_spec w hL).1 hc] at h
      cases h
      exact ⟨rfl, rfl⟩
    · rw [List.concat_eq_append] at hc
      obtain ⟨t₀, s₀, c₀, heq, _, _, _, _, _, hoth, _, hrecs⟩ :=
        (pop_back_spec w hL).2 init j hc
      rw [heq] at h
      have hs : s₀ = s' := congrArg Prod.snd (Option.some.inj h)
      subst hs
      obtain ⟨r2', hr2', hr2'len, _⟩ := hrecs li2 r2 hne hlk2
      exact ⟨hoth li2 r2 hne hlk2, len_eq_of_lookup hlk2 hr2' hr2'len⟩
  · intro a res s' h
    obtain ⟨r, hL⟩ := Option.isSome_iff_exists.mp (remove_inv h)
    by_cases hlt : a < r.length
    · obtain ⟨t₀, s₀, c₀, heq, _, _, _, _, _, _, hoth, _, hrecs⟩ :=
        (remove_spec w hL a).2 hlt
      rw [heq] at h
      have hs : s₀ = s' := congrArg Prod.snd (Option.some.inj h)
      subst hs
      obtain ⟨r2', hr2', hr2'len, _⟩ := hrecs li2 r2 hne hlk2
      exact ⟨hoth li2 r2 hne hlk2, len_eq_of_lookup hlk2 hr2' hr2'len⟩
    · rw [(remove_spec w hL a).1 (by omega)] at h
      have hs : s = s' := congrArg Prod.snd (Option.some.inj h)
      subst hs
      exact ⟨rfl, rfl⟩
  · intro x res s' h
    obtain ⟨r, hL⟩ := Option.isSome_iff_exists.mp (remove_item_inv h)
    by_cases hmem : x ∈ s.listItems li
    · obtain ⟨ys, zs, hsp, hnm⟩ := mem_split_first hmem
      obtain ⟨s₀, c₀, heq, _, _, _, _, _, hoth, _, hrecs⟩ :=
        (remove_item_spec w hL x).2 ys zs hsp hnm
      rw [heq] at h
      have hs : s₀ = s' := congrArg Prod.snd (Option.some.inj h)
      subst hs
      obtain ⟨r2', hr2', hr2'len, _⟩ := hrecs li2 r2 hne hlk2
      exact ⟨hoth li2 r2 hne hlk2, len_eq_of_lookup hlk2 hr2' hr2'len⟩
    · rw [(remove_item_spec w hL x).1 hmem] at h
      have hs : s = s' := congrArg Prod.snd (Option.some.inj h)
      subst hs
      exact ⟨rfl, rfl⟩
  · intro s' h
    obtain ⟨r, hL⟩ := Option.isSome_iff_exists.mp (clear_inv h)
    obtain ⟨s₀, c₀, heq, _, _, _, _, _, hoth⟩ := clear_spec w hL
    rw [heq] at h
    cases h
    obtain ⟨hoo, r2', hr2', hr2'len⟩ := hoth li2 r2 hne hlk2
    exact ⟨hoo, len_eq_of_lookup hlk2 hr2' hr2'len⟩
  · intro b s' h
    cases hL : lookupList s.lists li with
    | none =>
      rw [remove_list_absent hL] at h
      have hs : s = s' := congrArg Prod.snd (Option.some.inj h)
      subst hs
      exact ⟨rfl, rfl⟩
    | some r =>
      obtain ⟨s₀, c₀, heq, _, _, _, hoth⟩ := remove_list_spec w hL
      rw [heq] at h
      have hs : s₀ = s' := congrArg Prod.snd (Option.some.inj h)
      subst hs
      obtain ⟨hoo, r2', hr2', hr2'len⟩ := hoth li2 r2 hne hlk2
      exact ⟨hoo, len_eq_of_lookup hlk2 hr2' hr2'len⟩
  · intro xs s' h
    obtain ⟨hleq, hoo⟩ := extend_frame xs ⟨c, w⟩ h li2 hne
    refine ⟨hoo r2 hlk2, ?_⟩
    exact len_eq_of_lookup hlk2 (by rw [hleq]; exact hlk2) rfl

theorem C3_list_independence_witness :
    exF.listItems 1 = exE.listItems 1 ∧ exF.len 1 = exE.len 1 :=
  (@C3_list_independence Nat _ exE reachable_exE 0 1 (by decide)
    { front := 1, back := 1, length := 1 } (by decide)).2.2.1 (some 10) exF
    (by decide)

/-- C4: from a freshly created list, any sequence of `push_back` calls (the
`extend` loop) makes `iter` yield the payloads in exactly push order, and any
sequence of `push_front` calls makes `iter` yield them in exactly reverse
push order. -/
theorem C4_push_order {T : Type u} [DecidableEq T] {s : LinkedListSet T}
    (hr : Reachable s) {li : Nat} {s₁ : LinkedListSet T}
    (h1 : s.new_list = some (li, s₁)) (xs : List T)
    (hcap : s.nodes.length + xs.length ≤ SENTINEL) :
    (∀ s₂, LinkedListSet.extend s₁ li xs = some s₂ → s₂.listItems li = xs) ∧
    (∀ s₂, LinkedListSet.push_front_all s₁ li xs = some s₂ →
      s₂.listItems li = xs.reverse) := by
  obtain ⟨c, w⟩ := reachable_wf hr
  by_cases hca : s.alloc = SENTINEL
  · unfold LinkedListSet.new_list at h1
    rw [if_pos hca] at h1
    cases h1
  · obtain ⟨s₁', heq, wfc₁, _, hnodes₁, hlkS, _, _⟩ := new_list_spec w hca
    rw [heq] at h1
    cases h1
    have hfresh : s₁.listItems s.alloc = [] := by
      rw [listItems_eq_itemsOf wfc₁ hlkS, chupd_self]
      rfl
    have hcap' : s₁.nodes.length + xs.length ≤ SENTINEL := by
      rw [hnodes₁]
      exact hcap
    constructor
    · intro s₂ h2
      obtain ⟨s₂', c₂, heq₂, _, _, _, _, hitems₂, _, _, _⟩ :=
        extend_spec xs wfc₁ hlkS hcap'
      rw [heq₂] at h2
      cases h2
      rw [hitems₂, hfresh]
      rfl
    · intro s₂ h2
      obtain ⟨s₂', c₂, heq₂, _, hitems₂, _⟩ :=
        push_front_all_spec xs wfc₁ hlkS hcap'
      rw [heq₂] at h2
      cases h2
      rw [hitems₂, hfresh]
      simp

theorem C4_push_order_witness :
    exH.listItems 0 = [10, 20] ∧ exG.listItems 0 = [20, 10] := by
  have h := @C4_push_order Nat _ LinkedListSet.new Reachable.new 0 exA
    (by decide) [10, 20] (by decide)
  exact ⟨h.1 exH (by decide), h.2 exG (by decide)⟩

/-- C6: the spec asserts that the two iterator ends converge with each
payload yielded exactly once; the code has no front/back crossing check, so
on the reachable two-element list `exH` the interleaving
next, next_back, next, next_back yields four payloads — 10 and 20 each come
out twice — although the list holds two elements. -/
theorem C6_double_yield :
    exH.listItems 0 = [10, 20] ∧
    exH.iter 0 = some exIt ∧
    (runIter exIt [true, false]).map Prod.fst = some [10, 20] ∧
    (runIter exIt [true, false, true, false]).map Prod.fst =
      some [10, 20, 20, 10] := by
  refine ⟨?_, ?_, ?_, ?_⟩
  · rfl
  · rfl
  · rfl
  · rfl

/-- C7 (amended): the remaining count an iterator reports is
`length - position_front`: the number of elements not yet yielded from the
front end. Payloads yielded from the back end are not subtracted, so after k
total yields split across both ends the report is the number of front yields
short of `length`, not `length - k`. -/
theorem C7_size_hint {T : Type u} [DecidableEq T] {s : LinkedListSet T}
    (hr : Reachable s) {li : Nat} {r : LinkedList}
    (hlk : lookupList s.lists li = some r) {it : ListIter T}
    (hit : s.iter li = some it) {ds : List Bool} {out : List T}
    {itf : ListIter T} (hrun : runIter it ds = some (out, itf)) :
    itf.position_front = countFrontYields it ds ∧
    itf.size_hint = some (r.length - countFrontYields it ds) := by
  obtain ⟨c, w⟩ := reachable_wf hr
  obtain ⟨hch, hf, hb, hlen, hnd⟩ := w.chains li r hlk
  simp only [LinkedListSet.iter, hlk] at hit
  cases hit
  obtain ⟨hl1, hl2, hl3⟩ := runIter_front w.nodes_bound hch ds _ rfl 0
    (by omega) (by show r.front = ((c li).drop 0).headD SENTINEL; rw [hf, List.drop_zero]) rfl
    out itf hrun
  have hl1' : itf.list = r := by rw [hl1]
  have hcnt : itf.position_front = countFrontYields
      ({ current_front := r.front, current_back := r.back, position_front := 0,
         position_back := 0, list := r, nodes := s.nodes } : ListIter T) ds := by
    rw [hl2]
    omega
  refine ⟨hcnt, ?_⟩
  unfold ListIter.size_hint
  rw [hl1']
  rw [if_neg (by simp only [LinkedList.len]; omega)]
  simp only [LinkedList.len]
  rw [hcnt]

theorem C7_size_hint_witness :
    exItF.position_front = 1 ∧ exItF.size_hint = some 1 := by
  have h := @C7_size_hint Nat _ exH reachable_exH 0
    { front := 0, back := 1, length := 2 } (by decide) exIt (by decide)
    [true, false] [10, 20] exItF (by decide)
  exact ⟨by rw [h.1]; decide, by rw [h.2]; decide⟩

theorem C7_counterexample :
    runIter exIt [true, false] = some ([10, 20], exItF) ∧
    exItF.size_hint = some 1 ∧
    ¬ (exItF.size_hint = some (2 - 2)) := by
  refine ⟨rfl, rfl, by decide⟩

/-- C8 (amended): a mutating operation on handle li leaves the record of any
other live handle li2 with its length unchanged; the push operations leave
the other record entirely untouched, while the removal operations may
rewrite the other record's front/back pointers when the arena's last node —
relocated by the swap-remove — belongs to li2. -/
theorem C8_record_frame {T : Type u} [DecidableEq T] {s : LinkedListSet T}
    (hr : Reachable s) {li li2 : Nat} (hne : li2 ≠ li) {r2 : LinkedList}
    (hlk2 : lookupList s.lists li2 = some r2) :
    (∀ x s', s.push_back li x = some s' → lookupList s'.lists li2 = some r2) ∧
    (∀ x s', s.push_front li x = some s' → lookupList s'.lists li2 = some r2) ∧
    (∀ res s', s.pop_front li = some (res, s') →
      ∃ r2', lookupList s'.lists li2 = some r2' ∧ r2'.length = r2.length) ∧
    (∀ res s', s.pop_back li = some (res, s') →
      ∃ r2', lookupList s'.lists li2 = some r2' ∧ r2'.length = r2.length) ∧
    (∀ a res s', s.remove li a = some (res, s') →
      ∃ r2', lookupList s'.lists li2 = some r2' ∧ r2'.length = r2.length) ∧
    (∀ x res s', s.remove_item li x = some (res, s') →
      ∃ r2', lookupList s'.lists li2 = some r2' ∧ r2'.length = r2.length) := by
  obtain ⟨c, w⟩ := reachable_wf hr
  refine ⟨?_, ?_, ?_, ?_, ?_, ?_⟩
  · intro x s' h
    obtain ⟨hcap, hsome⟩ := push_back_inv h
    obtain ⟨r, hL⟩ := Option.isSome_iff_exists.mp hsome
    obtain ⟨s₀, heq, _, _, _, _, hlk, _, _, _⟩ := push_back_spec w hL hcap x
    rw [heq] at h
    cases h
    rw [hlk li2 hne]
    exact hlk2
  · intro x s' h
    obtain ⟨hcap, hsome⟩ := push_front_inv h
    obtain ⟨r, hL⟩ := Option.isSome_iff_exists.mp hsome
    obtain ⟨s₀, heq, _, _, _, _, hlk, _, _, _⟩ := push_front_spec w hL hcap x
    rw [heq] at h
    cases h
    rw [hlk li2 hne]
    exact hlk2
  · intro res s' h
    obtain ⟨r, hL⟩ := Option.isSome_iff_exists.mp (pop_front_inv h)
    cases hc : c li with
    | nil =>
      rw [(pop_front_spec w hL).1 hc] at h
      have hs : s = s' := congrArg Prod.snd (Option.some.inj h)
      subst hs
      exact ⟨r2, hlk2, rfl⟩
    | cons j rest =>
      obtain ⟨t₀, s₀, c₀, heq, _, _, _, _, _, _, _, hrecs⟩ :=
        (pop_front_spec w hL).2 j rest hc
      rw [heq] at h
      have hs : s₀ = s' := congrArg Prod.snd (Option.some.inj h)
      subst hs
      obtain ⟨r2', hr2', hr2'len, _⟩ := hrecs li2 r2 hne hlk2
      exact ⟨r2', hr2', hr2'len⟩
  · intro res s' h
    obtain ⟨r, hL⟩ := Option.isSome_iff_exists.mp (pop_back_inv h)
    rcases List.eq_nil_or_concat (c li) with hc | ⟨init, j, hc⟩
    · rw [(pop_back_spec w hL).1 hc] at h
      have hs : s = s' := congrArg Prod.snd (Option.some.inj h)
      subst hs
      exact ⟨r2, hlk2, rfl⟩
    · rw [List.concat_eq_append] at hc
      obtain ⟨t₀, s₀, c₀, heq, _, _, _, _, _, _, _, hrecs⟩ :=
        (pop_back_spec w hL).2 init j hc
      rw [heq] at h
      have hs : s₀ = s' := congrArg Prod.snd (Option.some.inj h)
      subst hs
      obtain ⟨r2', hr2', hr2'len, _⟩ := hrecs li2 r2 hne hlk2
      exact ⟨r2', hr2', hr2'len⟩
  · intro a res s' h
    obtain ⟨r, hL⟩ := Option.isSome_iff_exists.mp (remove_inv h)
    by_cases hlt : a < r.length
    · obtain ⟨t₀, s₀, c₀, heq, _, _, _, _, _, _, _, _, hrecs⟩ :=
        (remove_spec w hL a).2 hlt
      rw [heq] at h
      have hs : s₀ = s' := congrArg Prod.snd (Option.some.inj h)
      subst hs
      obtain ⟨r2', hr2', hr2'len, _⟩ := hrecs li2 r2 hne hlk2
      exact ⟨r2', hr2', hr2'len⟩
    · rw [(remove_spec w hL a).1 (by omega)] at h
      have hs : s = s' := congrArg Prod.snd (Option.some.inj h)
      subst hs
      exact ⟨r2, hlk2, rfl⟩
  · intro x res s' h
    obtain ⟨r, hL⟩ := Option.isSome_iff_exists.mp (remove_item_inv h)
    by_cases hmem : x ∈ s.listItems li
    · obtain ⟨ys, zs, hsp, hnm⟩ := mem_split_first hmem
      obtain ⟨s₀, c₀, heq, _, _, _, _, _, _, _, hrecs⟩ :=
        (remove_item_spec w hL x).2 ys zs hsp hnm
      rw [heq] at h
      have hs : s₀ = s' := congrArg Prod.snd (Option.some.inj h)
      subst hs
      obtain ⟨r2', hr2', hr2'len, _⟩ := hrecs li2 r2 hne hlk2
      exact ⟨r2', hr2', hr2'len⟩
    · rw [(remove_item_spec w hL x).1 hmem] at h
      have hs : s = s' := congrArg Prod.snd (Option.some.inj h)
      subst hs
      exact ⟨r2, hlk2, rfl⟩

theorem C8_record_frame_witness :
    ∃ r2', lookupList exF.lists 1 = some r2' ∧
      r2'.length = ({ front := 1, back := 1, length := 1 } : LinkedList).length :=
  (@C8_record_frame Nat _ exE reachable_exE 0 1 (by decide)
    { front := 1, back := 1, length := 1 } (by decide)).2.2.1 (some 10) exF
    (by decide)

theorem C8_counterexample :
    exE.pop_front 0 = some (some 10, exF) ∧
    lookupList exE.lists 1 = some { front := 1, back := 1, length := 1 } ∧
    lookupList exF.lists 1 = some { front := 0, back := 0, length := 1 } ∧
    ¬ (lookupList exF.lists 1 = lookupList exE.lists 1) := by
  refine ⟨rfl, rfl, rfl, by decide⟩
